import Mathlib

/-!
# Linemarkers: include tree reconstruction from preprocessor line markers

Shallow embedding of `src/linemarkers/linemarkers.hxx` and `src/linemarkers.cxx`.

Modelling conventions.

* A `PreprocessedFile*` is a `Ptr`: the identity of the `std::deque` storage the
  pointee lives in together with the position inside that storage.  A deque
  never moves its elements on `emplace_back`, so positions are stable addresses.
* `std::vector` and `std::deque` are lists; the `back()` of a vector is the last
  element of the list.
* `std::size_t` counters that count input lines or hold line numbers wrap modulo
  `2 ^ 64` (`size_pred` is the wrapping `linenum - 1`).  `depth` is bounded by the number of records held in memory, which a
  64-bit address space keeps below `2 ^ 64`, so `depth + 1` never wraps and is
  plain addition.
* Undefined behaviour (`back()` of an empty vector, dereferencing a pointer that
  is not an element of the tree) and thrown exceptions are results in `Except`.
-/

namespace Linemarkers

/-- Number of values of `std::size_t` / `unsigned long`. -/
def SIZE_MOD : Nat := 2 ^ 64

/-- The value of `n - 1` computed in `std::size_t`: `0 - 1` wraps to `2 ^ 64 - 1`. -/
def size_pred (n : Nat) : Nat :=
  if n = 0 then SIZE_MOD - 1 else n - 1

/-- Ways in which an operation fails to return normally. -/
inductive Fault where
  /-- The C++ standard gives the operation no meaning. -/
  | undefined_behaviour
  /-- The exception `std::out_of_range` thrown by `std::stoul`. -/
  | out_of_range
  /-- The iteration budget of a loop model is exhausted. -/
  | out_of_fuel
deriving DecidableEq, Repr

/-- Results of operations that may fail. -/
abbrev Res (α : Type) := Except Fault α

/-- Address of a `PreprocessedFile` stored in a deque. -/
structure Ptr where
  /-- Identity of the deque storage. -/
  store : Nat
  /-- Position of the element inside the storage. -/
  idx : Nat
deriving DecidableEq, Repr

/-- Class `PreprocessedFile` of `linemarkers.hxx`. -/
structure PreprocessedFile where
  included_at_line : Nat
  filename : String
  lines : List String
  includes : List Ptr
  depth : Nat
  lines_count : Nat
  cumulated_lines_count : Nat
  last_effective_line : Nat
deriving DecidableEq, Repr

/-- Constructor `PreprocessedFile::PreprocessedFile(line, filename)`. -/
def PreprocessedFile.mk2 (line : Nat) (filename : String) : PreprocessedFile :=
  { included_at_line := line
    filename := filename
    lines := []
    includes := []
    depth := 0
    lines_count := 0
    cumulated_lines_count := 0
    last_effective_line := 0 }

/-- Class `IncludeTree`: the deque `files` (with the identity of its storage) and
the pointer `root`. -/
structure IncludeTree where
  store : Nat
  files : List PreprocessedFile
  root : Ptr
deriving DecidableEq, Repr

/-- The expression `v.back()` of a vector; undefined on an empty vector. -/
def back {α : Type} (v : List α) : Res α :=
  match v.getLast? with
  | some x => .ok x
  | none => .error .undefined_behaviour

/-- The address `&files.front()`; undefined on an empty deque. -/
def IncludeTree.front_addr (store : Nat) (files : List PreprocessedFile) : Res Ptr :=
  match files with
  | [] => .error .undefined_behaviour
  | _ :: _ => .ok ⟨store, 0⟩

/-- Reading through a pointer: defined when the pointer addresses an element of
the tree's deque. -/
def IncludeTree.deref (t : IncludeTree) (p : Ptr) : Res PreprocessedFile :=
  if p.store = t.store then
    match t.files[p.idx]? with
    | some f => .ok f
    | none => .error .undefined_behaviour
  else .error .undefined_behaviour

/-- Writing through a pointer: the pointee is replaced by `g` of its value. -/
def IncludeTree.update (t : IncludeTree) (p : Ptr)
    (g : PreprocessedFile → PreprocessedFile) : Res IncludeTree := do
  let f ← t.deref p
  pure { t with files := t.files.set p.idx (g f) }

/-- Constructor `IncludeTree::IncludeTree()`; `store` identifies the storage
allocated for `files`. -/
def IncludeTree.new (store : Nat) : IncludeTree :=
  { store := store
    files := [PreprocessedFile.mk2 0 "-"]
    root := ⟨store, 0⟩ }

/-- Move constructor `IncludeTree::IncludeTree(IncludeTree&&)`: the storage
changes owner, the root pointer is recomputed. -/
def IncludeTree.move (other : IncludeTree) : Res IncludeTree := do
  let r ← IncludeTree.front_addr other.store other.files
  pure { store := other.store, files := other.files, root := r }

/-! ## The line marker pattern -/

/-- Character class `\s` in the classic locale. -/
def isspace (c : Char) : Bool :=
  c == ' ' || c == '\t' || c == '\n' || c == '\x0b' || c == '\x0c' || c == '\r'

/-- Character class `\d`. -/
def isdigit (c : Char) : Bool :=
  decide ('0' ≤ c) && decide (c ≤ '9')

/-- Character class `[^"]`. -/
def notquote (c : Char) : Bool :=
  c != '"'

/-- Sub-matches `m[1]` to `m[5]` of a successful `std::regex_match`. -/
structure Smatch where
  m1 : List Char
  m2 : List Char
  m3 : List Char
  m4 : List Char
  m5 : List Char
deriving DecidableEq, Repr

/-- One group `(\d?)`: takes a digit when one comes next. -/
def opt_digit (r : List Char) : List Char × List Char :=
  match r with
  | c :: r1 => if isdigit c then ([c], r1) else ([], r)
  | [] => ([], [])

/-- The tail `\s*(\d?)\s*(\d?)\s*(\d?)` of the pattern, which has to consume the
whole rest of the line.  Every quantifier is greedy and no shorter choice can
succeed where the greedy one fails, so the first match of the backtracking
search is the greedy one. -/
def match_flags (r : List Char) : Option (List Char × List Char × List Char) :=
  let g3 := opt_digit (r.dropWhile isspace)
  let g4 := opt_digit (g3.2.dropWhile isspace)
  let g5 := opt_digit (g4.2.dropWhile isspace)
  if g5.2 = [] then some (g3.1, g4.1, g5.1) else none

/-- The call `std::regex_match(line, m, linemarker_regex)` with
`linemarker_regex` the pattern `^#\s+(\d+)\s+"([^"]*)"\s*(\d?)\s*(\d?)\s*(\d?)`. -/
def regex_match (line : List Char) : Option Smatch :=
  match line with
  | '#' :: r0 =>
    let ws1 := r0.takeWhile isspace
    let r1 := r0.dropWhile isspace
    if ws1 = [] then none else
    let ds := r1.takeWhile isdigit
    let r2 := r1.dropWhile isdigit
    if ds = [] then none else
    let ws2 := r2.takeWhile isspace
    let r3 := r2.dropWhile isspace
    if ws2 = [] then none else
    match r3 with
    | '"' :: r4 =>
      let fn := r4.takeWhile notquote
      match r4.dropWhile notquote with
      | '"' :: r5 =>
        match match_flags r5 with
        | some (g3, g4, g5) => some ⟨ds, fn, g3, g4, g5⟩
        | none => none
      | _ => none
    | _ => none
  | _ => none

/-- Value of a string of decimal digits. -/
def digits_value (ds : List Char) : Nat :=
  ds.foldl (fun a c => 10 * a + (c.toNat - '0'.toNat)) 0

/-- The call `std::stoul(s)` on a string of digits: throws `std::out_of_range`
when the value does not fit `unsigned long`. -/
def stoul (ds : List Char) : Res Nat :=
  if digits_value ds < SIZE_MOD then .ok (digits_value ds) else .error .out_of_range

/-- The call `std::stoi(s)` on a single digit. -/
def stoi (ds : List Char) : Int :=
  Int.ofNat (digits_value ds)

/-- Helper `contains(haystack, needle)`. -/
def contains (haystack : List Int) (needle : Int) : Bool :=
  haystack.any (fun x => x == needle)

/-- The three `flags.push_back` statements of `parseLine`. -/
def flags_of (m : Smatch) : List Int :=
  (if m.m3 ≠ [] then [stoi m.m3] else []) ++
  (if m.m4 ≠ [] then [stoi m.m4] else []) ++
  (if m.m5 ≠ [] then [stoi m.m5] else [])

/-! ## The parser -/

/-- Class `LineMarkersParser_impl` (the compiled pattern is the constant
`regex_match`). -/
structure LineMarkersParser_impl where
  tree : IncludeTree
  stack : List Ptr
  in_preamble : Bool
  store_lines : Bool
deriving DecidableEq, Repr

namespace LineMarkersParser_impl

/-- Constructor `LineMarkersParser_impl(store_lines)`. -/
def new (store : Nat) (store_lines : Bool) : LineMarkersParser_impl :=
  { tree := IncludeTree.new store
    stack := [(IncludeTree.new store).root]
    in_preamble := false
    store_lines := store_lines }

/-- Method `pop_stack` (linemarkers.cxx, lines 132 to 136). -/
def pop_stack (s : LineMarkersParser_impl) : Res LineMarkersParser_impl := do
  let top ← back s.stack
  let f ← s.tree.deref top
  let include_cumulated_lines_count := (f.cumulated_lines_count + f.lines_count) % SIZE_MOD
  let tree1 ← s.tree.update top
    (fun f => { f with cumulated_lines_count := include_cumulated_lines_count })
  let stack1 := s.stack.dropLast
  let top1 ← back stack1
  let tree2 ← tree1.update top1
    (fun f => { f with cumulated_lines_count :=
                  (f.cumulated_lines_count + include_cumulated_lines_count) % SIZE_MOD })
  pure { s with tree := tree2, stack := stack1 }

/-- Method `push_stack` (linemarkers.cxx, lines 138 to 146).  The new record is
the last child of the file on top of the stack; its depth is the parent's depth
plus one, and the synthetic include line is stored in the parent whatever
`store_lines` says. -/
def push_stack (s : LineMarkersParser_impl) (filename : String) :
    Res LineMarkersParser_impl := do
  let top ← back s.stack
  let parent ← s.tree.deref top
  let tree1 : IncludeTree :=
    { s.tree with files := s.tree.files ++ [PreprocessedFile.mk2 parent.last_effective_line filename] }
  let inserted : Ptr := ⟨tree1.store, tree1.files.length - 1⟩
  let tree2 ← tree1.update top (fun f => { f with includes := f.includes ++ [inserted] })
  let parent2 ← tree2.deref top
  let child ← back parent2.includes
  -- the depth is at most the number of records held in memory: no wrap
  let tree3 ← tree2.update child (fun f => { f with depth := parent2.depth + 1 })
  let tree4 ← tree3.update top
    (fun f => { f with lines := f.lines ++ ["#include \"" ++ filename ++ "\""] })
  let parent4 ← tree4.deref top
  let child4 ← back parent4.includes
  pure { s with tree := tree4, stack := s.stack ++ [child4] }

/-- The loop `while(stack.size() > 1) pop_stack();`.  Every iteration shortens
the stack by one, so a budget of `stack.size()` iterations is never exhausted. -/
def pop_to_root : Nat → LineMarkersParser_impl → Res LineMarkersParser_impl
  | 0, s => if s.stack.length > 1 then .error .out_of_fuel else .ok s
  | fuel + 1, s =>
    if s.stack.length > 1 then do
      let s1 ← pop_stack s
      pop_to_root fuel s1
    else .ok s

/-- Method `parseLine` (linemarkers.cxx, lines 148 to 230). -/
def parseLine (s : LineMarkersParser_impl) (line : String) : Res LineMarkersParser_impl :=
  if s.in_preamble then do
    let top ← back s.stack
    let f ← s.tree.deref top
    pure { s with in_preamble := decide (line ≠ "# 1 \"" ++ f.filename ++ "\"") }
  else
    match regex_match line.data with
    | some m => do
      let linenum ← stoul m.m1
      let filename := String.mk m.m2
      let flags := flags_of m
      if contains flags 1 then do
        -- entering an include
        let current ← back s.stack
        let tree1 ← s.tree.update current
          (fun f => { f with last_effective_line := (f.last_effective_line + 1) % SIZE_MOD })
        let tree2 ← tree1.update current
          (fun f => { f with lines_count := (f.lines_count + 1) % SIZE_MOD })
        push_stack { s with tree := tree2 } filename
      else if contains flags 2 then do
        -- returning from an include; `linenum` numbers the line that follows
        let s1 ← pop_stack s
        let top ← back s1.stack
        let tree1 ← s1.tree.update top
          (fun f => { f with last_effective_line := size_pred linenum })
        pure { s1 with tree := tree1 }
      else do
        let top ← back s.stack
        let f ← s.tree.deref top
        if filename = f.filename then do
          -- same file: blank lines were skipped
          let tree1 ← s.tree.update top
            (fun f => { f with last_effective_line := size_pred linenum })
          if s.store_lines then do
            let tree2 ← tree1.update top
              (fun f => { f with lines := f.lines ++ ["#line " ++ toString linenum] })
            pure { s with tree := tree2 }
          else pure { s with tree := tree1 }
        else do
          -- another file: a new top-level source file starts
          let s1 ← pop_to_root s.stack.length s
          let s2 ← push_stack s1 filename
          pure { s2 with in_preamble := true }
    | none => do
      -- not a line marker
      let top ← back s.stack
      let tree1 ← s.tree.update top
        (fun f => { f with last_effective_line := (f.last_effective_line + 1) % SIZE_MOD })
      let tree2 ← tree1.update top
        (fun f => { f with lines_count := (f.lines_count + 1) % SIZE_MOD })
      if s.store_lines then do
        let tree3 ← tree2.update top (fun f => { f with lines := f.lines ++ [line] })
        pure { s with tree := tree3 }
      else pure { s with tree := tree2 }

/-- Method `finalize` (linemarkers.cxx, lines 232 to 235). -/
def finalize (s : LineMarkersParser_impl) : Res LineMarkersParser_impl :=
  pop_to_root s.stack.length s

/-- The loop of `from_lines` / `from_stream`: `parseLine` on every line in order. -/
def parseLines (s : LineMarkersParser_impl) : List String → Res LineMarkersParser_impl
  | [] => .ok s
  | line :: rest => do
    let s1 ← parseLine s line
    parseLines s1 rest

end LineMarkersParser_impl

/-- Functions `IncludeTree::from_lines` and `IncludeTree::from_stream`. -/
def IncludeTree.from_lines (store : Nat) (lines : List String) (store_lines : Bool) :
    Res IncludeTree := do
  let parser := LineMarkersParser_impl.new store store_lines
  let parser1 ← parser.parseLines lines
  let parser2 ← parser1.finalize
  IncludeTree.move parser2.tree

/-- The loop of `preorder_walk`; `out` collects the addresses handed to `cbk`. -/
def preorder_loop (tree : IncludeTree) : Nat → List Ptr → List Ptr → Res (List Ptr)
  | 0, queue, out => if queue = [] then .ok out else .error .out_of_fuel
  | fuel + 1, queue, out =>
    if queue = [] then .ok out else do
      let current ← back queue
      let queue1 := queue.dropLast
      let f ← tree.deref current
      preorder_loop tree fuel (queue1 ++ f.includes.reverse) (out ++ [current])

/-- Function `preorder_walk(tree, cbk)`: the sequence of addresses handed to the
visitor, within a budget of `fuel` loop iterations. -/
def preorder_walk (fuel : Nat) (tree : IncludeTree) : Res (List Ptr) := do
  let r ← tree.deref tree.root
  preorder_loop tree fuel ([] ++ r.includes.reverse) []

/-! ## Copying a tree -/

/-- The `std::find_if` / `std::distance` pair of `relocate_files`: position of the
first element of `other.files` whose address is the pointer `include`, or the size of
`other.files` when there is none. -/
def find_dst (other : IncludeTree) (incl : Ptr) : Nat :=
  ((List.range other.files.length).find? (fun k => decide (Ptr.mk other.store k = incl))).getD
    other.files.length

/-- The inner loop of `relocate_files` on the `includes` of one file;
`&files[dst]` has no meaning when `dst` is not a position of `files`. -/
def relocate_includes (store : Nat) (size : Nat) (other : IncludeTree) :
    List Ptr → Res (List Ptr)
  | [] => .ok []
  | incl :: rest => do
    let dst := find_dst other incl
    if dst < size then do
      let rest1 ← relocate_includes store size other rest
      pure (Ptr.mk store dst :: rest1)
    else .error .undefined_behaviour

/-- The outer loop of `relocate_files` over the files of the tree. -/
def relocate_loop (store : Nat) (size : Nat) (other : IncludeTree) :
    List PreprocessedFile → Res (List PreprocessedFile)
  | [] => .ok []
  | file :: rest => do
    let includes1 ← relocate_includes store size other file.includes
    let rest1 ← relocate_loop store size other rest
    pure ({ file with includes := includes1 } :: rest1)

/-- Method `IncludeTree::relocate_files`. -/
def IncludeTree.relocate_files (t : IncludeTree) (other : IncludeTree) : Res IncludeTree := do
  let files1 ← relocate_loop t.store t.files.length other t.files
  pure { t with files := files1 }

/-- Copy constructor `IncludeTree::IncludeTree(const IncludeTree&)`; `store`
identifies the storage allocated for the new deque. -/
def IncludeTree.copy_construct (store : Nat) (other : IncludeTree) : Res IncludeTree := do
  let r ← IncludeTree.front_addr store other.files
  IncludeTree.relocate_files { store := store, files := other.files, root := r } other

/-- Copy assignment `IncludeTree::operator=(const IncludeTree&)`: the deque of
`self` keeps its storage and receives copies of the elements of `other`. -/
def IncludeTree.copy_assign (self : IncludeTree) (other : IncludeTree) : Res IncludeTree := do
  let r ← IncludeTree.front_addr self.store other.files
  IncludeTree.relocate_files { store := self.store, files := other.files, root := r } other

/-! ## Test fixture -/

/-- Output of `g++ -E d.cpp e.cpp` for the files written by `tests.cxx`. -/
def fixture_lines : List String :=
  ["# 1 \"d.cpp\"", "# 1 \"<built-in>\"", "# 1 \"<command-line>\"", "# 1 \"d.cpp\"",
   "# 1 \"c.h\" 1", "", "", "# 1 \"a.h\" 1", "", "", "void a3();", "# 4 \"c.h\" 2",
   "# 12 \"c.h\"", "# 1 \"b.h\" 1", "", "", "", "void b4();", "# 13 \"c.h\" 2",
   "void c13();", "# 2 \"d.cpp\" 2", "void d2();", "# 1 \"e.cpp\"", "# 1 \"<built-in>\"",
   "# 1 \"<command-line>\"", "# 1 \"e.cpp\"", "void e1();"]

/-! ## Specification vocabulary -/

/-- A group `(\d?)` seen as a language: nothing, or one decimal digit. -/
def OptDigit (d : List Char) : Prop :=
  d = [] ∨ ∃ c, d = [c] ∧ isdigit c = true

/-- The language of the pattern `^#\s+(\d+)\s+"([^"]*)"\s*(\d?)\s*(\d?)\s*(\d?)`
written out with list concatenation: `#`, white space, digits, white space, a
quoted name without a quote inside, and up to three digits with optional white
space before each of them. -/
def MarkerShape (line : List Char) : Prop :=
  ∃ ws1 ds ws2 fn w3 d3 w4 d4 w5 d5,
    line = '#' :: (ws1 ++ (ds ++ (ws2 ++ '"' :: (fn ++ '"' ::
      (w3 ++ (d3 ++ (w4 ++ (d4 ++ (w5 ++ d5))))))))) ∧
    ws1 ≠ [] ∧ (∀ c ∈ ws1, isspace c = true) ∧
    ds ≠ [] ∧ (∀ c ∈ ds, isdigit c = true) ∧
    ws2 ≠ [] ∧ (∀ c ∈ ws2, isspace c = true) ∧
    (∀ c ∈ fn, c ≠ '"') ∧
    (∀ c ∈ w3, isspace c = true) ∧ OptDigit d3 ∧
    (∀ c ∈ w4, isspace c = true) ∧ OptDigit d4 ∧
    (∀ c ∈ w5, isspace c = true) ∧ OptDigit d5

/-- What `parseLine` does with a content line: the file `f` on top of the stack
after the line has been counted. -/
def count_line (store_lines : Bool) (line : String) (f : PreprocessedFile) : PreprocessedFile :=
  { f with
    last_effective_line := (f.last_effective_line + 1) % SIZE_MOD
    lines_count := (f.lines_count + 1) % SIZE_MOD
    lines := if store_lines then f.lines ++ [line] else f.lines }

/-! ## Index view of the parser state

The proofs look at a parser state through the positions of its records: the
number of records, the children of each record as positions, the counters of
each record and the stack from its top down to the root.  Every step of
`parseLine` is one of three moves on this view. -/

/-- The record at position `i` of a tree (a blank record outside the deque). -/
def IncludeTree.rec_at (t : IncludeTree) (i : Nat) : PreprocessedFile :=
  t.files.getD i (PreprocessedFile.mk2 0 "")

/-- Index view of a parser state. -/
structure AState where
  /-- Number of records. -/
  n : Nat
  /-- Positions of the children of each record, in stored order. -/
  inc : Nat → List Nat
  depth : Nat → Nat
  lc : Nat → Nat
  cum : Nat → Nat
  fname : Nat → String
  incl_at : Nat → Nat
  /-- Positions of the open files, top of the stack first. -/
  stackR : List Nat

/-- The index view of a parser state. -/
def LineMarkersParser_impl.view (s : LineMarkersParser_impl) : AState :=
  { n := s.tree.files.length
    inc := fun i => (s.tree.rec_at i).includes.map Ptr.idx
    depth := fun i => (s.tree.rec_at i).depth
    lc := fun i => (s.tree.rec_at i).lines_count
    cum := fun i => (s.tree.rec_at i).cumulated_lines_count
    fname := fun i => (s.tree.rec_at i).filename
    incl_at := fun i => (s.tree.rec_at i).included_at_line
    stackR := s.stack.reverse.map Ptr.idx }

/-- Every pointer held by the parser points into the storage of its own tree. -/
def LineMarkersParser_impl.StoreOK (s : LineMarkersParser_impl) : Prop :=
  (∀ p ∈ s.stack, p.store = s.tree.store) ∧
  (∀ i, ∀ c ∈ (s.tree.rec_at i).includes, c.store = s.tree.store) ∧
  s.tree.root = ⟨s.tree.store, 0⟩

/-- Move "count one line for the file at `top`". -/
def AState.bump (a : AState) (top : Nat) : AState :=
  { a with lc := Function.update a.lc top ((a.lc top + 1) % SIZE_MOD) }

/-- Move "append a record as last child of `top` and open it". -/
def AState.push (a : AState) (top : Nat) (fn : String) (lel : Nat) : AState :=
  { n := a.n + 1
    inc := Function.update (Function.update a.inc top (a.inc top ++ [a.n])) a.n []
    depth := Function.update a.depth a.n (a.depth top + 1)
    lc := Function.update a.lc a.n 0
    cum := Function.update a.cum a.n 0
    fname := Function.update a.fname a.n fn
    incl_at := Function.update a.incl_at a.n lel
    stackR := a.n :: a.stackR }

/-- Move "close `top` and fold its counts into `q`, the file below it". -/
def AState.pop (a : AState) (top q : Nat) : AState :=
  { a with
    cum := Function.update (Function.update a.cum top ((a.cum top + a.lc top) % SIZE_MOD)) q
      ((Function.update a.cum top ((a.cum top + a.lc top) % SIZE_MOD) q +
        (a.cum top + a.lc top) % SIZE_MOD) % SIZE_MOD)
    stackR := a.stackR.tail }

/-- One move of the index view, with the number of lines it counts. -/
inductive AStep : Nat → AState → AState → Prop where
  | bump (a : AState) (top : Nat) (below : List Nat) :
      a.stackR = top :: below → AStep 1 a (a.bump top)
  | push (a : AState) (top : Nat) (below : List Nat) (fn : String) (lel : Nat) :
      a.stackR = top :: below → AStep 0 a (a.push top fn lel)
  | pop (a : AState) (top q : Nat) (below : List Nat) :
      a.stackR = top :: q :: below → AStep 0 a (a.pop top q)

/-- A sequence of moves, with the number of lines it counts. -/
inductive ASteps : Nat → AState → AState → Prop where
  | refl (a : AState) : ASteps 0 a a
  | step {c d : Nat} {a b z : AState} : AStep c a b → ASteps d b z → ASteps (c + d) a z

/-- Structure of the open and closed files: stack positions are valid, strictly
decreasing from the top and end at the root; children lie after their parent;
a child is open only as the last child of the open file right below it. -/
structure AState.WF (a : AState) : Prop where
  stack_valid : ∀ p ∈ a.stackR, p < a.n
  stack_sorted : a.stackR.Pairwise (fun p q => q < p)
  bottom : a.stackR.getLast? = some 0
  inc_valid : ∀ i, i < a.n → ∀ c ∈ a.inc i, i < c ∧ c < a.n
  closed_children : ∀ i, i < a.n → i ∉ a.stackR → ∀ c ∈ a.inc i, c ∉ a.stackR
  top_children : ∀ top ∈ a.stackR.head?, ∀ c ∈ a.inc top, c ∉ a.stackR
  below_last : a.stackR.Chain' (fun p q => (a.inc q).getLast? = some p)
  below_closed : ∀ q ∈ a.stackR.tail, ∀ c ∈ (a.inc q).dropLast, c ∉ a.stackR

/-- Every child is one level deeper than its parent. -/
def AState.DepthOK (a : AState) : Prop :=
  ∀ i, i < a.n → ∀ c ∈ a.inc i, a.depth c = a.depth i + 1

/-- The record at position 0 is the synthetic root. -/
def AState.RootOK (a : AState) : Prop :=
  a.fname 0 = "-" ∧ a.depth 0 = 0 ∧ a.incl_at 0 = 0

/-- Sum of a counter over a list of positions. -/
def sum_at (f : Nat → Nat) (l : List Nat) : Nat :=
  (l.map f).sum

/-- Cumulative counts, as congruences modulo `m` (`m = 0` gives equalities): a
closed file holds its own count plus its children's totals, an open file holds
the totals of its closed children. -/
structure AState.CumOK (m : Nat) (a : AState) : Prop where
  closed : ∀ i, i < a.n → i ∉ a.stackR →
    Nat.ModEq m (a.cum i) (a.lc i + sum_at a.cum (a.inc i))
  top : ∀ top ∈ a.stackR.head?, Nat.ModEq m (a.cum top) (sum_at a.cum (a.inc top))
  below : ∀ q ∈ a.stackR.tail, Nat.ModEq m (a.cum q) (sum_at a.cum (a.inc q).dropLast)

/-- The counters of the open files add up to at most `k`. -/
def AState.SumBound (k : Nat) (a : AState) : Prop :=
  (a.stackR.map (fun p => a.cum p + a.lc p)).sum ≤ k

/-- The list `cs` is a run of adjacent closed subtrees covering the positions
from `x` up to `y`, where the subtree of `c` covers `c` up to `e c`. -/
def ChainTo (e : Nat → Nat) : Nat → List Nat → Nat → Prop
  | x, [], y => x = y
  | x, c :: cs, y => c = x ∧ x < e x ∧ ChainTo e (e x) cs y

/-- Interval structure: the subtree of a closed file `i` covers the positions
from `i` up to `e i`, and its children are adjacent subtrees filling the
positions after `i`; the closed children of an open file fill the positions up
to its open child, or up to the end for the top of the stack. -/
structure AState.Shape (e : Nat → Nat) (a : AState) : Prop where
  closed : ∀ i, i < a.n → i ∉ a.stackR → e i ≤ a.n ∧ ChainTo e (i + 1) (a.inc i) (e i)
  top : ∀ top ∈ a.stackR.head?, ChainTo e (top + 1) (a.inc top) a.n
  below : ∀ q ∈ a.stackR.tail, ∀ p, (a.inc q).getLast? = some p →
    ChainTo e (q + 1) (a.inc q).dropLast p

/-- Interval structure of a finished tree, on the records themselves. -/
def IncludeTree.Intervals (t : IncludeTree) (e : Nat → Nat) : Prop :=
  (∀ i, i < t.files.length → ∀ c ∈ (t.rec_at i).includes, c.store = t.store) ∧
  ChainTo e 1 ((t.rec_at 0).includes.map Ptr.idx) t.files.length ∧
  ∀ i, 0 < i → i < t.files.length →
    e i ≤ t.files.length ∧ ChainTo e (i + 1) ((t.rec_at i).includes.map Ptr.idx) (e i)

/-- Record `q` is a descendant of record `p`. -/
inductive Desc (t : IncludeTree) : Ptr → Ptr → Prop where
  | child (p c : Ptr) (f : PreprocessedFile) :
      t.deref p = .ok f → c ∈ f.includes → Desc t p c
  | trans (p q r : Ptr) : Desc t p q → Desc t q r → Desc t p r

/-- The tree with the record at position `i` replaced by `x`. -/
def IncludeTree.put (t : IncludeTree) (i : Nat) (x : PreprocessedFile) : IncludeTree :=
  { t with files := t.files.set i x }

/-- The tree with the record `x` appended to the deque. -/
def IncludeTree.emplace_back (t : IncludeTree) (x : PreprocessedFile) : IncludeTree :=
  { t with files := t.files ++ [x] }

/-- State reached by `pop_stack` when `top` is on top of the stack and `q` right
below it. -/
def LineMarkersParser_impl.popped (s : LineMarkersParser_impl) (top q : Ptr) :
    LineMarkersParser_impl :=
  let c := ((s.tree.rec_at top.idx).cumulated_lines_count +
    (s.tree.rec_at top.idx).lines_count) % SIZE_MOD
  let tree1 := s.tree.put top.idx { s.tree.rec_at top.idx with cumulated_lines_count := c }
  { s with
    tree := tree1.put q.idx { tree1.rec_at q.idx with
      cumulated_lines_count := ((tree1.rec_at q.idx).cumulated_lines_count + c) % SIZE_MOD }
    stack := s.stack.dropLast }

/-- State reached by `push_stack` when `top` is on top of the stack. -/
def LineMarkersParser_impl.pushed (s : LineMarkersParser_impl) (top : Ptr) (filename : String) :
    LineMarkersParser_impl :=
  let parent := s.tree.rec_at top.idx
  let inserted : Ptr := ⟨s.tree.store, s.tree.files.length⟩
  let tree1 := s.tree.emplace_back (PreprocessedFile.mk2 parent.last_effective_line filename)
  let tree2 := tree1.put top.idx { parent with includes := parent.includes ++ [inserted] }
  let tree3 := tree2.put inserted.idx
    { PreprocessedFile.mk2 parent.last_effective_line filename with depth := parent.depth + 1 }
  let tree4 := tree3.put top.idx
    { parent with
      includes := parent.includes ++ [inserted]
      lines := parent.lines ++ ["#include \"" ++ filename ++ "\""] }
  { s with tree := tree4, stack := s.stack ++ [inserted] }

/-- The file on top of the stack after a marker with flag 1 has counted the
include statement as one of its lines. -/
def count_include (f : PreprocessedFile) : PreprocessedFile :=
  { f with
    last_effective_line := (f.last_effective_line + 1) % SIZE_MOD
    lines_count := (f.lines_count + 1) % SIZE_MOD }

/-- The file resumed at line `linenum`: the marker gives the number of the line
that follows, computed in `std::size_t`. -/
def resume_at (linenum : Nat) (f : PreprocessedFile) : PreprocessedFile :=
  { f with last_effective_line := size_pred linenum }

/-- The file on top of the stack after a line-number jump to `linenum`. -/
def jump_to (store_lines : Bool) (linenum : Nat) (f : PreprocessedFile) : PreprocessedFile :=
  { f with
    last_effective_line := size_pred linenum
    lines := if store_lines then f.lines ++ ["#line " ++ toString linenum] else f.lines }

/-- Sum of the cumulative counts of the children of record `f` of tree `t`. -/
def IncludeTree.children_total (t : IncludeTree) (f : PreprocessedFile) : Nat :=
  (f.includes.map (fun c => (t.rec_at c.idx).cumulated_lines_count)).sum

/-- Every child stored in the tree is one level deeper than its parent. -/
def IncludeTree.DepthRule (t : IncludeTree) : Prop :=
  ∀ p f, t.deref p = .ok f → ∀ c ∈ f.includes, ∃ g, t.deref c = .ok g ∧ g.depth = f.depth + 1

/-- Every direct child of the root has depth 1. -/
def IncludeTree.RootChildrenRule (t : IncludeTree) : Prop :=
  ∀ r, t.deref t.root = .ok r → ∀ c ∈ r.includes, ∃ g, t.deref c = .ok g ∧ g.depth = 1

/-- What is left of `r` after `\s*(\d?)` has taken white space and a digit. -/
def flag_rest (r : List Char) : List Char :=
  (opt_digit (r.dropWhile isspace)).2

/-- The language of `k` repetitions of `\s*(\d?)`. -/
def FlagLang : Nat → List Char → Prop
  | 0, r => r = []
  | k + 1, r => ∃ w d r', r = w ++ (d ++ r') ∧ (∀ c ∈ w, isspace c = true) ∧ OptDigit d ∧
      FlagLang k r'

/-- The pointer `c` moved to the same position of the storage `store`. -/
def Ptr.rebase (store : Nat) (c : Ptr) : Ptr :=
  ⟨store, c.idx⟩

/-- Tree `t'`, living in the storage `store`, is a faithful copy of `t`: same
number of records with the same scalar fields and content, the root refers to
`t'.files[0]`, every child reference refers to the record of `t'` at the
position its original has in `t`, and none refers into the storage of `t`
(when the two storages differ). -/
def IncludeTree.CopyOf (store : Nat) (t t' : IncludeTree) : Prop :=
  t'.store = store ∧ t'.root = ⟨store, 0⟩ ∧ t'.deref t'.root = .ok (t'.rec_at 0) ∧
  t'.files.length = t.files.length ∧
  (∀ (i : Nat) (f : PreprocessedFile), t.files[i]? = some f →
    ∃ f' : PreprocessedFile, t'.files[i]? = some f' ∧
    f'.filename = f.filename ∧ f'.included_at_line = f.included_at_line ∧
    f'.depth = f.depth ∧ f'.lines_count = f.lines_count ∧
    f'.cumulated_lines_count = f.cumulated_lines_count ∧
    f'.last_effective_line = f.last_effective_line ∧ f'.lines = f.lines ∧
    f'.includes.length = f.includes.length ∧
    ∀ (j : Nat) (c : Ptr), f.includes[j]? = some c →
      t.deref c = .ok (t.rec_at c.idx) ∧ f'.includes[j]? = some ⟨store, c.idx⟩ ∧
      t'.deref ⟨store, c.idx⟩ = .ok (t'.rec_at c.idx)) ∧
  (store ≠ t.store → ∀ f' ∈ t'.files, ∀ c ∈ f'.includes, c.store ≠ t.store)


/-! ## Vocabulary for single steps and whole runs -/

/-- A marker without flag 1 or 2 whose line number fits `unsigned long` and whose
filename is `filename`: the lines that take the third branch of `parseLine` while
a file of that name is on top of the stack. -/
def is_jump_marker (filename : String) (line : String) : Bool :=
  match regex_match line.data with
  | some m =>
    match stoul m.m1 with
    | .ok _ =>
      !contains (flags_of m) 1 && !contains (flags_of m) 2 && decide (String.mk m.m2 = filename)
    | .error _ => false
  | none => false

/-- The method `pop_stack` called `k` times in a row. -/
def LineMarkersParser_impl.pop_times :
    Nat → LineMarkersParser_impl → Res LineMarkersParser_impl
  | 0, s => .ok s
  | k + 1, s => do
    let s1 ← LineMarkersParser_impl.pop_stack s
    LineMarkersParser_impl.pop_times k s1

/-- Tree `t'` differs from tree `t` in no more than the `cumulated_lines_count` of
its records: same storage, same root, same number of records, and every record
keeps all its other fields. -/
def IncludeTree.SameButCum (t t' : IncludeTree) : Prop :=
  t'.store = t.store ∧ t'.root = t.root ∧ t'.files.length = t.files.length ∧
  ∀ i, t'.rec_at i =
    { t.rec_at i with cumulated_lines_count := (t'.rec_at i).cumulated_lines_count }

/-- The line is a marker with flag 2 and without flag 1, read outside the preamble
while the root is the only open file: the case in which `parseLine` calls
`pop_stack` on a stack that holds the root only (a marker whose line number does
not fit never gets that far). -/
def pops_root (s : LineMarkersParser_impl) (line : String) : Bool :=
  !s.in_preamble &&
    match regex_match line.data with
    | some m =>
      match stoul m.m1 with
      | .ok _ =>
        !contains (flags_of m) 1 && contains (flags_of m) 2 && decide (s.stack.length ≤ 1)
      | .error _ => false
    | none => false

/-- Some line of the run of `parseLine` over `lines` from state `s` is a flag-2
marker processed while the root is the only open file. -/
def pops_root_run : LineMarkersParser_impl → List String → Bool
  | _, [] => false
  | s, line :: rest =>
    pops_root s line ||
      match LineMarkersParser_impl.parseLine s line with
      | .ok s' => pops_root_run s' rest
      | .error _ => false

/-- Every cumulative count is a value of `std::size_t`. -/
def AState.Small (a : AState) : Prop :=
  ∀ i, a.cum i < SIZE_MOD

/-- What the open files hold of the lines of the non-root records: the
cumulative count of every open file, and the own count of every open file but
the root. -/
def AState.open_total (a : AState) : Nat :=
  (a.stackR.map (fun p => a.cum p + (if p = 0 then 0 else a.lc p))).sum

/-- The lines of the non-root records are all accounted for by the open files,
as a congruence modulo `m` (`m = 0` gives an equality). -/
def AState.TotalOK (m : Nat) (a : AState) : Prop :=
  Nat.ModEq m a.open_total (sum_at a.lc (List.range' 1 (a.n - 1)))

/-! ## Two runs side by side

Vocabulary for comparing two parsers that read the same lines, each with its
own storage and its own retention setting. -/

/-- Pointers `p1` and `p2` address the same position, each in its own storage
(`σ1` for the first run, `σ2` for the second) or both outside it. -/
def PtrRel (σ1 σ2 : Nat) (p1 p2 : Ptr) : Prop :=
  p1.idx = p2.idx ∧ (p1.store = σ1 ↔ p2.store = σ2)

/-- Records `f1` and `f2` agree on every field but `lines`, their `includes`
addressing the same positions. -/
def FileRel (σ1 σ2 : Nat) (f1 f2 : PreprocessedFile) : Prop :=
  f1.filename = f2.filename ∧ f1.included_at_line = f2.included_at_line ∧
  f1.depth = f2.depth ∧ f1.lines_count = f2.lines_count ∧
  f1.cumulated_lines_count = f2.cumulated_lines_count ∧
  f1.last_effective_line = f2.last_effective_line ∧
  List.Forall₂ (PtrRel σ1 σ2) f1.includes f2.includes

/-- Trees `t1` (in storage `σ1`) and `t2` (in storage `σ2`) have as many records,
which agree position by position on every field but `lines`. -/
def TreeRel (σ1 σ2 : Nat) (t1 t2 : IncludeTree) : Prop :=
  t1.store = σ1 ∧ t2.store = σ2 ∧ List.Forall₂ (FileRel σ1 σ2) t1.files t2.files ∧
  PtrRel σ1 σ2 t1.root t2.root

/-- Parser states that agree on everything but the retained lines and the
retention setting. -/
def StateRel (σ1 σ2 : Nat) (s1 s2 : LineMarkersParser_impl) : Prop :=
  TreeRel σ1 σ2 s1.tree s2.tree ∧ List.Forall₂ (PtrRel σ1 σ2) s1.stack s2.stack ∧
  s1.in_preamble = s2.in_preamble

/-- Two outcomes correspond: the same fault, or two results related by `R`. -/
def ResRel {α β : Type} (R : α → β → Prop) (r1 : Res α) (r2 : Res β) : Prop :=
  match r1, r2 with
  | .ok a, .ok b => R a b
  | .error e1, .error e2 => e1 = e2
  | _, _ => False

/-! ## The parser as an object

The methods once more, as the source has them: working in place on the parser
object.  A call yields its outcome together with the object as the call leaves
it, also when it leaves by a fault, so that what a call has written before
raising is visible. -/

/-- A member function of the parser: from the object before the call to the
outcome of the call and the object after it. -/
def Eff (α : Type) : Type :=
  LineMarkersParser_impl → Except Fault α × LineMarkersParser_impl

/-- Leaving with a value, the object untouched. -/
def Eff.pure {α : Type} (a : α) : Eff α :=
  fun s => (.ok a, s)

/-- Sequencing: the second part runs on the object the first part left, and does
not run when the first part raised. -/
def Eff.bind {α β : Type} (m : Eff α) (f : α → Eff β) : Eff β :=
  fun s =>
    match m s with
    | (.ok a, s1) => f a s1
    | (.error e, s1) => (.error e, s1)

instance : Monad Eff where
  pure := Eff.pure
  bind := Eff.bind

/-- An expression that reads the object; it may be undefined or throw, and
writes nothing. -/
def Eff.eval {α : Type} (r : LineMarkersParser_impl → Res α) : Eff α :=
  fun s => (r s, s)

/-- An assignment through the pointer `p` to fields of a record of the tree. -/
def Eff.assign (p : Ptr) (g : PreprocessedFile → PreprocessedFile) : Eff Unit :=
  fun s =>
    match s.tree.update p g with
    | .ok t => (.ok (), { s with tree := t })
    | .error e => (.error e, s)

/-- A statement that changes the object and cannot fail. -/
def Eff.exec (g : LineMarkersParser_impl → LineMarkersParser_impl) : Eff Unit :=
  fun s => (.ok (), g s)

/-- What a call returns when it returns: the object it leaves. -/
def Eff.result (m : Eff Unit) (s : LineMarkersParser_impl) : Res LineMarkersParser_impl :=
  match m s with
  | (.ok _, s1) => .ok s1
  | (.error e, _) => .error e

namespace InPlace

/-- Method `pop_stack` (linemarkers.cxx, lines 132 to 136), in place. -/
def pop_stack : Eff Unit := do
  let top ← Eff.eval (fun s => back s.stack)
  let f ← Eff.eval (fun s => s.tree.deref top)
  let include_cumulated_lines_count := (f.cumulated_lines_count + f.lines_count) % SIZE_MOD
  Eff.assign top (fun f => { f with cumulated_lines_count := include_cumulated_lines_count })
  Eff.exec (fun s => { s with stack := s.stack.dropLast })
  let top1 ← Eff.eval (fun s => back s.stack)
  Eff.assign top1
    (fun f => { f with cumulated_lines_count :=
                  (f.cumulated_lines_count + include_cumulated_lines_count) % SIZE_MOD })

/-- Method `push_stack` (linemarkers.cxx, lines 138 to 146), in place. -/
def push_stack (filename : String) : Eff Unit := do
  let top ← Eff.eval (fun s => back s.stack)
  let parent ← Eff.eval (fun s => s.tree.deref top)
  Eff.exec (fun s => { s with
    tree := { s.tree with
      files := s.tree.files ++ [PreprocessedFile.mk2 parent.last_effective_line filename] } })
  let inserted ← Eff.eval (fun s => .ok (Ptr.mk s.tree.store (s.tree.files.length - 1)))
  Eff.assign top (fun f => { f with includes := f.includes ++ [inserted] })
  let parent2 ← Eff.eval (fun s => s.tree.deref top)
  let child ← Eff.eval (fun _ => back parent2.includes)
  Eff.assign child (fun f => { f with depth := parent2.depth + 1 })
  Eff.assign top (fun f => { f with lines := f.lines ++ ["#include \"" ++ filename ++ "\""] })
  let parent4 ← Eff.eval (fun s => s.tree.deref top)
  let child4 ← Eff.eval (fun _ => back parent4.includes)
  Eff.exec (fun s => { s with stack := s.stack ++ [child4] })

/-- The loop `while(stack.size() > 1) pop_stack();`, in place, within a budget
of `fuel` iterations. -/
def pop_to_root : Nat → Eff Unit
  | 0 => do
    let s ← Eff.eval (fun s => .ok s)
    if s.stack.length > 1 then Eff.eval (fun _ => .error .out_of_fuel) else pure ()
  | fuel + 1 => do
    let s ← Eff.eval (fun s => .ok s)
    if s.stack.length > 1 then do
      pop_stack
      pop_to_root fuel
    else pure ()

/-- Method `parseLine` (linemarkers.cxx, lines 148 to 230), in place. -/
def parseLine (line : String) : Eff Unit := do
  let s ← Eff.eval (fun s => .ok s)
  if s.in_preamble then do
    let top ← Eff.eval (fun s => back s.stack)
    let f ← Eff.eval (fun s => s.tree.deref top)
    Eff.exec (fun s => { s with in_preamble := decide (line ≠ "# 1 \"" ++ f.filename ++ "\"") })
  else
    match regex_match line.data with
    | some m => do
      let linenum ← Eff.eval (fun _ => stoul m.m1)
      let filename := String.mk m.m2
      let flags := flags_of m
      if contains flags 1 then do
        -- entering an include
        let current ← Eff.eval (fun s => back s.stack)
        Eff.assign current
          (fun f => { f with last_effective_line := (f.last_effective_line + 1) % SIZE_MOD })
        Eff.assign current
          (fun f => { f with lines_count := (f.lines_count + 1) % SIZE_MOD })
        push_stack filename
      else if contains flags 2 then do
        -- returning from an include
        pop_stack
        let top ← Eff.eval (fun s => back s.stack)
        Eff.assign top (fun f => { f with last_effective_line := size_pred linenum })
      else do
        let top ← Eff.eval (fun s => back s.stack)
        let f ← Eff.eval (fun s => s.tree.deref top)
        if filename = f.filename then do
          -- same file: blank lines were skipped
          Eff.assign top (fun f => { f with last_effective_line := size_pred linenum })
          if s.store_lines then
            Eff.assign top (fun f => { f with lines := f.lines ++ ["#line " ++ toString linenum] })
          else pure ()
        else do
          -- another file: a new top-level source file starts
          pop_to_root s.stack.length
          push_stack filename
          Eff.exec (fun s => { s with in_preamble := true })
    | none => do
      -- not a line marker
      let top ← Eff.eval (fun s => back s.stack)
      Eff.assign top
        (fun f => { f with last_effective_line := (f.last_effective_line + 1) % SIZE_MOD })
      Eff.assign top
        (fun f => { f with lines_count := (f.lines_count + 1) % SIZE_MOD })
      if s.store_lines then
        Eff.assign top (fun f => { f with lines := f.lines ++ [line] })
      else pure ()

end InPlace
/-! ## Theorems -/

open LineMarkersParser_impl

/-! ### Moves preserve the structure of open and closed files -/

theorem AState.WF.bump {a : AState} (h : a.WF) (top : Nat) : (a.bump top).WF :=
  { stack_valid := h.stack_valid
    stack_sorted := h.stack_sorted
    bottom := h.bottom
    inc_valid := h.inc_valid
    closed_children := h.closed_children
    top_children := h.top_children
    below_last := h.below_last
    below_closed := h.below_closed }

theorem AState.WF.pos {a : AState} (h : a.WF) : 0 < a.n := by
  have h0 : (0 : Nat) ∈ a.stackR := List.mem_of_getLast?_eq_some h.bottom
  have := h.stack_valid 0 h0
  omega

theorem AState.WF.top_lt {a : AState} (h : a.WF) {top : Nat} {below : List Nat}
    (hs : a.stackR = top :: below) : top < a.n :=
  h.stack_valid top (by simp [hs])

theorem AState.WF.below_lt {a : AState} (h : a.WF) {top : Nat} {below : List Nat}
    (hs : a.stackR = top :: below) : ∀ q ∈ below, q < top := by
  have := h.stack_sorted
  rw [hs, List.pairwise_cons] at this
  exact this.1

theorem AState.WF.push {a : AState} (h : a.WF) {top : Nat} {below : List Nat}
    (hs : a.stackR = top :: below) (fn : String) (lel : Nat) : (a.push top fn lel).WF := by
  have htop : top < a.n := h.top_lt hs
  have hbl := h.below_lt hs
  have hsv := h.stack_valid
  rw [hs] at hsv
  have hinc_top : (a.push top fn lel).inc top = a.inc top ++ [a.n] := by
    simp [AState.push, Function.update_apply, Nat.ne_of_lt htop]
  have hinc_n : (a.push top fn lel).inc a.n = [] := by
    simp [AState.push]
  have hinc_other : ∀ i, i ≠ top → i ≠ a.n → (a.push top fn lel).inc i = a.inc i := by
    intro i h1 h2
    simp [AState.push, Function.update_apply, h1, h2]
  have hstack : (a.push top fn lel).stackR = a.n :: top :: below := by
    simp [AState.push, hs]
  have hn : (a.push top fn lel).n = a.n + 1 := rfl
  constructor
  · intro p hp
    rw [hstack] at hp
    rw [hn]
    rcases List.mem_cons.mp hp with rfl | hp
    · omega
    · have := hsv p hp
      omega
  · rw [hstack, List.pairwise_cons]
    refine ⟨fun q hq => hsv q hq, ?_⟩
    have := h.stack_sorted
    rwa [hs] at this
  · rw [hstack, List.getLast?_cons_cons, ← hs]
    exact h.bottom
  · intro i hi c hc
    rw [hn] at hi ⊢
    by_cases h1 : i = a.n
    · subst h1
      rw [hinc_n] at hc
      simp at hc
    · by_cases h2 : i = top
      · subst h2
        rw [hinc_top] at hc
        rcases List.mem_append.mp hc with hc | hc
        · have := h.inc_valid i htop c hc
          omega
        · simp at hc
          omega
      · rw [hinc_other i h2 h1] at hc
        have := h.inc_valid i (by omega) c hc
        omega
  · intro i hi hni c hc
    rw [hn] at hi
    rw [hstack] at hni ⊢
    simp only [List.mem_cons, not_or] at hni
    obtain ⟨h1, h2, h3⟩ := hni
    rw [hinc_other i h2 h1] at hc
    have hlt : i < a.n := by omega
    have hv := h.inc_valid i hlt c hc
    have hcl := h.closed_children i hlt (by simp [hs, h2, h3]) c hc
    rw [hs] at hcl
    simp only [List.mem_cons, not_or] at hcl ⊢
    exact ⟨by omega, hcl.1, hcl.2⟩
  · intro t ht c hc
    rw [hstack] at ht
    simp at ht
    subst ht
    rw [hinc_n] at hc
    simp at hc
  · rw [hstack, List.chain'_cons]
    refine ⟨by rw [hinc_top]; simp, ?_⟩
    have hch := h.below_last
    rw [hs] at hch
    rw [List.Chain'.iff_mem] at hch
    refine hch.imp ?_
    rintro p q ⟨hp, hq, hr⟩
    have hq1 : q < a.n := hsv q hq
    have hqp : q < p := (h.inc_valid q hq1 p (List.mem_of_getLast?_eq_some hr)).1
    have hp1 : p < a.n := hsv p hp
    have hpt : p ≤ top := by
      rcases List.mem_cons.mp hp with rfl | hp
      · exact Nat.le_refl _
      · exact Nat.le_of_lt (hbl p hp)
    rw [hinc_other q (by omega) (by omega)]
    exact hr
  · intro q hq c hc
    rw [hstack] at hq ⊢
    simp only [List.tail_cons] at hq
    rcases List.mem_cons.mp hq with rfl | hq
    · rw [hinc_top, List.dropLast_concat] at hc
      have hv := h.inc_valid q htop c hc
      have hcl := h.top_children q (by simp [hs]) c hc
      rw [hs] at hcl
      simp only [List.mem_cons, not_or] at hcl ⊢
      exact ⟨by omega, hcl.1, hcl.2⟩
    · have hq1 := hbl q hq
      have hq2 := hsv q (List.mem_cons_of_mem _ hq)
      rw [hinc_other q (by omega) (by omega)] at hc
      have hcl := h.below_closed q (by simp [hs, hq]) c hc
      have hc' := List.mem_of_mem_dropLast hc
      have hv := h.inc_valid q hq2 c hc'
      rw [hs] at hcl
      simp only [List.mem_cons, not_or] at hcl ⊢
      exact ⟨by omega, hcl.1, hcl.2⟩

theorem AState.WF.pop {a : AState} (h : a.WF) {top q : Nat} {below : List Nat}
    (hs : a.stackR = top :: q :: below) : (a.pop top q).WF := by
  have hbl := h.below_lt hs
  have hstack : (a.pop top q).stackR = q :: below := by simp [AState.pop, hs]
  have hn : (a.pop top q).n = a.n := rfl
  have hinc : (a.pop top q).inc = a.inc := rfl
  have hsub : ∀ x, x ∈ q :: below → x ∈ a.stackR := by
    intro x hx
    rw [hs]
    exact List.mem_cons_of_mem _ hx
  have hlast : (a.inc q).getLast? = some top := by
    have := h.below_last
    rw [hs] at this
    exact this.rel_head
  have hqlt : q < top := hbl q (by simp)
  have htopnot : top ∉ q :: below := by
    intro hmem
    have := hbl top hmem
    omega
  constructor
  · intro p hp
    rw [hstack] at hp
    exact h.stack_valid p (hsub p hp)
  · rw [hstack]
    have := h.stack_sorted
    rw [hs] at this
    exact (List.pairwise_cons.mp this).2
  · rw [hstack]
    have := h.bottom
    rwa [hs, List.getLast?_cons_cons] at this
  · exact h.inc_valid
  · intro i hi hni c hc
    rw [hstack] at hni ⊢
    rw [hinc] at hc
    rw [hn] at hi
    by_cases hit : i = top
    · subst hit
      exact fun hmem => h.top_children i (by simp [hs]) c hc (hsub c hmem)
    · have hni' : i ∉ a.stackR := by
        rw [hs]
        simp only [List.mem_cons, not_or] at hni ⊢
        exact ⟨hit, hni.1, hni.2⟩
      exact fun hmem => h.closed_children i hi hni' c hc (hsub c hmem)
  · intro t ht c hc
    rw [hstack] at ht ⊢
    simp at ht
    subst ht
    rw [hinc] at hc
    rw [← List.dropLast_append_getLast? top hlast] at hc
    rcases List.mem_append.mp hc with hc | hc
    · exact fun hmem => h.below_closed q (by simp [hs]) c hc (hsub c hmem)
    · simp at hc
      subst hc
      exact htopnot
  · rw [hstack]
    have := h.below_last
    rw [hs] at this
    exact this.tail
  · intro r hr c hc
    rw [hstack] at hr ⊢
    rw [hinc] at hc
    simp only [List.tail_cons] at hr
    exact fun hmem => h.below_closed r (by simp [hs, hr]) c hc (hsub c hmem)

theorem AState.WF.step {a b : AState} {c : Nat} (h : a.WF) (hstep : AStep c a b) : b.WF := by
  cases hstep with
  | bump _ top below hs => exact h.bump top
  | push _ top below fn lel hs => exact h.push hs fn lel
  | pop _ top q below hs => exact h.pop hs

theorem AState.WF.steps {a b : AState} {c : Nat} (h : a.WF) (hsteps : ASteps c a b) : b.WF := by
  induction hsteps with
  | refl a => exact h
  | step hstep _ ih => exact ih (h.step hstep)

theorem ASteps.trans0 {a b z : AState} {c : Nat} (h1 : ASteps 0 a b) (h2 : ASteps c b z) :
    ASteps c a z := by
  generalize hk : (0 : Nat) = k at h1
  induction h1 with
  | refl a => exact h2
  | @step c1 d a1 b1 z1 hstep hrest ih =>
    have hc1 : c1 = 0 := by omega
    have hd : d = 0 := by omega
    subst hc1 hd
    have := ASteps.step hstep (ih h2 rfl)
    simpa using this

/-! ### Moves preserve depths and the root record -/

theorem AState.DepthOK.depth_step {a b : AState} {c : Nat} (hw : a.WF) (h : a.DepthOK)
    (hstep : AStep c a b) : b.DepthOK := by
  cases hstep with
  | bump _ top below hs => exact h
  | pop _ top q below hs => exact h
  | push _ top below fn lel hs =>
    have htop : top < a.n := hw.top_lt hs
    intro i hi c hc
    have hn : (a.push top fn lel).n = a.n + 1 := rfl
    rw [hn] at hi
    by_cases h1 : i = a.n
    · subst h1
      simp [AState.push] at hc
    · have hlt : i < a.n := by omega
      by_cases h2 : i = top
      · subst h2
        have hinc : (a.push i fn lel).inc i = a.inc i ++ [a.n] := by
          simp [AState.push, Function.update_apply, h1]
        rw [hinc] at hc
        rcases List.mem_append.mp hc with hc | hc
        · have hv := hw.inc_valid i hlt c hc
          have := h i hlt c hc
          simp [AState.push, Function.update_apply, h1, Nat.ne_of_lt hv.2, this]
        · simp at hc
          subst hc
          simp [AState.push, Function.update_apply, h1]
      · have hinc : (a.push top fn lel).inc i = a.inc i := by
          simp [AState.push, Function.update_apply, h1, h2]
        rw [hinc] at hc
        have hv := hw.inc_valid i hlt c hc
        have := h i hlt c hc
        simp [AState.push, Function.update_apply, h1, Nat.ne_of_lt hv.2, this]

theorem AState.DepthOK.depth_steps {a b : AState} {c : Nat} (hw : a.WF) (h : a.DepthOK)
    (hsteps : ASteps c a b) : b.DepthOK := by
  induction hsteps with
  | refl a => exact h
  | step hstep _ ih => exact ih (hw.step hstep) (h.depth_step hw hstep)

theorem AState.RootOK.root_step {a b : AState} {c : Nat} (hw : a.WF) (h : a.RootOK)
    (hstep : AStep c a b) : b.RootOK := by
  cases hstep with
  | bump _ top below hs => exact h
  | pop _ top q below hs => exact h
  | push _ top below fn lel hs =>
    have hpos : 0 < a.n := hw.pos
    have hne : (0 : Nat) ≠ a.n := by omega
    obtain ⟨h1, h2, h3⟩ := h
    refine ⟨?_, ?_, ?_⟩ <;> simp [AState.push, Function.update_apply, hne, h1, h2, h3]

theorem AState.RootOK.root_steps {a b : AState} {c : Nat} (hw : a.WF) (h : a.RootOK)
    (hsteps : ASteps c a b) : b.RootOK := by
  induction hsteps with
  | refl a => exact h
  | step hstep _ ih => exact ih (hw.step hstep) (h.root_step hw hstep)

/-! ### Runs of adjacent subtrees -/

theorem ChainTo.le {e : Nat → Nat} : ∀ {cs : List Nat} {x y : Nat}, ChainTo e x cs y → x ≤ y
  | [], x, y, h => by
    simp only [ChainTo] at h
    omega
  | c :: cs, x, y, h => by
    simp only [ChainTo] at h
    have := ChainTo.le h.2.2
    omega

theorem ChainTo.mem_range {e : Nat → Nat} :
    ∀ {cs : List Nat} {x y : Nat}, ChainTo e x cs y → ∀ c ∈ cs, x ≤ c ∧ c < y
  | [], x, y, _, c, hc => by simp at hc
  | d :: cs, x, y, h, c, hc => by
    simp only [ChainTo] at h
    obtain ⟨h1, h2, h3⟩ := h
    rcases List.mem_cons.mp hc with rfl | hc
    · have := ChainTo.le h3
      omega
    · have := ChainTo.mem_range h3 c hc
      omega

theorem ChainTo.congr {e e' : Nat → Nat} :
    ∀ {cs : List Nat} {x y : Nat}, (∀ c ∈ cs, e' c = e c) → ChainTo e x cs y → ChainTo e' x cs y
  | [], x, y, _, h => by
    simpa only [ChainTo] using h
  | c :: cs, x, y, hag, h => by
    simp only [ChainTo] at h ⊢
    obtain ⟨h1, h2, h3⟩ := h
    have hx : e' x = e x := by
      rw [← h1]
      exact hag c (by simp)
    refine ⟨h1, by omega, ?_⟩
    rw [hx]
    exact ChainTo.congr (fun d hd => hag d (List.mem_cons_of_mem _ hd)) h3

theorem ChainTo.append {e : Nat → Nat} :
    ∀ {l1 l2 : List Nat} {x y z : Nat},
      ChainTo e x l1 y → ChainTo e y l2 z → ChainTo e x (l1 ++ l2) z
  | [], l2, x, y, z, h1, h2 => by
    simp only [ChainTo] at h1
    subst h1
    simpa using h2
  | c :: l1, l2, x, y, z, h1, h2 => by
    simp only [ChainTo, List.cons_append] at h1 ⊢
    exact ⟨h1.1, h1.2.1, ChainTo.append h1.2.2 h2⟩

theorem ChainTo.sorted {e : Nat → Nat} :
    ∀ {cs : List Nat} {x y : Nat}, ChainTo e x cs y → cs.Pairwise (fun a b => a < b)
  | [], _, _, _ => List.Pairwise.nil
  | c :: cs, x, y, h => by
    simp only [ChainTo] at h
    obtain ⟨h1, h2, h3⟩ := h
    refine List.pairwise_cons.mpr ⟨fun d hd => ?_, ChainTo.sorted h3⟩
    have := ChainTo.mem_range h3 d hd
    omega

/-! ### Moves preserve the interval structure -/

theorem AState.Shape.shape_push {a : AState} {e : Nat → Nat} (hw : a.WF) (h : a.Shape e)
    {top : Nat} {below : List Nat} (hs : a.stackR = top :: below) (fn : String) (lel : Nat) :
    (a.push top fn lel).Shape e := by
  have htop : top < a.n := hw.top_lt hs
  have hbl := hw.below_lt hs
  have hsv := hw.stack_valid
  rw [hs] at hsv
  have hinc_top : (a.push top fn lel).inc top = a.inc top ++ [a.n] := by
    simp [AState.push, Function.update_apply, Nat.ne_of_lt htop]
  have hinc_other : ∀ i, i ≠ top → i ≠ a.n → (a.push top fn lel).inc i = a.inc i := by
    intro i h1 h2
    simp [AState.push, Function.update_apply, h1, h2]
  have hstack : (a.push top fn lel).stackR = a.n :: top :: below := by
    simp [AState.push, hs]
  have hn : (a.push top fn lel).n = a.n + 1 := rfl
  constructor
  · intro i hi hni
    rw [hstack] at hni
    rw [hn] at hi ⊢
    simp only [List.mem_cons, not_or] at hni
    obtain ⟨h1, h2, h3⟩ := hni
    rw [hinc_other i h2 h1]
    have := h.closed i (by omega) (by simp [hs, h2, h3])
    exact ⟨by omega, this.2⟩
  · intro t ht
    rw [hstack] at ht
    simp at ht
    subst ht
    simp [AState.push, ChainTo]
  · intro q hq p hp
    rw [hstack] at hq
    simp only [List.tail_cons] at hq
    rcases List.mem_cons.mp hq with rfl | hq
    · rw [hinc_top] at hp ⊢
      simp at hp
      subst hp
      rw [List.dropLast_concat]
      exact h.top q (by simp [hs])
    · have hq1 := hbl q hq
      have hq2 := hsv q (List.mem_cons_of_mem _ hq)
      rw [hinc_other q (by omega) (by omega)] at hp ⊢
      exact h.below q (by simp [hs, hq]) p hp

theorem AState.Shape.shape_pop {a : AState} {e : Nat → Nat} (hw : a.WF) (h : a.Shape e)
    {top q : Nat} {below : List Nat} (hs : a.stackR = top :: q :: below) :
    (a.pop top q).Shape (Function.update e top a.n) := by
  have hbl := hw.below_lt hs
  have htop : top < a.n := hw.top_lt hs
  have hstack : (a.pop top q).stackR = q :: below := by simp [AState.pop, hs]
  have hn : (a.pop top q).n = a.n := rfl
  have hinc : (a.pop top q).inc = a.inc := rfl
  have hlast : (a.inc q).getLast? = some top := by
    have := hw.below_last
    rw [hs] at this
    exact this.rel_head
  have htopmem : top ∈ a.stackR := by simp [hs]
  have hframe : ∀ cs : List Nat, (∀ c ∈ cs, c ∉ a.stackR) →
      ∀ c ∈ cs, Function.update e top a.n c = e c := by
    intro cs hcs c hc
    have : c ≠ top := fun heq => hcs c hc (heq ▸ htopmem)
    simp [Function.update_apply, this]
  constructor
  · intro i hi hni
    rw [hstack] at hni
    rw [hn] at hi ⊢
    rw [hinc]
    by_cases hit : i = top
    · subst hit
      have hch := h.top i (by simp [hs])
      have hcl := hw.top_children i (by simp [hs])
      refine ⟨by simp, ?_⟩
      simp only [Function.update_same]
      exact ChainTo.congr (hframe _ hcl) hch
    · have hni' : i ∉ a.stackR := by
        rw [hs]
        simp only [List.mem_cons, not_or] at hni ⊢
        exact ⟨hit, hni.1, hni.2⟩
      have hch := h.closed i hi hni'
      have hcl := hw.closed_children i hi hni'
      simp only [Function.update_apply, hit, if_false]
      exact ⟨hch.1, ChainTo.congr (hframe _ hcl) hch.2⟩
  · intro t ht
    rw [hstack] at ht
    simp at ht
    subst ht
    rw [hinc, hn, ← List.dropLast_append_getLast? top hlast]
    have hch := h.below q (by simp [hs]) top hlast
    have hcl := hw.below_closed q (by simp [hs])
    refine ChainTo.append (ChainTo.congr (hframe _ hcl) hch) ?_
    simp [ChainTo, htop]
  · intro r hr p hp
    rw [hstack] at hr
    rw [hinc] at hp ⊢
    simp only [List.tail_cons] at hr
    have hch := h.below r (by simp [hs, hr]) p hp
    have hcl := hw.below_closed r (by simp [hs, hr])
    exact ChainTo.congr (hframe _ hcl) hch

theorem AState.Shape.shape_step {a b : AState} {c : Nat} (hw : a.WF) (h : ∃ e, a.Shape e)
    (hstep : AStep c a b) : ∃ e, b.Shape e := by
  obtain ⟨e, he⟩ := h
  cases hstep with
  | bump _ top below hs => exact ⟨e, ⟨he.closed, he.top, he.below⟩⟩
  | push _ top below fn lel hs => exact ⟨e, he.shape_push hw hs fn lel⟩
  | pop _ top q below hs => exact ⟨_, he.shape_pop hw hs⟩

theorem AState.Shape.shape_steps {a b : AState} {c : Nat} (hw : a.WF) (h : ∃ e, a.Shape e)
    (hsteps : ASteps c a b) : ∃ e, b.Shape e := by
  induction hsteps with
  | refl a => exact h
  | step hstep _ ih => exact ih (hw.step hstep) (AState.Shape.shape_step hw h hstep)

/-! ### Moves preserve the cumulative counts -/

theorem sum_at_congr {f g : Nat → Nat} {l : List Nat} (h : ∀ c ∈ l, f c = g c) :
    sum_at f l = sum_at g l := by
  unfold sum_at
  rw [List.map_congr_left h]

theorem sum_at_append (f : Nat → Nat) (l1 l2 : List Nat) :
    sum_at f (l1 ++ l2) = sum_at f l1 + sum_at f l2 := by
  simp [sum_at]

theorem AState.CumOK.cum_bump {m : Nat} {a : AState} (h : a.CumOK m)
    {top : Nat} {below : List Nat} (hs : a.stackR = top :: below) : (a.bump top).CumOK m := by
  constructor
  · intro i hi hni
    have hit : i ≠ top := by
      intro heq
      apply hni
      simp [AState.bump, hs, heq]
    have := h.closed i hi hni
    simpa [AState.bump, Function.update_apply, hit] using this
  · exact h.top
  · exact h.below

theorem AState.CumOK.cum_push {m : Nat} {a : AState} (hw : a.WF) (h : a.CumOK m)
    {top : Nat} {below : List Nat} (hs : a.stackR = top :: below) (fn : String) (lel : Nat) :
    (a.push top fn lel).CumOK m := by
  have htop : top < a.n := hw.top_lt hs
  have hbl := hw.below_lt hs
  have hsv := hw.stack_valid
  rw [hs] at hsv
  have hinc_top : (a.push top fn lel).inc top = a.inc top ++ [a.n] := by
    simp [AState.push, Function.update_apply, Nat.ne_of_lt htop]
  have hinc_other : ∀ i, i ≠ top → i ≠ a.n → (a.push top fn lel).inc i = a.inc i := by
    intro i h1 h2
    simp [AState.push, Function.update_apply, h1, h2]
  have hstack : (a.push top fn lel).stackR = a.n :: top :: below := by
    simp [AState.push, hs]
  have hn : (a.push top fn lel).n = a.n + 1 := rfl
  have hcum : ∀ i, i ≠ a.n → (a.push top fn lel).cum i = a.cum i := by
    intro i h1
    simp [AState.push, Function.update_apply, h1]
  have hlc : ∀ i, i ≠ a.n → (a.push top fn lel).lc i = a.lc i := by
    intro i h1
    simp [AState.push, Function.update_apply, h1]
  have hsum : ∀ l : List Nat, (∀ c ∈ l, c < a.n) →
      sum_at (a.push top fn lel).cum l = sum_at a.cum l := by
    intro l hl
    exact sum_at_congr (fun c hc => hcum c (Nat.ne_of_lt (hl c hc)))
  constructor
  · intro i hi hni
    rw [hstack] at hni
    rw [hn] at hi
    simp only [List.mem_cons, not_or] at hni
    obtain ⟨h1, h2, h3⟩ := hni
    have hlt : i < a.n := by omega
    rw [hinc_other i h2 h1, hcum i h1, hlc i h1,
      hsum _ (fun c hc => (hw.inc_valid i hlt c hc).2)]
    exact h.closed i hlt (by simp [hs, h2, h3])
  · intro t ht
    rw [hstack] at ht
    simp at ht
    subst ht
    simp [AState.push, sum_at, Nat.ModEq]
  · intro q hq
    rw [hstack] at hq
    simp only [List.tail_cons] at hq
    rcases List.mem_cons.mp hq with rfl | hq
    · rw [hinc_top, List.dropLast_concat, hcum q (Nat.ne_of_lt htop),
        hsum _ (fun c hc => (hw.inc_valid q htop c hc).2)]
      exact h.top q (by simp [hs])
    · have hq1 := hbl q hq
      have hq2 := hsv q (List.mem_cons_of_mem _ hq)
      rw [hinc_other q (by omega) (by omega), hcum q (by omega),
        hsum _ (fun c hc => (hw.inc_valid q hq2 c (List.mem_of_mem_dropLast hc)).2)]
      exact h.below q (by simp [hs, hq])

theorem AState.CumOK.cum_pop {m : Nat} {a : AState} (hw : a.WF) (h : a.CumOK m)
    {top q : Nat} {below : List Nat} (hs : a.stackR = top :: q :: below)
    (h1 : Nat.ModEq m ((a.cum top + a.lc top) % SIZE_MOD) (a.cum top + a.lc top))
    (h2 : Nat.ModEq m ((a.cum q + (a.cum top + a.lc top) % SIZE_MOD) % SIZE_MOD)
      (a.cum q + (a.cum top + a.lc top) % SIZE_MOD)) :
    (a.pop top q).CumOK m := by
  have hbl := hw.below_lt hs
  have htop : top < a.n := hw.top_lt hs
  have hqlt : q < top := hbl q (by simp)
  have hstack : (a.pop top q).stackR = q :: below := by simp [AState.pop, hs]
  have hn : (a.pop top q).n = a.n := rfl
  have hinc : (a.pop top q).inc = a.inc := rfl
  have hlc : (a.pop top q).lc = a.lc := rfl
  have hlast : (a.inc q).getLast? = some top := by
    have := hw.below_last
    rw [hs] at this
    exact this.rel_head
  have hcum_top : (a.pop top q).cum top = (a.cum top + a.lc top) % SIZE_MOD := by
    simp [AState.pop, Function.update_apply, Nat.ne_of_gt hqlt]
  have hcum_q : (a.pop top q).cum q =
      (a.cum q + (a.cum top + a.lc top) % SIZE_MOD) % SIZE_MOD := by
    simp [AState.pop, Function.update_apply, Nat.ne_of_lt hqlt]
  have hcum_other : ∀ i, i ≠ top → i ≠ q → (a.pop top q).cum i = a.cum i := by
    intro i h1 h2
    simp [AState.pop, Function.update_apply, h1, h2]
  have hsum : ∀ l : List Nat, (∀ c ∈ l, c ∉ a.stackR) →
      sum_at (a.pop top q).cum l = sum_at a.cum l := by
    intro l hl
    refine sum_at_congr (fun c hc => hcum_other c ?_ ?_)
    · intro heq
      exact hl c hc (by simp [hs, heq])
    · intro heq
      exact hl c hc (by simp [hs, heq])
  constructor
  · intro i hi hni
    rw [hstack] at hni
    rw [hn] at hi
    rw [hinc, hlc]
    by_cases hit : i = top
    · subst hit
      rw [hcum_top, hsum _ (hw.top_children i (by simp [hs]))]
      have ht := h.top i (by simp [hs])
      have := h1.trans (ht.add (Nat.ModEq.refl (a.lc i)))
      rwa [Nat.add_comm (sum_at a.cum (a.inc i))] at this
    · have hni' : i ∉ a.stackR := by
        rw [hs]
        simp only [List.mem_cons, not_or] at hni ⊢
        exact ⟨hit, hni.1, hni.2⟩
      have hiq : i ≠ q := by
        intro heq
        exact hni (by simp [heq])
      rw [hcum_other i hit hiq, hsum _ (hw.closed_children i hi hni')]
      exact h.closed i hi hni'
  · intro t ht
    rw [hstack] at ht
    simp at ht
    subst ht
    rw [hinc, hcum_q, ← List.dropLast_append_getLast? top hlast, sum_at_append,
      hsum _ (hw.below_closed q (by simp [hs]))]
    have hb := h.below q (by simp [hs])
    have : sum_at (a.pop top q).cum [top] = (a.cum top + a.lc top) % SIZE_MOD := by
      simp [sum_at, hcum_top]
    rw [this]
    exact h2.trans (hb.add (Nat.ModEq.refl _))
  · intro r hr
    rw [hstack] at hr
    simp only [List.tail_cons] at hr
    have hr1 := hbl r (List.mem_cons_of_mem _ hr)
    have hsorted := hw.stack_sorted
    rw [hs, List.pairwise_cons, List.pairwise_cons] at hsorted
    have hr2 := hsorted.2.1 r hr
    rw [hinc, hcum_other r (by omega) (by omega),
      hsum _ (hw.below_closed r (by simp [hs, hr]))]
    exact h.below r (by simp [hs, hr])

/-! ### Moves and the sum of the counters of the open files -/

theorem AState.SumBound.bound_mono {k k' : Nat} {a : AState} (h : a.SumBound k) (hk : k ≤ k') :
    a.SumBound k' :=
  Nat.le_trans h hk

theorem map_sum_congr {g g' : Nat → Nat} {l : List Nat} (h : ∀ p ∈ l, g' p = g p) :
    (l.map g').sum = (l.map g).sum := by
  rw [List.map_congr_left h]

theorem AState.SumBound.bound_step {k c : Nat} {a b : AState} (hw : a.WF) (h : a.SumBound k)
    (hstep : AStep c a b) : b.SumBound (k + c) := by
  unfold AState.SumBound at h ⊢
  cases hstep with
  | bump _ top below hs =>
    have hbl := hw.below_lt hs
    rw [hs] at h
    simp only [AState.bump, hs, List.map_cons, List.sum_cons] at h ⊢
    have hrest : (below.map (fun p =>
        a.cum p + Function.update a.lc top ((a.lc top + 1) % SIZE_MOD) p)).sum =
        (below.map (fun p => a.cum p + a.lc p)).sum := by
      refine map_sum_congr (fun p hp => ?_)
      have := hbl p hp
      simp [Function.update_apply, Nat.ne_of_lt this]
    rw [hrest]
    simp only [Function.update_same]
    have : (a.lc top + 1) % SIZE_MOD ≤ a.lc top + 1 := Nat.mod_le _ _
    omega
  | push _ top below fn lel hs =>
    have hsv := hw.stack_valid
    simp only [AState.push, List.map_cons, List.sum_cons, Function.update_same]
    have hrest : (a.stackR.map (fun p =>
        Function.update a.cum a.n 0 p + Function.update a.lc a.n 0 p)).sum =
        (a.stackR.map (fun p => a.cum p + a.lc p)).sum := by
      refine map_sum_congr (fun p hp => ?_)
      have := hsv p hp
      simp [Function.update_apply, Nat.ne_of_lt this]
    rw [hrest]
    omega
  | pop _ top q below hs =>
    have hbl := hw.below_lt hs
    have hqlt : q < top := hbl q (by simp)
    have hsorted := hw.stack_sorted
    rw [hs, List.pairwise_cons, List.pairwise_cons] at hsorted
    rw [hs] at h
    simp only [AState.pop, hs, List.tail_cons, List.map_cons, List.sum_cons] at h ⊢
    have hrest : (below.map (fun p =>
        Function.update (Function.update a.cum top ((a.cum top + a.lc top) % SIZE_MOD)) q
          ((Function.update a.cum top ((a.cum top + a.lc top) % SIZE_MOD) q +
            (a.cum top + a.lc top) % SIZE_MOD) % SIZE_MOD) p + a.lc p)).sum =
        (below.map (fun p => a.cum p + a.lc p)).sum := by
      refine map_sum_congr (fun p hp => ?_)
      have h1 := hbl p (List.mem_cons_of_mem _ hp)
      have h2 := hsorted.2.1 p hp
      simp [Function.update_apply, Nat.ne_of_lt h1, Nat.ne_of_lt h2]
    rw [hrest]
    simp only [Function.update_same, Function.update_apply, Nat.ne_of_lt hqlt, if_false]
    have e1 : (a.cum q + (a.cum top + a.lc top) % SIZE_MOD) % SIZE_MOD ≤
        a.cum q + (a.cum top + a.lc top) % SIZE_MOD := Nat.mod_le _ _
    have e2 : (a.cum top + a.lc top) % SIZE_MOD ≤ a.cum top + a.lc top := Nat.mod_le _ _
    omega

theorem AState.CumOK.step_mod {a b : AState} {c : Nat} (hw : a.WF) (h : a.CumOK SIZE_MOD)
    (hstep : AStep c a b) : b.CumOK SIZE_MOD := by
  cases hstep with
  | bump _ top below hs => exact h.cum_bump hs
  | push _ top below fn lel hs => exact h.cum_push hw hs fn lel
  | pop _ top q below hs => exact h.cum_pop hw hs (Nat.mod_modEq _ _) (Nat.mod_modEq _ _)

theorem AState.CumOK.steps_mod {a b : AState} {c : Nat} (hw : a.WF) (h : a.CumOK SIZE_MOD)
    (hsteps : ASteps c a b) : b.CumOK SIZE_MOD := by
  induction hsteps with
  | refl a => exact h
  | step hstep _ ih => exact ih (hw.step hstep) (h.step_mod hw hstep)

theorem AState.CumOK.step_exact {a b : AState} {c k : Nat} (hw : a.WF) (h : a.CumOK 0)
    (hb : a.SumBound k) (hk : k < SIZE_MOD) (hstep : AStep c a b) : b.CumOK 0 := by
  cases hstep with
  | bump _ top below hs => exact h.cum_bump hs
  | push _ top below fn lel hs => exact h.cum_push hw hs fn lel
  | pop _ top q below hs =>
    unfold AState.SumBound at hb
    rw [hs] at hb
    simp only [List.map_cons, List.sum_cons] at hb
    have e1 : (a.cum top + a.lc top) % SIZE_MOD = a.cum top + a.lc top :=
      Nat.mod_eq_of_lt (by omega)
    have e2 : (a.cum q + (a.cum top + a.lc top) % SIZE_MOD) % SIZE_MOD =
        a.cum q + (a.cum top + a.lc top) % SIZE_MOD := by
      rw [e1]
      exact Nat.mod_eq_of_lt (by omega)
    exact h.cum_pop hw hs (Nat.modEq_zero_iff.mpr e1) (Nat.modEq_zero_iff.mpr e2)

theorem AState.CumOK.steps_exact {a b : AState} {c : Nat} (hsteps : ASteps c a b) :
    ∀ {k : Nat}, a.WF → a.CumOK 0 → a.SumBound k → k + c < SIZE_MOD →
      b.CumOK 0 ∧ b.SumBound (k + c) := by
  induction hsteps with
  | refl a =>
    intro k _ h hb _
    exact ⟨h, hb⟩
  | @step c1 d a1 b1 z1 hstep _ ih =>
    intro k hw h hb hk
    have h1 := h.step_exact hw hb (by omega) hstep
    have hb1 := hb.bound_step hw hstep
    have := ih (hw.step hstep) h1 hb1 (by omega)
    rwa [Nat.add_assoc] at this

theorem ASteps.trans {a b z : AState} {c d : Nat} (h1 : ASteps c a b) (h2 : ASteps d b z) :
    ASteps (c + d) a z := by
  induction h1 with
  | refl a => simpa using h2
  | @step c1 d1 a1 b1 z1 hstep _ ih =>
    have := ASteps.step hstep (ih h2)
    rwa [← Nat.add_assoc] at this

/-! ### Arithmetic in `std::size_t` -/

theorem size_pred_eq_mod (n : Nat) (h : n < SIZE_MOD) :
    size_pred n = (n + SIZE_MOD - 1) % SIZE_MOD := by
  unfold size_pred
  have hM : SIZE_MOD = 18446744073709551616 := by decide
  rw [hM] at h ⊢
  split <;> omega

/-! ### Reading and writing records -/

theorem rec_at_eq_of_getElem? {t : IncludeTree} {i : Nat} {f : PreprocessedFile}
    (h : t.files[i]? = some f) : t.rec_at i = f := by
  simp [IncludeTree.rec_at, List.getD_eq_getElem?_getD, h]

theorem getElem?_eq_rec_at {t : IncludeTree} {i : Nat} (h : i < t.files.length) :
    t.files[i]? = some (t.rec_at i) := by
  simp [IncludeTree.rec_at, List.getD_eq_getElem?_getD, List.getElem?_eq_getElem h]

theorem rec_at_put (t : IncludeTree) (i j : Nat) (x : PreprocessedFile) :
    (t.put i x).rec_at j = if j = i ∧ i < t.files.length then x else t.rec_at j := by
  simp only [IncludeTree.rec_at, IncludeTree.put, List.getD_eq_getElem?_getD, List.getElem?_set]
  by_cases h1 : i = j
  · subst h1
    by_cases h2 : i < t.files.length
    · simp [h2]
    · simp [h2, List.getElem?_eq_none (Nat.le_of_not_lt h2)]
  · have : ¬ j = i := fun h => h1 h.symm
    simp [h1, this]

theorem rec_at_emplace_back (t : IncludeTree) (j : Nat) (x : PreprocessedFile) :
    (t.emplace_back x).rec_at j = if j = t.files.length then x else t.rec_at j := by
  simp only [IncludeTree.rec_at, IncludeTree.emplace_back, List.getD_eq_getElem?_getD,
    List.getElem?_append]
  by_cases h1 : j < t.files.length
  · simp [h1, Nat.ne_of_lt h1]
  · by_cases h2 : j = t.files.length
    · simp [h2]
    · have : t.files.length ≤ j := Nat.le_of_not_lt h1
      have h3 : j - t.files.length ≠ 0 := by omega
      rw [if_neg h1, if_neg h2, List.getElem?_eq_none (l := t.files) this]
      rw [List.getElem?_eq_none]
      simp
      omega

@[simp] theorem put_store (t : IncludeTree) (i : Nat) (x : PreprocessedFile) :
    (t.put i x).store = t.store := rfl

@[simp] theorem put_root (t : IncludeTree) (i : Nat) (x : PreprocessedFile) :
    (t.put i x).root = t.root := rfl

@[simp] theorem put_length (t : IncludeTree) (i : Nat) (x : PreprocessedFile) :
    (t.put i x).files.length = t.files.length := by
  simp [IncludeTree.put]

@[simp] theorem emplace_back_store (t : IncludeTree) (x : PreprocessedFile) :
    (t.emplace_back x).store = t.store := rfl

@[simp] theorem emplace_back_root (t : IncludeTree) (x : PreprocessedFile) :
    (t.emplace_back x).root = t.root := rfl

@[simp] theorem emplace_back_length (t : IncludeTree) (x : PreprocessedFile) :
    (t.emplace_back x).files.length = t.files.length + 1 := by
  simp [IncludeTree.emplace_back]

theorem deref_ok {t : IncludeTree} {p : Ptr} (hst : p.store = t.store)
    (hidx : p.idx < t.files.length) : t.deref p = .ok (t.rec_at p.idx) := by
  simp [IncludeTree.deref, hst, getElem?_eq_rec_at hidx]

theorem deref_eq_ok {t : IncludeTree} {p : Ptr} {f : PreprocessedFile}
    (h : t.deref p = .ok f) : p.store = t.store ∧ p.idx < t.files.length ∧ t.rec_at p.idx = f := by
  unfold IncludeTree.deref at h
  by_cases hst : p.store = t.store
  · rw [if_pos hst] at h
    cases hget : t.files[p.idx]? with
    | none => simp [hget] at h
    | some g =>
      simp only [hget, Except.ok.injEq] at h
      subst h
      refine ⟨hst, ?_, rec_at_eq_of_getElem? hget⟩
      exact (List.getElem?_eq_some.mp hget).1
  · rw [if_neg hst] at h
    cases h

theorem update_ok {t : IncludeTree} {p : Ptr} (g : PreprocessedFile → PreprocessedFile)
    (hst : p.store = t.store) (hidx : p.idx < t.files.length) :
    t.update p g = .ok (t.put p.idx (g (t.rec_at p.idx))) := by
  simp [IncludeTree.update, deref_ok hst hidx, IncludeTree.put, bind, Except.bind, pure,
    Except.pure]

theorem back_concat {α : Type} (l : List α) (x : α) : back (l ++ [x]) = .ok x := by
  simp [back]

theorem back_nil {α : Type} : back ([] : List α) = .error .undefined_behaviour := rfl

theorem back_eq_ok {α : Type} {l : List α} {x : α} (h : back l = .ok x) :
    l = l.dropLast ++ [x] := by
  unfold back at h
  cases hl : l.getLast? with
  | none => simp [hl] at h
  | some y =>
    simp only [hl, Except.ok.injEq] at h
    subst h
    exact (List.dropLast_append_getLast? y hl).symm

/-! ### Closed forms of `pop_stack` and `push_stack` -/

theorem pop_stack_ok {s : LineMarkersParser_impl} {init : List Ptr} {top q : Ptr}
    (hstack : s.stack = init ++ [q] ++ [top])
    (htst : top.store = s.tree.store) (htidx : top.idx < s.tree.files.length)
    (hqst : q.store = s.tree.store) (hqidx : q.idx < s.tree.files.length) :
    pop_stack s = .ok (s.popped top q) := by
  unfold pop_stack
  rw [hstack, back_concat]
  simp only [bind, Except.bind, deref_ok htst htidx, update_ok _ htst htidx,
    List.dropLast_concat, back_concat]
  rw [update_ok _ (by simpa using hqst) (by simpa using hqidx)]
  simp [LineMarkersParser_impl.popped, hstack, pure, Except.pure]

theorem pop_stack_short {s : LineMarkersParser_impl} (h : s.stack.length ≤ 1) :
    pop_stack s = .error .undefined_behaviour := by
  unfold pop_stack
  match hs : s.stack, h with
  | [], _ => simp [back, bind, Except.bind]
  | [p], _ =>
    have hb : back [p] = Except.ok p := back_concat [] p
    simp only [hb, bind, Except.bind]
    cases hd : s.tree.deref p with
    | error e =>
      unfold IncludeTree.deref at hd
      split at hd
      · split at hd
        · cases hd
        · cases hd; rfl
      · cases hd; rfl
    | ok f =>
      obtain ⟨h1, h2, h3⟩ := deref_eq_ok hd
      simp [update_ok _ h1 h2, back]

theorem push_stack_ok {s : LineMarkersParser_impl} {init : List Ptr} {top : Ptr}
    (hstack : s.stack = init ++ [top])
    (htst : top.store = s.tree.store) (htidx : top.idx < s.tree.files.length)
    (filename : String) :
    push_stack s filename = .ok (s.pushed top filename) := by
  unfold push_stack
  rw [hstack, back_concat]
  simp only [bind, Except.bind, deref_ok htst htidx]
  have hne : top.idx ≠ s.tree.files.length := Nat.ne_of_lt htidx
  have hlen : (s.tree.files ++ [PreprocessedFile.mk2
      (s.tree.rec_at top.idx).last_effective_line filename]).length - 1 = s.tree.files.length := by
    simp
  rw [hlen]
  have e1 : ({ s.tree with files := s.tree.files ++ [PreprocessedFile.mk2
      (s.tree.rec_at top.idx).last_effective_line filename] } : IncludeTree) =
      s.tree.emplace_back (PreprocessedFile.mk2
        (s.tree.rec_at top.idx).last_effective_line filename) := rfl
  simp only [e1]
  rw [update_ok _ (by simpa using htst) (by simp; omega)]
  simp only [rec_at_emplace_back, hne, if_false]
  rw [deref_ok (by simpa using htst) (by simp; omega)]
  simp only [rec_at_put, emplace_back_length, true_and, Nat.lt_succ_of_lt htidx, if_true,
    back_concat]
  rw [update_ok _ (by simp) (by simp)]
  dsimp only
  rw [update_ok _ (by simpa using htst) (by simp; omega)]
  dsimp only
  rw [deref_ok (by simpa using htst) (by simp; omega)]
  dsimp only
  simp only [rec_at_put, rec_at_emplace_back, emplace_back_length, put_length,
    Nat.lt_succ_of_lt htidx, and_true, hne.symm, hne, if_false, if_true, true_and, back_concat,
    Nat.lt_succ_self]
  simp [LineMarkersParser_impl.pushed, hstack, pure, Except.pure, PreprocessedFile.mk2,
    rec_at_put, rec_at_emplace_back, hne, hne.symm, Nat.lt_succ_of_lt htidx]

/-! ### The index view of the states reached by `pop_stack` and `push_stack` -/

theorem view_pushed {s : LineMarkersParser_impl} {top : Ptr}
    (htidx : top.idx < s.tree.files.length) (filename : String) :
    (s.pushed top filename).view =
      s.view.push top.idx filename (s.tree.rec_at top.idx).last_effective_line := by
  have hne : top.idx ≠ s.tree.files.length := Nat.ne_of_lt htidx
  simp only [LineMarkersParser_impl.view, LineMarkersParser_impl.pushed, AState.push,
    AState.mk.injEq]
  refine ⟨by simp, ?_, ?_, ?_, ?_, ?_, ?_, by simp⟩ <;>
  · funext i
    simp only [rec_at_put, rec_at_emplace_back, put_length, emplace_back_length,
      Function.update_apply]
    by_cases h1 : i = s.tree.files.length
    · subst h1
      simp [hne.symm, PreprocessedFile.mk2]
    · by_cases h2 : i = top.idx
      · subst h2
        simp [h1, Nat.lt_succ_of_lt htidx]
      · simp [h1, h2]

theorem storeOK_pushed {s : LineMarkersParser_impl} {top : Ptr} (h : s.StoreOK)
    (htidx : top.idx < s.tree.files.length) (filename : String) :
    (s.pushed top filename).StoreOK := by
  have hne : top.idx ≠ s.tree.files.length := Nat.ne_of_lt htidx
  obtain ⟨h1, h2, h3⟩ := h
  refine ⟨?_, ?_, ?_⟩
  · intro p hp
    simp only [LineMarkersParser_impl.pushed, List.mem_append, List.mem_singleton] at hp
    rcases hp with hp | rfl
    · exact h1 p hp
    · rfl
  · intro i c hc
    simp only [LineMarkersParser_impl.pushed, rec_at_put, rec_at_emplace_back, put_length,
      emplace_back_length, put_store, emplace_back_store] at hc ⊢
    by_cases e1 : i = top.idx
    · subst e1
      simp only [true_and, Nat.lt_succ_of_lt htidx, if_true, List.mem_append,
        List.mem_singleton] at hc
      rcases hc with hc | rfl
      · exact h2 _ c hc
      · rfl
    · by_cases e2 : i = s.tree.files.length
      · subst e2
        simp [hne.symm, PreprocessedFile.mk2] at hc
      · simp only [e1, e2, false_and, if_false] at hc
        exact h2 _ c hc
  · simpa [LineMarkersParser_impl.pushed] using h3

theorem stackR_dropLast (l : List Ptr) :
    l.dropLast.reverse.map Ptr.idx = (l.reverse.map Ptr.idx).tail := by
  rcases List.eq_nil_or_concat l with rfl | ⟨init, x, rfl⟩
  · rfl
  · simp

theorem view_popped {s : LineMarkersParser_impl} {top q : Ptr}
    (htidx : top.idx < s.tree.files.length) (hqidx : q.idx < s.tree.files.length)
    (hne : q.idx ≠ top.idx) :
    (s.popped top q).view = s.view.pop top.idx q.idx := by
  simp only [LineMarkersParser_impl.view, LineMarkersParser_impl.popped, AState.pop,
    AState.mk.injEq]
  refine ⟨by simp, ?_, ?_, ?_, ?_, ?_, ?_, stackR_dropLast _⟩ <;>
  · funext i
    simp only [rec_at_put, put_length, Function.update_apply]
    by_cases h1 : i = q.idx
    · subst h1
      simp [hne, hqidx]
    · by_cases h2 : i = top.idx
      · subst h2
        simp [hne, Ne.symm hne, htidx]
      · simp [h1, h2]

theorem storeOK_popped {s : LineMarkersParser_impl} {top q : Ptr} (h : s.StoreOK) :
    (s.popped top q).StoreOK := by
  obtain ⟨h1, h2, h3⟩ := h
  refine ⟨?_, ?_, ?_⟩
  · intro p hp
    exact h1 p (List.mem_of_mem_dropLast hp)
  · intro i c hc
    simp only [LineMarkersParser_impl.popped, rec_at_put, put_length, put_store] at hc ⊢
    by_cases e1 : i = q.idx ∧ q.idx < s.tree.files.length
    · rw [if_pos e1] at hc
      by_cases e2 : q.idx = top.idx ∧ top.idx < s.tree.files.length
      · rw [if_pos e2] at hc
        exact h2 _ c hc
      · rw [if_neg e2] at hc
        exact h2 _ c hc
    · rw [if_neg e1] at hc
      by_cases e2 : i = top.idx ∧ top.idx < s.tree.files.length
      · rw [if_pos e2] at hc
        exact h2 _ c hc
      · rw [if_neg e2] at hc
        exact h2 _ c hc
  · simpa [LineMarkersParser_impl.popped] using h3

/-! ### Closed forms of the branches of `parseLine` -/

theorem put_put (t : IncludeTree) (i : Nat) (x y : PreprocessedFile) :
    (t.put i x).put i y = t.put i y := by
  simp [IncludeTree.put, List.set_set]

theorem parseLine_preamble {s : LineMarkersParser_impl} {init : List Ptr} {top : Ptr}
    (hpre : s.in_preamble = true) (hstack : s.stack = init ++ [top])
    (htst : top.store = s.tree.store) (htidx : top.idx < s.tree.files.length) (line : String) :
    parseLine s line =
      .ok { s with
            in_preamble := decide (line ≠ "# 1 \"" ++ (s.tree.rec_at top.idx).filename ++ "\"") } := by
  simp [parseLine, hpre, hstack, back_concat, deref_ok htst htidx, bind, Except.bind, pure,
    Except.pure]

theorem parseLine_content {s : LineMarkersParser_impl} {init : List Ptr} {top : Ptr}
    (hpre : s.in_preamble = false) (hstack : s.stack = init ++ [top])
    (htst : top.store = s.tree.store) (htidx : top.idx < s.tree.files.length) {line : String}
    (hm : regex_match line.data = none) :
    parseLine s line =
      .ok { s with
            tree := s.tree.put top.idx (count_line s.store_lines line (s.tree.rec_at top.idx)) } := by
  unfold parseLine
  simp only [hpre, hm, hstack, back_concat, bind, Except.bind, Bool.false_eq_true, if_false]
  rw [update_ok _ htst htidx]
  dsimp only
  rw [update_ok _ (by simpa using htst) (by simpa using htidx)]
  dsimp only
  cases hsl : s.store_lines
  · simp [pure, Except.pure, put_put, rec_at_put, htidx, count_line]
  · simp only [if_true]
    rw [update_ok _ (by simpa using htst) (by simpa using htidx)]
    simp [pure, Except.pure, put_put, rec_at_put, htidx, count_line]

theorem parseLine_enter {s : LineMarkersParser_impl} {init : List Ptr} {top : Ptr}
    (hpre : s.in_preamble = false) (hstack : s.stack = init ++ [top])
    (htst : top.store = s.tree.store) (htidx : top.idx < s.tree.files.length) {line : String}
    {m : Smatch} {linenum : Nat}
    (hm : regex_match line.data = some m) (hnum : stoul m.m1 = .ok linenum)
    (h1 : contains (flags_of m) 1 = true) :
    parseLine s line = .ok (LineMarkersParser_impl.pushed
      { s with tree := s.tree.put top.idx (count_include (s.tree.rec_at top.idx)) }
      top (String.mk m.m2)) := by
  unfold parseLine
  simp only [hpre, hm, hnum, h1, hstack, back_concat, bind, Except.bind, Bool.false_eq_true,
    if_false, if_true]
  rw [update_ok _ htst htidx]
  dsimp only
  rw [update_ok _ (by simpa using htst) (by simpa using htidx)]
  dsimp only
  rw [@push_stack_ok _ init top (by simp [hstack]) (by simpa using htst)
    (by simpa using htidx)]
  simp [put_put, rec_at_put, htidx, count_include]

theorem parseLine_leave {s : LineMarkersParser_impl} {init : List Ptr} {top q : Ptr}
    (hpre : s.in_preamble = false) (hstack : s.stack = init ++ [q] ++ [top])
    (htst : top.store = s.tree.store) (htidx : top.idx < s.tree.files.length)
    (hqst : q.store = s.tree.store) (hqidx : q.idx < s.tree.files.length) {line : String}
    {m : Smatch} {linenum : Nat}
    (hm : regex_match line.data = some m) (hnum : stoul m.m1 = .ok linenum)
    (h1 : contains (flags_of m) 1 = false) (h2 : contains (flags_of m) 2 = true) :
    parseLine s line =
      .ok { s.popped top q with
            tree := (s.popped top q).tree.put q.idx
              (resume_at linenum ((s.popped top q).tree.rec_at q.idx)) } := by
  unfold parseLine
  simp only [hpre, hm, hnum, h1, h2, bind, Except.bind, Bool.false_eq_true, if_false, if_true,
    pop_stack_ok hstack htst htidx hqst hqidx]
  have hst : (s.popped top q).stack = init ++ [q] := by
    simp [LineMarkersParser_impl.popped, hstack]
  rw [hst, back_concat]
  dsimp only
  rw [update_ok _ (by simpa [LineMarkersParser_impl.popped] using hqst)
    (by simpa [LineMarkersParser_impl.popped] using hqidx)]
  simp [pure, Except.pure, resume_at]

theorem parseLine_leave_root {s : LineMarkersParser_impl}
    (hpre : s.in_preamble = false) (hstack : s.stack.length ≤ 1) {line : String}
    {m : Smatch} {linenum : Nat}
    (hm : regex_match line.data = some m) (hnum : stoul m.m1 = .ok linenum)
    (h1 : contains (flags_of m) 1 = false) (h2 : contains (flags_of m) 2 = true) :
    parseLine s line = .error .undefined_behaviour := by
  unfold parseLine
  simp only [hpre, hm, hnum, h1, h2, bind, Except.bind, Bool.false_eq_true, if_false, if_true,
    pop_stack_short hstack]

theorem parseLine_jump {s : LineMarkersParser_impl} {init : List Ptr} {top : Ptr}
    (hpre : s.in_preamble = false) (hstack : s.stack = init ++ [top])
    (htst : top.store = s.tree.store) (htidx : top.idx < s.tree.files.length) {line : String}
    {m : Smatch} {linenum : Nat}
    (hm : regex_match line.data = some m) (hnum : stoul m.m1 = .ok linenum)
    (h1 : contains (flags_of m) 1 = false) (h2 : contains (flags_of m) 2 = false)
    (hfn : String.mk m.m2 = (s.tree.rec_at top.idx).filename) :
    parseLine s line =
      .ok { s with
            tree := s.tree.put top.idx (jump_to s.store_lines linenum (s.tree.rec_at top.idx)) } := by
  unfold parseLine
  simp only [hpre, hm, hnum, h1, h2, hstack, back_concat, deref_ok htst htidx, hfn, bind,
    Except.bind, Bool.false_eq_true, if_false, if_true]
  rw [update_ok _ htst htidx]
  dsimp only
  cases hsl : s.store_lines
  · simp [pure, Except.pure, jump_to]
  · simp only [if_true]
    rw [update_ok _ (by simpa using htst) (by simpa using htidx)]
    simp [pure, Except.pure, put_put, rec_at_put, htidx, jump_to]

theorem parseLine_restart {s : LineMarkersParser_impl} {init : List Ptr} {top : Ptr}
    (hpre : s.in_preamble = false) (hstack : s.stack = init ++ [top])
    (htst : top.store = s.tree.store) (htidx : top.idx < s.tree.files.length) {line : String}
    {m : Smatch} {linenum : Nat}
    (hm : regex_match line.data = some m) (hnum : stoul m.m1 = .ok linenum)
    (h1 : contains (flags_of m) 1 = false) (h2 : contains (flags_of m) 2 = false)
    (hfn : String.mk m.m2 ≠ (s.tree.rec_at top.idx).filename) :
    parseLine s line = (do
      let s1 ← pop_to_root s.stack.length s
      let s2 ← push_stack s1 (String.mk m.m2)
      pure { s2 with in_preamble := true }) := by
  unfold parseLine
  simp only [hpre, hm, hnum, h1, h2, hstack, back_concat, deref_ok htst htidx, hfn, bind,
    Except.bind, Bool.false_eq_true, if_false, if_true]

/-! ### Every step of the parser is a sequence of moves of the index view -/

theorem view_put_keep (s : LineMarkersParser_impl) (i : Nat) (x : PreprocessedFile)
    (h1 : x.includes = (s.tree.rec_at i).includes) (h2 : x.depth = (s.tree.rec_at i).depth)
    (h3 : x.lines_count = (s.tree.rec_at i).lines_count)
    (h4 : x.cumulated_lines_count = (s.tree.rec_at i).cumulated_lines_count)
    (h5 : x.filename = (s.tree.rec_at i).filename)
    (h6 : x.included_at_line = (s.tree.rec_at i).included_at_line) :
    LineMarkersParser_impl.view { s with tree := s.tree.put i x } = s.view := by
  simp only [LineMarkersParser_impl.view, AState.mk.injEq]
  refine ⟨by simp, ?_, ?_, ?_, ?_, ?_, ?_, trivial⟩ <;>
  · funext j
    simp only [rec_at_put]
    by_cases hj : j = i ∧ i < s.tree.files.length
    · rw [if_pos hj, hj.1]
      simp [h1, h2, h3, h4, h5, h6]
    · rw [if_neg hj]

theorem view_put_count (s : LineMarkersParser_impl) (i : Nat) (x : PreprocessedFile)
    (hi : i < s.tree.files.length)
    (h1 : x.includes = (s.tree.rec_at i).includes) (h2 : x.depth = (s.tree.rec_at i).depth)
    (h3 : x.lines_count = ((s.tree.rec_at i).lines_count + 1) % SIZE_MOD)
    (h4 : x.cumulated_lines_count = (s.tree.rec_at i).cumulated_lines_count)
    (h5 : x.filename = (s.tree.rec_at i).filename)
    (h6 : x.included_at_line = (s.tree.rec_at i).included_at_line) :
    LineMarkersParser_impl.view { s with tree := s.tree.put i x } = s.view.bump i := by
  simp only [LineMarkersParser_impl.view, AState.bump, AState.mk.injEq]
  refine ⟨by simp, ?_, ?_, ?_, ?_, ?_, ?_, trivial⟩ <;>
  · funext j
    simp only [rec_at_put, Function.update_apply]
    by_cases hj : j = i
    · subst hj
      simp [hi, h1, h2, h3, h4, h5, h6]
    · simp [hj]

theorem storeOK_put {s : LineMarkersParser_impl} (h : s.StoreOK) (i : Nat) (x : PreprocessedFile)
    (h1 : x.includes = (s.tree.rec_at i).includes) :
    LineMarkersParser_impl.StoreOK { s with tree := s.tree.put i x } := by
  obtain ⟨ha, hb, hc⟩ := h
  refine ⟨ha, ?_, hc⟩
  intro j c hcm
  simp only [rec_at_put, put_store] at hcm ⊢
  by_cases hj : j = i ∧ i < s.tree.files.length
  · rw [if_pos hj, h1] at hcm
    exact hb i c hcm
  · rw [if_neg hj] at hcm
    exact hb j c hcm

theorem stack_top_of_wf {s : LineMarkersParser_impl} (hs : s.StoreOK) (hw : s.view.WF) :
    ∃ init top, s.stack = init ++ [top] ∧ top.store = s.tree.store ∧
      top.idx < s.tree.files.length ∧ s.view.stackR = top.idx :: init.reverse.map Ptr.idx := by
  rcases List.eq_nil_or_concat s.stack with hnil | ⟨init, top, hst⟩
  · have := hw.bottom
    simp [LineMarkersParser_impl.view, hnil] at this
  · have hst' : s.stack = init ++ [top] := by simpa using hst
    have hv : s.view.stackR = top.idx :: init.reverse.map Ptr.idx := by
      simp [LineMarkersParser_impl.view, hst']
    refine ⟨init, top, hst', hs.1 top (by simp [hst']), ?_, hv⟩
    exact hw.stack_valid top.idx (by simp [hv])

theorem stack_two_of_wf {s : LineMarkersParser_impl} (hs : s.StoreOK) (hw : s.view.WF)
    (hlen : 1 < s.stack.length) :
    ∃ init q top, s.stack = init ++ [q] ++ [top] ∧ top.store = s.tree.store ∧
      top.idx < s.tree.files.length ∧ q.store = s.tree.store ∧ q.idx < s.tree.files.length ∧
      q.idx ≠ top.idx ∧ s.view.stackR = top.idx :: q.idx :: init.reverse.map Ptr.idx := by
  obtain ⟨init0, top, hst, htst, htidx, hv⟩ := stack_top_of_wf hs hw
  rcases List.eq_nil_or_concat init0 with hnil | ⟨init, q, hi⟩
  · subst hnil
    simp [hst] at hlen
  · have hi' : init0 = init ++ [q] := by simpa using hi
    subst hi'
    have hv' : s.view.stackR = top.idx :: q.idx :: init.reverse.map Ptr.idx := by
      simpa using hv
    have hq : q.idx < top.idx := hw.below_lt hv' q.idx (by simp)
    refine ⟨init, q, top, hst, htst, htidx, hs.1 q (by simp [hst]), ?_, by omega, hv'⟩
    exact hw.stack_valid q.idx (by simp [hv'])

theorem pop_stack_sim {s : LineMarkersParser_impl} (hs : s.StoreOK) (hw : s.view.WF)
    (hlen : 1 < s.stack.length) :
    ∃ s', pop_stack s = .ok s' ∧ s'.StoreOK ∧ AStep 0 s.view s'.view ∧
      s'.stack = s.stack.dropLast ∧ s'.in_preamble = s.in_preamble ∧
      s'.store_lines = s.store_lines := by
  obtain ⟨init, q, top, hst, htst, htidx, hqst, hqidx, hne, hv⟩ := stack_two_of_wf hs hw hlen
  refine ⟨s.popped top q, pop_stack_ok hst htst htidx hqst hqidx, storeOK_popped hs, ?_,
    rfl, rfl, rfl⟩
  rw [view_popped htidx hqidx hne]
  exact AStep.pop _ _ _ _ hv

theorem pop_to_root_sim : ∀ (fuel : Nat) {s : LineMarkersParser_impl}, s.StoreOK → s.view.WF →
    s.stack.length ≤ fuel + 1 →
    ∃ s', pop_to_root fuel s = .ok s' ∧ s'.StoreOK ∧ ASteps 0 s.view s'.view ∧
      s'.stack.length = 1 ∧ s'.in_preamble = s.in_preamble ∧ s'.store_lines = s.store_lines
  | 0, s, hs, hw, hlen => by
    obtain ⟨init, top, hst, -, -, -⟩ := stack_top_of_wf hs hw
    have h1 : s.stack.length = 1 := by
      have : 1 ≤ s.stack.length := by simp [hst]
      omega
    refine ⟨s, ?_, hs, ASteps.refl _, h1, rfl, rfl⟩
    simp [pop_to_root, h1]
  | fuel + 1, s, hs, hw, hlen => by
    by_cases h1 : 1 < s.stack.length
    · obtain ⟨s1, hp, hs1, hstep, hstk, hpre, hsl⟩ := pop_stack_sim hs hw h1
      have hw1 : s1.view.WF := hw.step hstep
      have hlen1 : s1.stack.length ≤ fuel + 1 := by
        rw [hstk, List.length_dropLast]
        omega
      obtain ⟨s', hp', hs', hsteps, hl', hpre', hsl'⟩ := pop_to_root_sim fuel hs1 hw1 hlen1
      refine ⟨s', ?_, hs', ?_, hl', by rw [hpre', hpre], by rw [hsl', hsl]⟩
      · simp [pop_to_root, h1, hp, hp', bind, Except.bind]
      · have := ASteps.step hstep hsteps
        simpa using this
    · obtain ⟨init, top, hst, -, -, -⟩ := stack_top_of_wf hs hw
      have h2 : s.stack.length = 1 := by
        have : 1 ≤ s.stack.length := by simp [hst]
        omega
      refine ⟨s, ?_, hs, ASteps.refl _, h2, rfl, rfl⟩
      simp [pop_to_root, h1]

theorem push_stack_sim {s : LineMarkersParser_impl} (hs : s.StoreOK) (hw : s.view.WF)
    (filename : String) :
    ∃ s', push_stack s filename = .ok s' ∧ s'.StoreOK ∧ AStep 0 s.view s'.view ∧
      s'.in_preamble = s.in_preamble ∧ s'.store_lines = s.store_lines := by
  obtain ⟨init, top, hst, htst, htidx, hv⟩ := stack_top_of_wf hs hw
  refine ⟨s.pushed top filename, push_stack_ok hst htst htidx filename,
    storeOK_pushed hs htidx filename, ?_, rfl, rfl⟩
  rw [view_pushed htidx]
  exact AStep.push _ _ _ _ _ hv

theorem parseLine_sim {s s' : LineMarkersParser_impl} {line : String} (hs : s.StoreOK)
    (hw : s.view.WF) (h : parseLine s line = .ok s') :
    s'.StoreOK ∧ s'.store_lines = s.store_lines ∧ ∃ c, c ≤ 1 ∧ ASteps c s.view s'.view := by
  obtain ⟨init, top, hst, htst, htidx, hv⟩ := stack_top_of_wf hs hw
  cases hpre : s.in_preamble with
  | true =>
    rw [parseLine_preamble hpre hst htst htidx] at h
    cases h
    exact ⟨hs, rfl, 0, by omega, ASteps.refl _⟩
  | false =>
    cases hm : regex_match line.data with
    | none =>
      rw [parseLine_content hpre hst htst htidx hm] at h
      cases h
      refine ⟨storeOK_put hs _ _ rfl, rfl, 1, by omega, ?_⟩
      rw [view_put_count s top.idx (count_line s.store_lines line (s.tree.rec_at top.idx))
        htidx rfl rfl rfl rfl rfl rfl]
      have := ASteps.step (AStep.bump _ _ _ hv) (ASteps.refl _)
      simpa using this
    | some m =>
      cases hnum : stoul m.m1 with
      | error e =>
        simp [parseLine, hpre, hm, hnum, bind, Except.bind] at h
      | ok linenum =>
        cases h1 : contains (flags_of m) 1 with
        | true =>
          rw [parseLine_enter hpre hst htst htidx hm hnum h1] at h
          cases h
          have hs1 : LineMarkersParser_impl.StoreOK
              { s with tree := s.tree.put top.idx (count_include (s.tree.rec_at top.idx)) } :=
            storeOK_put hs _ _ rfl
          have hv1 : LineMarkersParser_impl.view
              { s with tree := s.tree.put top.idx (count_include (s.tree.rec_at top.idx)) } =
              s.view.bump top.idx :=
            view_put_count s top.idx (count_include (s.tree.rec_at top.idx)) htidx
              rfl rfl rfl rfl rfl rfl
          refine ⟨storeOK_pushed hs1 (by simpa using htidx) _, rfl, 1, by omega, ?_⟩
          rw [view_pushed (by simpa using htidx), hv1]
          have hb : AStep 1 s.view (s.view.bump top.idx) := AStep.bump _ _ _ hv
          have hp : AStep 0 (s.view.bump top.idx) ((s.view.bump top.idx).push top.idx
              (String.mk m.m2) ((s.tree.put top.idx
                (count_include (s.tree.rec_at top.idx))).rec_at top.idx).last_effective_line) :=
            AStep.push _ _ _ _ _ hv
          have := ASteps.step hb (ASteps.step hp (ASteps.refl _))
          simpa using this
        | false =>
          cases h2 : contains (flags_of m) 2 with
          | true =>
            by_cases hlen : 1 < s.stack.length
            · obtain ⟨init', q, top', hst', htst', htidx', hqst, hqidx, hne, hv'⟩ :=
                stack_two_of_wf hs hw hlen
              rw [parseLine_leave hpre hst' htst' htidx' hqst hqidx hm hnum h1 h2] at h
              cases h
              have hsp : (s.popped top' q).StoreOK := storeOK_popped hs
              refine ⟨storeOK_put hsp q.idx
                (resume_at linenum ((s.popped top' q).tree.rec_at q.idx)) rfl, rfl, 0,
                by omega, ?_⟩
              rw [view_put_keep (s.popped top' q) q.idx
                (resume_at linenum ((s.popped top' q).tree.rec_at q.idx))
                rfl rfl rfl rfl rfl rfl, view_popped htidx' hqidx hne]
              have := ASteps.step (AStep.pop _ _ _ _ hv') (ASteps.refl _)
              simpa using this
            · rw [parseLine_leave_root hpre (by omega) hm hnum h1 h2] at h
              cases h
          | false =>
            by_cases hfn : String.mk m.m2 = (s.tree.rec_at top.idx).filename
            · rw [parseLine_jump hpre hst htst htidx hm hnum h1 h2 hfn] at h
              cases h
              refine ⟨storeOK_put hs _ _ rfl, rfl, 0, by omega, ?_⟩
              rw [view_put_keep s top.idx (jump_to s.store_lines linenum (s.tree.rec_at top.idx))
                rfl rfl rfl rfl rfl rfl]
              exact ASteps.refl _
            · rw [parseLine_restart hpre hst htst htidx hm hnum h1 h2 hfn] at h
              obtain ⟨s1, hp1, hs1, hsteps1, -, -, hsl1⟩ :=
                pop_to_root_sim s.stack.length hs hw (by omega)
              have hw1 : s1.view.WF := hw.steps hsteps1
              obtain ⟨s2, hp2, hs2, hstep2, -, hsl2⟩ := push_stack_sim hs1 hw1 (String.mk m.m2)
              simp only [hp1, hp2, bind, Except.bind, pure, Except.pure, Except.ok.injEq] at h
              subst h
              refine ⟨hs2, by rw [← hsl1, ← hsl2], 0, by omega, ?_⟩
              have hsteps2 : ASteps 0 s1.view s2.view := by
                have := ASteps.step hstep2 (ASteps.refl _)
                simpa using this
              exact ASteps.trans0 hsteps1 hsteps2

/-! ### Invariants of the states reached by parsing -/

theorem finalize_sim {s : LineMarkersParser_impl} (hs : s.StoreOK) (hw : s.view.WF) :
    ∃ s', finalize s = .ok s' ∧ s'.StoreOK ∧ ASteps 0 s.view s'.view ∧
      s'.stack.length = 1 ∧ s'.store_lines = s.store_lines := by
  obtain ⟨s', h1, h2, h3, h4, -, h6⟩ := pop_to_root_sim s.stack.length hs hw (by omega)
  exact ⟨s', h1, h2, h3, h4, h6⟩

theorem parseLines_sim : ∀ (lines : List String) {s s' : LineMarkersParser_impl},
    s.StoreOK → s.view.WF → parseLines s lines = .ok s' →
    s'.StoreOK ∧ s'.store_lines = s.store_lines ∧
      ∃ c, c ≤ lines.length ∧ ASteps c s.view s'.view
  | [], s, s', hs, _, h => by
    simp only [parseLines, Except.ok.injEq] at h
    subst h
    exact ⟨hs, rfl, 0, by simp, ASteps.refl _⟩
  | line :: rest, s, s', hs, hw, h => by
    simp only [parseLines, bind, Except.bind] at h
    cases h1 : parseLine s line with
    | error e => simp [h1] at h
    | ok s1 =>
      simp only [h1] at h
      obtain ⟨hs1, hsl1, c1, hc1, hsteps1⟩ := parseLine_sim hs hw h1
      obtain ⟨hs', hsl', c2, hc2, hsteps2⟩ := parseLines_sim rest hs1 (hw.steps hsteps1) h
      refine ⟨hs', by rw [hsl', hsl1], c1 + c2, ?_, hsteps1.trans hsteps2⟩
      simp only [List.length_cons]
      omega

theorem view_new (store : Nat) (b : Bool) :
    (LineMarkersParser_impl.new store b).view.n = 1 ∧
    (LineMarkersParser_impl.new store b).view.stackR = [0] ∧
    (∀ i, (LineMarkersParser_impl.new store b).view.inc i = []) ∧
    (∀ i, (LineMarkersParser_impl.new store b).view.cum i = 0) ∧
    (∀ i, (LineMarkersParser_impl.new store b).view.lc i = 0) ∧
    (LineMarkersParser_impl.new store b).view.fname 0 = "-" ∧
    (LineMarkersParser_impl.new store b).view.depth 0 = 0 ∧
    (LineMarkersParser_impl.new store b).view.incl_at 0 = 0 := by
  have hrec : ∀ i, ((IncludeTree.new store).rec_at i).includes = [] ∧
      ((IncludeTree.new store).rec_at i).cumulated_lines_count = 0 ∧
      ((IncludeTree.new store).rec_at i).lines_count = 0 := by
    intro i
    cases i with
    | zero => exact ⟨rfl, rfl, rfl⟩
    | succ j => exact ⟨rfl, rfl, rfl⟩
  refine ⟨rfl, rfl, ?_, ?_, ?_, rfl, rfl, rfl⟩
  · intro i
    simp [LineMarkersParser_impl.view, LineMarkersParser_impl.new, (hrec i).1]
  · intro i
    simp [LineMarkersParser_impl.view, LineMarkersParser_impl.new, (hrec i).2.1]
  · intro i
    simp [LineMarkersParser_impl.view, LineMarkersParser_impl.new, (hrec i).2.2]

theorem storeOK_new (store : Nat) (b : Bool) : (LineMarkersParser_impl.new store b).StoreOK := by
  refine ⟨?_, ?_, rfl⟩
  · intro p hp
    simp [LineMarkersParser_impl.new, IncludeTree.new] at hp
    subst hp
    rfl
  · intro i c hc
    have := (view_new store b).2.2.1 i
    simp only [LineMarkersParser_impl.view, List.map_eq_nil_iff] at this
    rw [this] at hc
    simp at hc

theorem wf_new (store : Nat) (b : Bool) : (LineMarkersParser_impl.new store b).view.WF := by
  obtain ⟨hn, hst, hinc, -⟩ := view_new store b
  constructor
  · intro p hp
    rw [hst] at hp
    simp at hp
    omega
  · rw [hst]
    simp
  · rw [hst]
    rfl
  · intro i _ c hc
    rw [hinc] at hc
    simp at hc
  · intro i _ _ c hc
    rw [hinc] at hc
    simp at hc
  · intro t _ c hc
    rw [hinc] at hc
    simp at hc
  · rw [hst]
    simp
  · intro q hq
    rw [hst] at hq
    simp at hq

theorem depthOK_new (store : Nat) (b : Bool) :
    (LineMarkersParser_impl.new store b).view.DepthOK := by
  intro i _ c hc
  rw [(view_new store b).2.2.1] at hc
  simp at hc

theorem rootOK_new (store : Nat) (b : Bool) :
    (LineMarkersParser_impl.new store b).view.RootOK := by
  obtain ⟨-, -, -, -, -, h1, h2, h3⟩ := view_new store b
  exact ⟨h1, h2, h3⟩

theorem shape_new (store : Nat) (b : Bool) (e : Nat → Nat) :
    (LineMarkersParser_impl.new store b).view.Shape e := by
  obtain ⟨hn, hst, hinc, -⟩ := view_new store b
  constructor
  · intro i hi hni
    rw [hn] at hi
    rw [hst] at hni
    have : i = 0 := by omega
    subst this
    simp at hni
  · intro t ht
    rw [hst] at ht
    simp at ht
    subst ht
    rw [hinc, hn]
    simp [ChainTo]
  · intro q hq
    rw [hst] at hq
    simp at hq

theorem cumOK_new (store : Nat) (b : Bool) (m : Nat) :
    (LineMarkersParser_impl.new store b).view.CumOK m := by
  obtain ⟨hn, hst, hinc, hcum, hlc, -⟩ := view_new store b
  constructor
  · intro i hi hni
    rw [hn] at hi
    rw [hst] at hni
    have : i = 0 := by omega
    subst this
    simp at hni
  · intro t _
    rw [hinc, hcum]
    simp [sum_at, Nat.ModEq]
  · intro q hq
    rw [hst] at hq
    simp at hq

theorem sumBound_new (store : Nat) (b : Bool) :
    (LineMarkersParser_impl.new store b).view.SumBound 0 := by
  obtain ⟨hn, hst, hinc, hcum, hlc, -⟩ := view_new store b
  simp [AState.SumBound, hst, hcum, hlc]

/-! ### The pop loop never exhausts its budget -/

theorem back_error {α : Type} {l : List α} {e : Fault} (h : back l = .error e) :
    e = .undefined_behaviour := by
  unfold back at h
  split at h
  · cases h
  · cases h
    rfl

theorem deref_error {t : IncludeTree} {p : Ptr} {e : Fault} (h : t.deref p = .error e) :
    e = .undefined_behaviour := by
  unfold IncludeTree.deref at h
  split at h
  · split at h
    · cases h
    · cases h
      rfl
  · cases h
    rfl

theorem update_error {t : IncludeTree} {p : Ptr} {g : PreprocessedFile → PreprocessedFile}
    {e : Fault} (h : t.update p g = .error e) : e = .undefined_behaviour := by
  unfold IncludeTree.update at h
  cases hd : t.deref p with
  | error e' =>
    simp only [hd, bind, Except.bind] at h
    cases h
    exact deref_error hd
  | ok f =>
    simp [hd, bind, Except.bind, pure, Except.pure] at h

theorem pop_stack_cases (s : LineMarkersParser_impl) :
    pop_stack s = .error .undefined_behaviour ∨
      ∃ s', pop_stack s = .ok s' ∧ s'.stack = s.stack.dropLast := by
  unfold pop_stack
  simp only [bind, Except.bind, pure, Except.pure]
  split
  · next e h1 => left; rw [back_error h1]
  · split
    · next e h2 => left; rw [deref_error h2]
    · split
      · next e h3 => left; rw [update_error h3]
      · split
        · next e h4 => left; rw [back_error h4]
        · split
          · next e h5 => left; rw [update_error h5]
          · right
            exact ⟨_, rfl, rfl⟩

theorem pop_to_root_fuel : ∀ (fuel : Nat) (s : LineMarkersParser_impl),
    s.stack.length ≤ fuel + 1 → pop_to_root fuel s ≠ .error .out_of_fuel
  | 0, s, hlen => by
    have : ¬ s.stack.length > 1 := by omega
    simp [pop_to_root, this]
  | fuel + 1, s, hlen => by
    by_cases h1 : s.stack.length > 1
    · rcases pop_stack_cases s with hp | ⟨s1, hp, hst⟩
      · simp [pop_to_root, h1, hp, bind, Except.bind]
      · have hlen1 : s1.stack.length ≤ fuel + 1 := by
          rw [hst, List.length_dropLast]
          omega
        have := pop_to_root_fuel fuel s1 hlen1
        simpa [pop_to_root, h1, hp, bind, Except.bind] using this
    · simp [pop_to_root, h1]

theorem finalize_fuel (s : LineMarkersParser_impl) : finalize s ≠ .error .out_of_fuel :=
  pop_to_root_fuel s.stack.length s (by omega)

/-! ### The preorder walk of a tree with interval structure -/

theorem preorder_loop_intervals {t : IncludeTree} {e : Nat → Nat} (hI : t.Intervals e) :
    ∀ (fuel : Nat) (queue out : List Ptr) (v : Nat),
      ChainTo e v (queue.reverse.map Ptr.idx) t.files.length →
      (∀ p ∈ queue, p.store = t.store) → 1 ≤ v → t.files.length - v ≤ fuel →
      preorder_loop t fuel queue out =
        .ok (out ++ (List.range' v (t.files.length - v)).map (Ptr.mk t.store)) := by
  intro fuel
  induction fuel with
  | zero =>
    intro queue out v hch hst hv hfuel
    rcases List.eq_nil_or_concat queue with rfl | ⟨init, cur, hq⟩
    · simp only [List.reverse_nil, List.map_nil, ChainTo] at hch
      subst hch
      simp [preorder_loop]
    · have hq' : queue = init ++ [cur] := by simpa using hq
      subst hq'
      simp only [List.reverse_append, List.reverse_cons, List.reverse_nil, List.nil_append,
        List.singleton_append, List.map_cons, ChainTo] at hch
      have := ChainTo.le hch.2.2
      omega
  | succ fuel ih =>
    intro queue out v hch hst hv hfuel
    rcases List.eq_nil_or_concat queue with rfl | ⟨init, cur, hq⟩
    · simp only [List.reverse_nil, List.map_nil, ChainTo] at hch
      subst hch
      simp [preorder_loop]
    · have hq' : queue = init ++ [cur] := by simpa using hq
      subst hq'
      simp only [List.reverse_append, List.reverse_cons, List.reverse_nil, List.nil_append,
        List.singleton_append, List.map_cons, ChainTo] at hch
      obtain ⟨hcur, hlt, hrest⟩ := hch
      have hle := ChainTo.le hrest
      have hvn : v < t.files.length := by omega
      have hcst : cur.store = t.store := hst cur (by simp)
      have hcur' : cur = ⟨t.store, v⟩ := by
        cases cur
        simp only at hcur hcst
        subst hcur hcst
        rfl
      have hne : init ++ [cur] ≠ [] := by simp
      have hderef : t.deref cur = .ok (t.rec_at v) := by
        rw [← hcur]
        exact deref_ok hcst (by omega)
      have hI3 := hI.2.2 v (by omega) hvn
      have hnext : ChainTo e (v + 1)
          ((init ++ (t.rec_at v).includes.reverse).reverse.map Ptr.idx) t.files.length := by
        simp only [List.reverse_append, List.reverse_reverse, List.map_append]
        exact ChainTo.append hI3.2 hrest
      have hst' : ∀ p ∈ init ++ (t.rec_at v).includes.reverse, p.store = t.store := by
        intro p hp
        rcases List.mem_append.mp hp with hp | hp
        · exact hst p (by simp [hp])
        · exact hI.1 v hvn p (by simpa using hp)
      have := ih (init ++ (t.rec_at v).includes.reverse) (out ++ [cur]) (v + 1) hnext hst'
        (by omega) (by omega)
      simp only [preorder_loop, hne, if_false, back_concat, List.dropLast_concat, hderef, bind,
        Except.bind, this]
      have hsplit : t.files.length - v = (t.files.length - (v + 1)) + 1 := by omega
      rw [hsplit, List.range'_succ, List.map_cons, hcur']
      simp

theorem preorder_walk_intervals {t : IncludeTree} {e : Nat → Nat} (hI : t.Intervals e)
    (hroot : t.root = ⟨t.store, 0⟩) (hpos : 0 < t.files.length) {fuel : Nat}
    (hfuel : t.files.length ≤ fuel) :
    preorder_walk fuel t =
      .ok ((List.range' 1 (t.files.length - 1)).map (Ptr.mk t.store)) := by
  unfold preorder_walk
  have hderef : t.deref t.root = .ok (t.rec_at 0) := by
    rw [hroot]
    exact deref_ok rfl hpos
  simp only [hderef, bind, Except.bind, List.nil_append]
  have := preorder_loop_intervals hI fuel (t.rec_at 0).includes.reverse [] 1
    (by simpa using hI.2.1) (fun p hp => hI.1 0 hpos p (by simpa using hp)) (Nat.le_refl 1)
    (by omega)
  simpa using this

theorem preorder_loop_mono (t : IncludeTree) :
    ∀ (fuel : Nat) (queue out r : List Ptr),
      preorder_loop t fuel queue out = .ok r → preorder_loop t (fuel + 1) queue out = .ok r := by
  intro fuel
  induction fuel with
  | zero =>
    intro queue out r h
    by_cases hq : queue = []
    · subst hq
      simpa [preorder_loop] using h
    · simp [preorder_loop, hq] at h
  | succ fuel ih =>
    intro queue out r h
    by_cases hq : queue = []
    · subst hq
      simpa [preorder_loop] using h
    · rw [preorder_loop] at h ⊢
      simp only [hq, if_false, bind, Except.bind] at h ⊢
      cases hb : back queue with
      | error e => simp [hb] at h
      | ok cur =>
        simp only [hb] at h ⊢
        cases hd : t.deref cur with
        | error e => simp [hd] at h
        | ok f =>
          simp only [hd] at h ⊢
          exact ih _ _ _ h

theorem preorder_loop_mono_le (t : IncludeTree) {fuel fuel' : Nat} (hle : fuel ≤ fuel')
    {queue out r : List Ptr} (h : preorder_loop t fuel queue out = .ok r) :
    preorder_loop t fuel' queue out = .ok r := by
  induction hle with
  | refl => exact h
  | step _ ih => exact preorder_loop_mono t _ _ _ _ ih

theorem preorder_walk_mono_le (t : IncludeTree) {fuel fuel' : Nat} (hle : fuel ≤ fuel')
    {r : List Ptr} (h : preorder_walk fuel t = .ok r) : preorder_walk fuel' t = .ok r := by
  unfold preorder_walk at h ⊢
  cases hd : t.deref t.root with
  | error e => simp [hd, bind, Except.bind] at h
  | ok f =>
    simp only [hd, bind, Except.bind] at h ⊢
    exact preorder_loop_mono_le t hle h

/-! ### The tree returned by `from_lines` -/

theorem stackR_singleton {s : LineMarkersParser_impl} (hw : s.view.WF)
    (hlen : s.stack.length = 1) : s.view.stackR = [0] := by
  have hb := hw.bottom
  have hl : s.view.stackR.length = 1 := by
    simp [LineMarkersParser_impl.view, hlen]
  match hst : s.view.stackR, hl with
  | [x], _ =>
    rw [hst] at hb
    simp at hb
    rw [hb]

theorem from_lines_ok {store : Nat} {lines : List String} {b : Bool} {t : IncludeTree}
    (h : IncludeTree.from_lines store lines b = .ok t) :
    ∃ s1 s2, parseLines (LineMarkersParser_impl.new store b) lines = .ok s1 ∧
      finalize s1 = .ok s2 ∧ s2.tree = t ∧ s2.StoreOK ∧ s2.view.WF ∧
      s2.view.stackR = [0] ∧ s2.store_lines = b ∧
      ∃ c, c ≤ lines.length ∧ ASteps c (LineMarkersParser_impl.new store b).view s2.view := by
  unfold IncludeTree.from_lines at h
  simp only [bind, Except.bind] at h
  cases h1 : parseLines (LineMarkersParser_impl.new store b) lines with
  | error e => simp [h1] at h
  | ok s1 =>
    simp only [h1] at h
    obtain ⟨hs1, hsl1, c, hc, hsteps⟩ :=
      parseLines_sim lines (storeOK_new store b) (wf_new store b) h1
    have hw1 : s1.view.WF := (wf_new store b).steps hsteps
    obtain ⟨s2, h2, hs2, hsteps2, hlen, hsl2⟩ := finalize_sim hs1 hw1
    have hw2 : s2.view.WF := hw1.steps hsteps2
    simp only [h2] at h
    have hpos : 0 < s2.tree.files.length := hw2.pos
    have htree : s2.tree = t := by
      unfold IncludeTree.move IncludeTree.front_addr at h
      cases hf : s2.tree.files with
      | nil => simp [hf] at hpos
      | cons x xs =>
        simp only [hf, bind, Except.bind, pure, Except.pure, Except.ok.injEq] at h
        rw [← h]
        have hr := hs2.2.2
        cases ht : s2.tree with
        | mk st fs r =>
          rw [ht] at hf hr
          simp only at hf hr
          subst hf hr
          rfl
    refine ⟨s1, s2, rfl, h2, htree, hs2, hw2, stackR_singleton hw2 hlen, ?_, c, ?_, ?_⟩
    · rw [hsl2, hsl1]
      rfl
    · exact hc
    · have := hsteps.trans hsteps2
      simpa using this

theorem intervals_of_shape {s : LineMarkersParser_impl} {e : Nat → Nat} (hs : s.StoreOK)
    (hst : s.view.stackR = [0]) (hsh : s.view.Shape e) : s.tree.Intervals e := by
  refine ⟨fun i _ c hc => hs.2.1 i c hc, ?_, ?_⟩
  · exact hsh.top 0 (by simp [hst])
  · intro i hi hlt
    exact hsh.closed i hlt (by simp [hst]; omega)

theorem from_lines_intervals {store : Nat} {lines : List String} {b : Bool} {t : IncludeTree}
    (h : IncludeTree.from_lines store lines b = .ok t) :
    t.root = ⟨t.store, 0⟩ ∧ 0 < t.files.length ∧ ∃ e, t.Intervals e := by
  obtain ⟨s1, s2, -, -, htree, hs2, hw2, hst, -, c, -, hsteps⟩ := from_lines_ok h
  obtain ⟨e, he⟩ := AState.Shape.shape_steps (wf_new store b) ⟨fun _ => 0, shape_new store b _⟩ hsteps
  subst htree
  exact ⟨hs2.2.2, hw2.pos, e, intervals_of_shape hs2 hst he⟩

theorem reach_inv {store : Nat} {lines : List String} {b : Bool} {s : LineMarkersParser_impl}
    (h : parseLines (LineMarkersParser_impl.new store b) lines = .ok s) :
    s.StoreOK ∧ s.view.WF ∧ s.view.DepthOK ∧ s.view.RootOK ∧ (∃ e, s.view.Shape e) ∧
      s.view.CumOK SIZE_MOD ∧
      (lines.length < SIZE_MOD → s.view.CumOK 0 ∧ s.view.SumBound lines.length) := by
  obtain ⟨hs, -, c, hc, hsteps⟩ := parseLines_sim lines (storeOK_new store b) (wf_new store b) h
  have hw0 := wf_new store b
  refine ⟨hs, hw0.steps hsteps, (depthOK_new store b).depth_steps hw0 hsteps,
    (rootOK_new store b).root_steps hw0 hsteps,
    AState.Shape.shape_steps hw0 ⟨fun _ => 0, shape_new store b _⟩ hsteps,
    (cumOK_new store b SIZE_MOD).steps_mod hw0 hsteps, ?_⟩
  intro hlen
  have := AState.CumOK.steps_exact hsteps hw0 (cumOK_new store b 0) (sumBound_new store b)
    (by omega)
  exact ⟨this.1, this.2.bound_mono (by omega)⟩

theorem finalize_inv {s s' : LineMarkersParser_impl} (hs : s.StoreOK) (hw : s.view.WF)
    (h : finalize s = .ok s') :
    s'.StoreOK ∧ s'.view.stackR = [0] ∧ ASteps 0 s.view s'.view := by
  obtain ⟨s2, h2, hs2, hsteps, hlen, -⟩ := finalize_sim hs hw
  rw [h2] at h
  cases h
  exact ⟨hs2, stackR_singleton (hw.steps hsteps) hlen, hsteps⟩

theorem from_lines_view {store : Nat} {lines : List String} {b : Bool} {t : IncludeTree}
    (h : IncludeTree.from_lines store lines b = .ok t) :
    ∃ s : LineMarkersParser_impl, s.tree = t ∧ s.StoreOK ∧ s.view.WF ∧ s.view.stackR = [0] ∧
      s.view.DepthOK ∧
      s.view.RootOK ∧ s.view.CumOK SIZE_MOD ∧
      (lines.length < SIZE_MOD → s.view.CumOK 0) := by
  obtain ⟨s1, s2, h1, h2, htree, hs2, hw2, hst, -, -⟩ := from_lines_ok h
  obtain ⟨hs1, hw1, hd1, hr1, -, hm1, hx1⟩ := reach_inv h1
  obtain ⟨-, -, hsteps⟩ := finalize_inv hs1 hw1 h2
  refine ⟨s2, htree, hs2, hw2, hst, hd1.depth_steps hw1 hsteps, hr1.root_steps hw1 hsteps,
    hm1.steps_mod hw1 hsteps, ?_⟩
  intro hlen
  obtain ⟨hc, hb⟩ := hx1 hlen
  exact (AState.CumOK.steps_exact hsteps hw1 hc hb (by omega)).1

/-! ### Depths on the records -/

theorem depthRule_of_view {s : LineMarkersParser_impl} (hs : s.StoreOK) (hw : s.view.WF)
    (hd : s.view.DepthOK) : s.tree.DepthRule := by
  intro p f hp c hc
  obtain ⟨hpst, hpidx, hrec⟩ := deref_eq_ok hp
  subst hrec
  have hcst : c.store = s.tree.store := hs.2.1 p.idx c hc
  have hmem : c.idx ∈ s.view.inc p.idx := List.mem_map_of_mem _ hc
  have hv := hw.inc_valid p.idx hpidx c.idx hmem
  exact ⟨s.tree.rec_at c.idx, deref_ok hcst hv.2, hd p.idx hpidx c.idx hmem⟩

theorem rootChildrenRule_of_view {s : LineMarkersParser_impl} (hs : s.StoreOK) (hw : s.view.WF)
    (hd : s.view.DepthOK) (hr : s.view.RootOK) : s.tree.RootChildrenRule := by
  intro r hroot c hc
  obtain ⟨g, hg, hdepth⟩ := depthRule_of_view hs hw hd s.tree.root r hroot c hc
  refine ⟨g, hg, ?_⟩
  rw [hs.2.2] at hroot
  obtain ⟨-, -, hrec⟩ := deref_eq_ok hroot
  have h0 : r.depth = 0 := by
    rw [← hrec]
    exact hr.2.1
  omega

/-! ### Order of the walk -/

theorem sublist_range'_of_sorted {l : List Nat} {s m : Nat} (hsorted : l.Pairwise (fun a b => a < b))
    (hmem : ∀ x ∈ l, s ≤ x ∧ x < s + m) : l.Sublist (List.range' s m) := by
  have hnodup : l.Nodup := hsorted.imp (fun h => Nat.ne_of_lt h)
  have hsub : l ⊆ List.range' s m := fun x hx => List.mem_range'_1.mpr (hmem x hx)
  have h1 : l.Sorted (fun a b => a ≤ b) := hsorted.imp (fun h => Nat.le_of_lt h)
  have h2 : (List.range' s m).Sorted (fun a b => a ≤ b) :=
    (List.pairwise_lt_range' s m).imp (fun h => Nat.le_of_lt h)
  exact List.sublist_of_subperm_of_sorted (List.subperm_of_subset hnodup hsub) h1 h2

theorem includes_eq_map {t : IncludeTree} {f : PreprocessedFile}
    (h : ∀ c ∈ f.includes, c.store = t.store) :
    f.includes = (f.includes.map Ptr.idx).map (Ptr.mk t.store) := by
  rw [List.map_map]
  have : ∀ c ∈ f.includes, (Ptr.mk t.store ∘ Ptr.idx) c = id c := by
    intro c hc
    have := h c hc
    cases c
    simp only at this
    subst this
    rfl
  rw [List.map_congr_left this, List.map_id]

theorem intervals_children {t : IncludeTree} {e : Nat → Nat} (hI : t.Intervals e) {i : Nat}
    (hi : i < t.files.length) :
    ((t.rec_at i).includes.map Ptr.idx).Pairwise (fun a b => a < b) ∧
      ∀ x ∈ (t.rec_at i).includes.map Ptr.idx, i + 1 ≤ x ∧ x < t.files.length := by
  by_cases h0 : i = 0
  · subst h0
    exact ⟨ChainTo.sorted hI.2.1, fun x hx => ChainTo.mem_range hI.2.1 x hx⟩
  · obtain ⟨hle, hch⟩ := hI.2.2 i (by omega) hi
    refine ⟨ChainTo.sorted hch, fun x hx => ?_⟩
    have := ChainTo.mem_range hch x hx
    omega

theorem desc_lt {t : IncludeTree} {e : Nat → Nat} (hI : t.Intervals e) {p q : Ptr}
    (h : Desc t p q) : q.store = t.store ∧ p.idx < q.idx ∧ q.idx < t.files.length := by
  induction h with
  | child p c f hp hc =>
    obtain ⟨-, hpidx, hrec⟩ := deref_eq_ok hp
    subst hrec
    have := (intervals_children hI hpidx).2 c.idx (List.mem_map_of_mem _ hc)
    exact ⟨hI.1 p.idx hpidx c hc, by omega, this.2⟩
  | trans p q r _ _ ih1 ih2 => exact ⟨ih2.1, by omega, ih2.2.2⟩

/-! ### The line marker pattern and its language -/

theorem isspace_not_digit {c : Char} (h : isdigit c = true) : isspace c = false := by
  cases hs : isspace c with
  | false => rfl
  | true =>
    exfalso
    simp only [isspace, Bool.or_eq_true, beq_iff_eq] at hs
    rcases hs with ((((rfl | rfl) | rfl) | rfl) | rfl) | rfl <;> revert h <;> decide

theorem quote_not_space : isspace '"' = false := by decide

theorem takeWhile_append_of_all {p : Char → Bool} {w rest : List Char}
    (hw : ∀ c ∈ w, p c = true) (hrest : ∀ c ∈ rest.head?, p c = false) :
    (w ++ rest).takeWhile p = w ∧ (w ++ rest).dropWhile p = rest := by
  induction w with
  | nil =>
    cases rest with
    | nil => simp
    | cons c r =>
      have := hrest c (by simp)
      simp [List.takeWhile, List.dropWhile, this]
  | cons a w ih =>
    have ha := hw a (by simp)
    have := ih (fun c hc => hw c (List.mem_cons_of_mem _ hc))
    simp [List.takeWhile, List.dropWhile, ha, this]

theorem dropWhile_append_of_all {p : Char → Bool} {w rest : List Char}
    (hw : ∀ c ∈ w, p c = true) : (w ++ rest).dropWhile p = rest.dropWhile p := by
  induction w with
  | nil => rfl
  | cons a w ih =>
    have ha := hw a (by simp)
    simp [List.dropWhile, ha, ih (fun c hc => hw c (List.mem_cons_of_mem _ hc))]

theorem mem_takeWhile_true {p : Char → Bool} {l : List Char} {c : Char}
    (h : c ∈ l.takeWhile p) : p c = true := by
  induction l with
  | nil => simp at h
  | cons a l ih =>
    by_cases ha : p a = true
    · simp only [List.takeWhile, ha, List.mem_cons] at h
      rcases h with rfl | h
      · exact ha
      · exact ih h
    · simp [List.takeWhile, ha] at h

theorem opt_digit_spec (r : List Char) :
    r = (opt_digit r).1 ++ (opt_digit r).2 ∧ OptDigit (opt_digit r).1 := by
  cases r with
  | nil => exact ⟨rfl, Or.inl rfl⟩
  | cons c r1 =>
    by_cases hc : isdigit c = true
    · simp only [opt_digit, hc, if_true]
      exact ⟨rfl, Or.inr ⟨c, rfl, hc⟩⟩
    · simp only [opt_digit, hc]
      exact ⟨rfl, Or.inl rfl⟩

theorem flag_rest_spec (r : List Char) :
    ∃ w d, r = w ++ (d ++ flag_rest r) ∧ (∀ c ∈ w, isspace c = true) ∧ OptDigit d ∧
      d = (opt_digit (r.dropWhile isspace)).1 := by
  refine ⟨r.takeWhile isspace, (opt_digit (r.dropWhile isspace)).1, ?_,
    fun c hc => mem_takeWhile_true hc, (opt_digit_spec _).2, rfl⟩
  unfold flag_rest
  rw [← (opt_digit_spec _).1, List.takeWhile_append_dropWhile]

theorem FlagLang.lang_mono : ∀ {k : Nat} {r : List Char}, FlagLang k r → FlagLang (k + 1) r := by
  intro k r h
  exact ⟨[], [], r, rfl, by simp, Or.inl rfl, h⟩

theorem flag_rest_cons_digit {w r' : List Char} {c : Char} (hw : ∀ x ∈ w, isspace x = true)
    (hc : isdigit c = true) : flag_rest (w ++ ([c] ++ r')) = r' := by
  unfold flag_rest
  rw [dropWhile_append_of_all hw]
  simp [List.dropWhile, isspace_not_digit hc, opt_digit, hc]

theorem flag_rest_skip {w r' : List Char} (hw : ∀ x ∈ w, isspace x = true) :
    flag_rest (w ++ ([] ++ r')) = flag_rest r' := by
  unfold flag_rest
  rw [List.nil_append, dropWhile_append_of_all hw]

theorem FlagLang.rest_same : ∀ {k : Nat} {r : List Char}, FlagLang k r → FlagLang k (flag_rest r)
  | 0, r, h => by
    simp only [FlagLang] at h
    subst h
    exact (rfl : flag_rest [] = [])
  | k + 1, r, h => by
    obtain ⟨w, d, r', hr, hw, hd, hk⟩ := h
    subst hr
    rcases hd with rfl | ⟨c, rfl, hc⟩
    · rw [flag_rest_skip hw]
      exact (FlagLang.rest_same hk).lang_mono
    · rw [flag_rest_cons_digit hw hc]
      exact hk.lang_mono

theorem FlagLang.rest {k : Nat} {r : List Char} (h : FlagLang (k + 1) r) :
    FlagLang k (flag_rest r) := by
  obtain ⟨w, d, r', hr, hw, hd, hk⟩ := h
  subst hr
  rcases hd with rfl | ⟨c, rfl, hc⟩
  · rw [flag_rest_skip hw]
    exact hk.rest_same
  · rw [flag_rest_cons_digit hw hc]
    exact hk

theorem match_flags_isSome_iff (r : List Char) :
    (match_flags r).isSome = true ↔ FlagLang 3 r := by
  have hdef : match_flags r =
      if flag_rest (flag_rest (flag_rest r)) = [] then
        some ((opt_digit (r.dropWhile isspace)).1,
          (opt_digit ((flag_rest r).dropWhile isspace)).1,
          (opt_digit ((flag_rest (flag_rest r)).dropWhile isspace)).1)
      else none := rfl
  constructor
  · intro h
    rw [hdef] at h
    by_cases hnil : flag_rest (flag_rest (flag_rest r)) = []
    · obtain ⟨w3, d3, h3, hw3, hd3, -⟩ := flag_rest_spec r
      obtain ⟨w4, d4, h4, hw4, hd4, -⟩ := flag_rest_spec (flag_rest r)
      obtain ⟨w5, d5, h5, hw5, hd5, -⟩ := flag_rest_spec (flag_rest (flag_rest r))
      exact ⟨w3, d3, _, h3, hw3, hd3, w4, d4, _, h4, hw4, hd4, w5, d5, _, h5, hw5, hd5, hnil⟩
    · simp [hnil] at h
  · intro h
    have h0 : FlagLang 0 (flag_rest (flag_rest (flag_rest r))) := h.rest.rest.rest
    simp only [FlagLang] at h0
    rw [hdef, if_pos h0]
    rfl

theorem regex_match_of_shape {ws1 ds ws2 fn tail : List Char}
    (h1 : ws1 ≠ []) (hw1 : ∀ c ∈ ws1, isspace c = true)
    (h2 : ds ≠ []) (hd : ∀ c ∈ ds, isdigit c = true)
    (h3 : ws2 ≠ []) (hw2 : ∀ c ∈ ws2, isspace c = true)
    (hfn : ∀ c ∈ fn, c ≠ '"') :
    regex_match ('#' :: (ws1 ++ (ds ++ (ws2 ++ '"' :: (fn ++ '"' :: tail))))) =
      match match_flags tail with
      | some (g3, g4, g5) => some ⟨ds, fn, g3, g4, g5⟩
      | none => none := by
  have hds_head : ∀ c ∈ (ds ++ (ws2 ++ '"' :: (fn ++ '"' :: tail))).head?, isspace c = false := by
    intro c hc
    cases ds with
    | nil => exact absurd rfl h2
    | cons d ds' =>
      simp only [List.cons_append, List.head?_cons, Option.mem_def, Option.some.injEq] at hc
      subst hc
      exact isspace_not_digit (hd _ (by simp))
  have hws2_head : ∀ c ∈ (ws2 ++ '"' :: (fn ++ '"' :: tail)).head?, isdigit c = false := by
    intro c hc
    cases ws2 with
    | nil => exact absurd rfl h3
    | cons d ws' =>
      simp only [List.cons_append, List.head?_cons, Option.mem_def, Option.some.injEq] at hc
      subst hc
      have hsp : isspace d = true := hw2 _ (by simp)
      cases hdg : isdigit d with
      | false => rfl
      | true =>
        rw [isspace_not_digit hdg] at hsp
        cases hsp
  have hq_head : ∀ c ∈ ('"' :: (fn ++ '"' :: tail)).head?, isspace c = false := by
    intro c hc
    simp only [List.head?_cons, Option.mem_def, Option.some.injEq] at hc
    subst hc
    exact quote_not_space
  have hfn' : ∀ c ∈ fn, notquote c = true := by
    intro c hc
    simp [notquote, hfn c hc]
  have hq2_head : ∀ c ∈ ('"' :: tail).head?, notquote c = false := by
    intro c hc
    simp only [List.head?_cons, Option.mem_def, Option.some.injEq] at hc
    subst hc
    rfl
  obtain ⟨e1, e2⟩ := takeWhile_append_of_all hw1 hds_head
  obtain ⟨e3, e4⟩ := takeWhile_append_of_all hd hws2_head
  obtain ⟨e5, e6⟩ := takeWhile_append_of_all hw2 hq_head
  obtain ⟨e7, e8⟩ := takeWhile_append_of_all hfn' hq2_head
  simp only [regex_match, e1, e2, e3, e4, e5, e6, e7, e8, h1, h2, h3, if_false]

theorem regex_match_isSome_iff (line : List Char) :
    (regex_match line).isSome = true ↔ MarkerShape line := by
  constructor
  · intro h
    cases line with
    | nil => simp [regex_match] at h
    | cons c r0 =>
      by_cases hc : c = '#'
      · subst hc
        simp only [regex_match] at h
        by_cases h1 : r0.takeWhile isspace = []
        · simp [h1] at h
        · simp only [h1, if_false] at h
          by_cases h2 : (r0.dropWhile isspace).takeWhile isdigit = []
          · simp [h2] at h
          · simp only [h2, if_false] at h
            by_cases h3 : ((r0.dropWhile isspace).dropWhile isdigit).takeWhile isspace = []
            · simp [h3] at h
            · simp only [h3, if_false] at h
              cases hr3 : (((r0.dropWhile isspace).dropWhile isdigit).dropWhile isspace) with
              | nil => simp [hr3] at h
              | cons q r4 =>
                by_cases hq : q = '"'
                · subst hq
                  simp only [hr3] at h
                  cases hr5 : r4.dropWhile notquote with
                  | nil => simp [hr5] at h
                  | cons q2 r5 =>
                    by_cases hq2 : q2 = '"'
                    · subst hq2
                      simp only [hr5] at h
                      have hfl : (match_flags r5).isSome = true := by
                        cases hmf : match_flags r5 with
                        | none => simp [hmf] at h
                        | some v => rfl
                      obtain ⟨w3, d3, r', e3, hw3, hd3, w4, d4, r'', e4, hw4, hd4, w5, d5, r''',
                        e5, hw5, hd5, hnil⟩ := (match_flags_isSome_iff r5).mp hfl
                      simp only [FlagLang] at hnil
                      subst hnil e5 e4 e3
                      refine ⟨r0.takeWhile isspace, (r0.dropWhile isspace).takeWhile isdigit,
                        ((r0.dropWhile isspace).dropWhile isdigit).takeWhile isspace,
                        r4.takeWhile notquote, w3, d3, w4, d4, w5, d5, ?_, h1,
                        fun c hc => mem_takeWhile_true hc, h2, fun c hc => mem_takeWhile_true hc,
                        h3, fun c hc => mem_takeWhile_true hc, ?_, hw3, hd3, hw4, hd4, hw5, hd5⟩
                      · have a1 := List.takeWhile_append_dropWhile isspace r0
                        have a2 := List.takeWhile_append_dropWhile isdigit (r0.dropWhile isspace)
                        have a3 := List.takeWhile_append_dropWhile isspace
                          ((r0.dropWhile isspace).dropWhile isdigit)
                        have a4 := List.takeWhile_append_dropWhile notquote r4
                        rw [hr5] at a4
                        rw [hr3, ← a4] at a3
                        rw [← a3] at a2
                        rw [← a2] at a1
                        simpa using congrArg (fun l => '#' :: l) a1.symm
                      · intro c hc
                        have := mem_takeWhile_true hc
                        simpa [notquote] using this
                    · simp [hr5, hq2] at h
                · simp [hr3, hq] at h
      · simp [regex_match, hc] at h
  · rintro ⟨ws1, ds, ws2, fn, w3, d3, w4, d4, w5, d5, rfl, h1, hw1, h2, hd, h3, hw2, hfn, hw3, hd3,
      hw4, hd4, hw5, hd5⟩
    rw [regex_match_of_shape h1 hw1 h2 hd h3 hw2 hfn]
    have hfl : FlagLang 3 (w3 ++ (d3 ++ (w4 ++ (d4 ++ (w5 ++ d5))))) :=
      ⟨w3, d3, _, rfl, hw3, hd3, w4, d4, _, rfl, hw4, hd4, w5, d5, [], by simp, hw5, hd5, rfl⟩
    have := (match_flags_isSome_iff _).mpr hfl
    cases hmf : match_flags (w3 ++ (d3 ++ (w4 ++ (d4 ++ (w5 ++ d5))))) with
    | none => simp [hmf] at this
    | some v => rfl

/-! ### Copying a tree -/

theorem find_range_eq (n k : Nat) (hk : k < n) :
    (List.range n).find? (fun j => decide (j = k)) = some k := by
  induction n with
  | zero => omega
  | succ n ih =>
    rw [List.range_succ, List.find?_append]
    by_cases hlt : k < n
    · rw [ih hlt]
      rfl
    · have hkn : k = n := by omega
      subst hkn
      have hnone : (List.range k).find? (fun j => decide (j = k)) = none := by
        rw [List.find?_eq_none]
        intro x hx
        have := List.mem_range.mp hx
        simp
        omega
      rw [hnone]
      simp

theorem find_dst_valid {other : IncludeTree} {c : Ptr} (hst : c.store = other.store)
    (hidx : c.idx < other.files.length) : find_dst other c = c.idx := by
  unfold find_dst
  have hpred : (fun k => decide (Ptr.mk other.store k = c)) = (fun j => decide (j = c.idx)) := by
    funext k
    cases c
    simp only at hst
    subst hst
    simp
  rw [hpred, find_range_eq _ _ hidx]
  rfl

theorem relocate_includes_valid (store size : Nat) (other : IncludeTree) :
    ∀ (incs : List Ptr),
      (∀ c ∈ incs, c.store = other.store ∧ c.idx < other.files.length ∧ c.idx < size) →
      relocate_includes store size other incs = .ok (incs.map (Ptr.rebase store))
  | [], _ => rfl
  | c :: rest, h => by
    have hc := h c (by simp)
    have ih := relocate_includes_valid store size other rest
      (fun d hd => h d (List.mem_cons_of_mem _ hd))
    simp [relocate_includes, find_dst_valid hc.1 hc.2.1, hc.2.2, ih, bind, Except.bind, pure,
      Except.pure, Ptr.rebase]

theorem relocate_loop_valid (store size : Nat) (other : IncludeTree) :
    ∀ (files : List PreprocessedFile),
      (∀ f ∈ files, ∀ c ∈ f.includes,
        c.store = other.store ∧ c.idx < other.files.length ∧ c.idx < size) →
      relocate_loop store size other files =
        .ok (files.map (fun f => { f with includes := f.includes.map (Ptr.rebase store) }))
  | [], _ => rfl
  | f :: rest, h => by
    have hf := relocate_includes_valid store size other f.includes (h f (by simp))
    have ih := relocate_loop_valid store size other rest
      (fun g hg => h g (List.mem_cons_of_mem _ hg))
    simp [relocate_loop, hf, ih, bind, Except.bind, pure, Except.pure]

theorem copyOf_of_valid {store : Nat} {t : IncludeTree} (hpos : 0 < t.files.length)
    (hvalid : ∀ f ∈ t.files, ∀ c ∈ f.includes, c.store = t.store ∧ c.idx < t.files.length) :
    t.CopyOf store
      { store := store
        files := t.files.map (fun f => { f with includes := f.includes.map (Ptr.rebase store) })
        root := ⟨store, 0⟩ } := by
  refine ⟨rfl, rfl, ?_, by simp, ?_, ?_⟩
  · exact deref_ok rfl (by simpa using hpos)
  · intro i f hf
    refine ⟨{ f with includes := f.includes.map (Ptr.rebase store) }, by simp [hf],
      rfl, rfl, rfl, rfl, rfl, rfl, rfl, by simp, ?_⟩
    intro j c hc
    have hcm : c ∈ f.includes := List.getElem?_mem hc
    have hfm : f ∈ t.files := List.getElem?_mem hf
    obtain ⟨h1, h2⟩ := hvalid f hfm c hcm
    refine ⟨deref_ok h1 h2, by simp [hc, Ptr.rebase], ?_⟩
    exact deref_ok rfl (by simpa using h2)
  · intro hne f' hf' c hc
    simp only [List.mem_map] at hf'
    obtain ⟨f, -, rfl⟩ := hf'
    simp only [List.mem_map] at hc
    obtain ⟨d, -, rfl⟩ := hc
    exact hne

theorem copy_construct_valid {store : Nat} {t : IncludeTree} (hpos : 0 < t.files.length)
    (hvalid : ∀ f ∈ t.files, ∀ c ∈ f.includes, c.store = t.store ∧ c.idx < t.files.length) :
    IncludeTree.copy_construct store t = .ok
      { store := store
        files := t.files.map (fun f => { f with includes := f.includes.map (Ptr.rebase store) })
        root := ⟨store, 0⟩ } := by
  unfold IncludeTree.copy_construct IncludeTree.front_addr IncludeTree.relocate_files
  cases hf : t.files with
  | nil => simp [hf] at hpos
  | cons x xs =>
    simp only [bind, Except.bind]
    rw [← hf, relocate_loop_valid store t.files.length t t.files
      (fun f hf c hc => ⟨(hvalid f hf c hc).1, (hvalid f hf c hc).2, (hvalid f hf c hc).2⟩)]
    rfl

theorem copy_assign_valid {self t : IncludeTree} (hpos : 0 < t.files.length)
    (hvalid : ∀ f ∈ t.files, ∀ c ∈ f.includes, c.store = t.store ∧ c.idx < t.files.length) :
    IncludeTree.copy_assign self t = .ok
      { store := self.store
        files := t.files.map (fun f =>
          { f with includes := f.includes.map (Ptr.rebase self.store) })
        root := ⟨self.store, 0⟩ } := by
  unfold IncludeTree.copy_assign IncludeTree.front_addr IncludeTree.relocate_files
  cases hf : t.files with
  | nil => simp [hf] at hpos
  | cons x xs =>
    simp only [bind, Except.bind]
    rw [← hf, relocate_loop_valid self.store t.files.length t t.files
      (fun f hf c hc => ⟨(hvalid f hf c hc).1, (hvalid f hf c hc).2, (hvalid f hf c hc).2⟩)]
    rfl

theorem from_lines_valid {store : Nat} {lines : List String} {b : Bool} {t : IncludeTree}
    (h : IncludeTree.from_lines store lines b = .ok t) :
    0 < t.files.length ∧
      ∀ f ∈ t.files, ∀ c ∈ f.includes, c.store = t.store ∧ c.idx < t.files.length := by
  obtain ⟨s, htree, hs, hw, -⟩ := from_lines_view h
  subst htree
  refine ⟨hw.pos, ?_⟩
  intro f hf c hc
  obtain ⟨i, hi, hget⟩ := List.getElem_of_mem hf
  have hrec : s.tree.rec_at i = f := by
    rw [← hget]
    exact rec_at_eq_of_getElem? (List.getElem?_eq_getElem hi)
  have h1 : c.store = s.tree.store := hs.2.1 i c (by rw [hrec]; exact hc)
  have hmem : c.idx ∈ s.view.inc i := by
    simp only [LineMarkersParser_impl.view, hrec]
    exact List.mem_map_of_mem _ hc
  exact ⟨h1, (hw.inc_valid i hi c.idx hmem).2⟩

theorem reach_valid {store : Nat} {lines : List String} {b : Bool} {s : LineMarkersParser_impl}
    (h : parseLines (LineMarkersParser_impl.new store b) lines = .ok s) :
    0 < s.tree.files.length ∧
      ∀ f ∈ s.tree.files, ∀ c ∈ f.includes,
        c.store = s.tree.store ∧ c.idx < s.tree.files.length := by
  obtain ⟨hs, hw, -⟩ := reach_inv h
  refine ⟨hw.pos, ?_⟩
  intro f hf c hc
  obtain ⟨i, hi, hget⟩ := List.getElem_of_mem hf
  have hrec : s.tree.rec_at i = f := by
    rw [← hget]
    exact rec_at_eq_of_getElem? (List.getElem?_eq_getElem hi)
  have h1 : c.store = s.tree.store := hs.2.1 i c (by rw [hrec]; exact hc)
  have hmem : c.idx ∈ s.view.inc i := by
    simp only [LineMarkersParser_impl.view, hrec]
    exact List.mem_map_of_mem _ hc
  exact ⟨h1, (hw.inc_valid i hi c.idx hmem).2⟩

/-! ### Reachable states: the open files -/

theorem reach_top {store : Nat} {b : Bool} {pre : List String} {s : LineMarkersParser_impl}
    (h : parseLines (LineMarkersParser_impl.new store b) pre = .ok s) :
    ∃ init top, s.stack = init ++ [top] ∧ top.store = s.tree.store ∧
      top.idx < s.tree.files.length ∧ back s.stack = .ok top ∧
      s.tree.deref top = .ok (s.tree.rec_at top.idx) := by
  obtain ⟨hs, hw, -⟩ := reach_inv h
  obtain ⟨init, top, hst, htst, htidx, -⟩ := stack_top_of_wf hs hw
  exact ⟨init, top, hst, htst, htidx, by rw [hst, back_concat], deref_ok htst htidx⟩

theorem reach_two {store : Nat} {b : Bool} {pre : List String} {s : LineMarkersParser_impl}
    (h : parseLines (LineMarkersParser_impl.new store b) pre = .ok s)
    (hlen : 1 < s.stack.length) :
    ∃ init q top, s.stack = init ++ [q] ++ [top] ∧ top.store = s.tree.store ∧
      top.idx < s.tree.files.length ∧ q.store = s.tree.store ∧ q.idx < s.tree.files.length ∧
      q.idx < top.idx ∧
      s.tree.deref top = .ok (s.tree.rec_at top.idx) ∧
      s.tree.deref q = .ok (s.tree.rec_at q.idx) := by
  obtain ⟨hs, hw, -⟩ := reach_inv h
  obtain ⟨init, q, top, hst, htst, htidx, hqst, hqidx, -, hv⟩ := stack_two_of_wf hs hw hlen
  exact ⟨init, q, top, hst, htst, htidx, hqst, hqidx, hw.below_lt hv q.idx (by simp),
    deref_ok htst htidx, deref_ok hqst hqidx⟩

theorem size_pred_pos {n : Nat} (h : 1 ≤ n) : size_pred n = n - 1 := by
  unfold size_pred
  rw [if_neg (by omega)]

theorem set_chain {α : Type} (l : List α) (i : Nat) (hi : i < l.length) (x y z w : α) :
    (((l ++ [x]).set i y).set l.length z).set i w = l.set i w ++ [z] := by
  apply List.ext_getElem?
  intro j
  simp only [List.getElem?_set, List.getElem?_append, List.length_set, List.length_append,
    List.length_cons, List.length_nil]
  by_cases h1 : i = j
  · subst h1
    simp [hi, Nat.ne_of_gt hi]
    omega
  · by_cases h2 : l.length = j
    · subst h2
      simp [h1]
    · simp only [h1, h2, if_false]
      by_cases h3 : j < l.length
      · simp [h3]
      · obtain ⟨k, hk⟩ : ∃ k, j - l.length = k + 1 := ⟨j - l.length - 1, by omega⟩
        simp [h3, hk]

theorem pushed_closed (s : LineMarkersParser_impl) (top : Ptr) (filename : String)
    (htidx : top.idx < s.tree.files.length) :
    s.pushed top filename = { s with
      tree := { s.tree with
        files := s.tree.files.set top.idx
            { s.tree.rec_at top.idx with
              includes := (s.tree.rec_at top.idx).includes ++
                [⟨s.tree.store, s.tree.files.length⟩]
              lines := (s.tree.rec_at top.idx).lines ++ ["#include \"" ++ filename ++ "\""] } ++
          [{ PreprocessedFile.mk2 (s.tree.rec_at top.idx).last_effective_line filename with
             depth := (s.tree.rec_at top.idx).depth + 1 }] }
      stack := s.stack ++ [⟨s.tree.store, s.tree.files.length⟩] } := by
  simp only [LineMarkersParser_impl.pushed, IncludeTree.put, IncludeTree.emplace_back]
  rw [set_chain _ _ htidx]

theorem content_next {s : LineMarkersParser_impl} {init : List Ptr} {q : Ptr} {n : Nat}
    (hpre : s.in_preamble = false) (hstack : s.stack = init ++ [q])
    (hqst : q.store = s.tree.store) (hqidx : q.idx < s.tree.files.length)
    (hn : (s.tree.rec_at q.idx).last_effective_line + 1 = n) (hlt : n < SIZE_MOD)
    {line : String} (hm : regex_match line.data = none) :
    ∃ s' g, parseLine s line = .ok s' ∧ back s'.stack = .ok q ∧
      s'.tree.deref q = .ok g ∧ g.last_effective_line = n := by
  refine ⟨_, _, parseLine_content hpre hstack hqst hqidx hm, ?_,
    deref_ok (by simpa using hqst) (by simpa using hqidx), ?_⟩
  · rw [hstack]
    exact back_concat _ _
  · simp only [rec_at_put, hqidx, and_self, if_true, count_line]
    rw [hn]
    exact Nat.mod_eq_of_lt hlt

/-! ### Runs of line-number markers -/

theorem is_jump_marker_spec {filename line : String} (h : is_jump_marker filename line = true) :
    ∃ m n, regex_match line.data = some m ∧ stoul m.m1 = .ok n ∧
      contains (flags_of m) 1 = false ∧ contains (flags_of m) 2 = false ∧
      String.mk m.m2 = filename := by
  unfold is_jump_marker at h
  split at h
  · next m hm =>
    split at h
    · next n hn =>
      simp only [Bool.and_eq_true, Bool.not_eq_true', decide_eq_true_eq] at h
      exact ⟨m, n, hm, hn, h.1.1, h.1.2, h.2⟩
    · cases h
  · cases h

theorem jump_run {init : List Ptr} {top : Ptr} {filename : String} :
    ∀ (lines : List String) (s : LineMarkersParser_impl), s.in_preamble = false →
      s.stack = init ++ [top] → top.store = s.tree.store → top.idx < s.tree.files.length →
      (s.tree.rec_at top.idx).filename = filename →
      (∀ l ∈ lines, is_jump_marker filename l = true) →
      ∃ s', parseLines s lines = .ok s' ∧ s'.stack = s.stack ∧
        s'.in_preamble = false ∧ s'.tree.files.length = s.tree.files.length ∧
        ∀ i, (s'.tree.rec_at i).includes = (s.tree.rec_at i).includes ∧
          (s'.tree.rec_at i).lines_count = (s.tree.rec_at i).lines_count ∧
          (s'.tree.rec_at i).cumulated_lines_count = (s.tree.rec_at i).cumulated_lines_count := by
  intro lines
  induction lines with
  | nil =>
    intro s hpre _ _ _ _ _
    exact ⟨s, rfl, rfl, hpre, rfl, fun i => ⟨rfl, rfl, rfl⟩⟩
  | cons l rest ih =>
    intro s hpre hst htst htidx hfn hall
    obtain ⟨m, n, hm, hnum, h1, h2, hname⟩ := is_jump_marker_spec (hall l (by simp))
    have hstep := parseLine_jump hpre hst htst htidx hm hnum h1 h2 (hname.trans hfn.symm)
    obtain ⟨s', hrun, hstack, hpre', hlen, hrec⟩ := ih
      { s with tree := s.tree.put top.idx (jump_to s.store_lines n (s.tree.rec_at top.idx)) }
      hpre hst (by simpa using htst) (by simpa using htidx)
      (by simp [rec_at_put, htidx, jump_to, hfn])
      (fun l' hl' => hall l' (by simp [hl']))
    refine ⟨s', ?_, hstack, hpre', by simpa using hlen, ?_⟩
    · simp only [parseLines, hstep, bind, Except.bind]
      exact hrun
    · intro i
      have := hrec i
      simp only [rec_at_put] at this
      by_cases hi : i = top.idx
      · subst hi
        simpa [htidx, jump_to] using this
      · simpa [hi] using this

/-! ### Popping changes cumulative counts only -/

theorem sameButCum_refl (t : IncludeTree) : t.SameButCum t :=
  ⟨rfl, rfl, rfl, fun _ => rfl⟩

theorem sameButCum_trans {t1 t2 t3 : IncludeTree} (h12 : t1.SameButCum t2)
    (h23 : t2.SameButCum t3) : t1.SameButCum t3 := by
  obtain ⟨a1, a2, a3, a4⟩ := h12
  obtain ⟨b1, b2, b3, b4⟩ := h23
  refine ⟨b1.trans a1, b2.trans a2, b3.trans a3, fun i => ?_⟩
  rw [b4 i, a4 i]

theorem sameButCum_of_update {t t' : IncludeTree} {p : Ptr}
    {g : PreprocessedFile → PreprocessedFile}
    (hg : ∀ f, g f = { f with cumulated_lines_count := (g f).cumulated_lines_count })
    (h : t.update p g = .ok t') : t.SameButCum t' := by
  unfold IncludeTree.update at h
  cases hd : t.deref p with
  | error e => simp [hd, bind, Except.bind] at h
  | ok f =>
    simp only [hd, bind, Except.bind, pure, Except.pure, Except.ok.injEq] at h
    obtain ⟨-, hidx, hrec⟩ := deref_eq_ok hd
    subst h
    refine ⟨rfl, rfl, by simp, fun i => ?_⟩
    have := rec_at_put t p.idx i (g f)
    simp only [IncludeTree.put] at this
    rw [this]
    by_cases hi : i = p.idx
    · subst hi
      simp only [hidx, and_self, if_true]
      rw [hrec]
      exact hg f
    · simp [hi]

theorem pop_stack_keeps {s s' : LineMarkersParser_impl} (h : pop_stack s = .ok s') :
    s'.stack = s.stack.dropLast ∧ s'.in_preamble = s.in_preamble ∧
      s'.store_lines = s.store_lines ∧ s.tree.SameButCum s'.tree := by
  unfold pop_stack at h
  simp only [bind, Except.bind, pure, Except.pure] at h
  split at h
  · cases h
  · split at h
    · cases h
    · split at h
      · cases h
      · next t1 h3 =>
        split at h
        · cases h
        · split at h
          · cases h
          · next t2 h5 =>
            cases h
            exact ⟨rfl, rfl, rfl,
              sameButCum_trans (sameButCum_of_update (fun _ => rfl) h3)
                (sameButCum_of_update (fun _ => rfl) h5)⟩

theorem pop_times_keeps : ∀ (k : Nat) (s s' : LineMarkersParser_impl),
    pop_times k s = .ok s' →
    s'.in_preamble = s.in_preamble ∧ s'.store_lines = s.store_lines ∧
      s.tree.SameButCum s'.tree
  | 0, s, s', h => by
    simp only [pop_times, Except.ok.injEq] at h
    subst h
    exact ⟨rfl, rfl, sameButCum_refl _⟩
  | k + 1, s, s', h => by
    simp only [pop_times, bind, Except.bind] at h
    split at h
    · cases h
    · next s1 h1 =>
      obtain ⟨-, a2, a3, a4⟩ := pop_stack_keeps h1
      obtain ⟨b2, b3, b4⟩ := pop_times_keeps k s1 s' h
      exact ⟨b2.trans a2, b3.trans a3, sameButCum_trans a4 b4⟩

theorem pop_to_root_eq_pop_times : ∀ (fuel : Nat) (s : LineMarkersParser_impl),
    s.stack.length ≤ fuel + 1 → pop_to_root fuel s = pop_times (s.stack.length - 1) s
  | 0, s, hlen => by
    have h1 : ¬ s.stack.length > 1 := by omega
    have h0 : s.stack.length - 1 = 0 := by omega
    simp [pop_to_root, h1, h0, pop_times]
  | fuel + 1, s, hlen => by
    by_cases h1 : s.stack.length > 1
    · obtain ⟨k, hk⟩ : ∃ k, s.stack.length - 1 = k + 1 := ⟨s.stack.length - 2, by omega⟩
      rw [hk]
      simp only [pop_to_root, h1, if_true, pop_times]
      rcases pop_stack_cases s with hp | ⟨s1, hp, hst⟩
      · simp [hp, bind, Except.bind]
      · have hlen1 : s1.stack.length = k + 1 := by
          rw [hst, List.length_dropLast]
          omega
        have := pop_to_root_eq_pop_times fuel s1 (by omega)
        simp only [hp, bind, Except.bind]
        rw [this, hlen1]
        rfl
    · have h0 : s.stack.length - 1 = 0 := by omega
      simp [pop_to_root, h1, h0, pop_times]

theorem finalize_eq_pop_times (s : LineMarkersParser_impl) :
    finalize s = pop_times (s.stack.length - 1) s :=
  pop_to_root_eq_pop_times s.stack.length s (by omega)

theorem finalize_again {s' : LineMarkersParser_impl}
    (hlen : s'.stack.length = 1) : finalize s' = .ok s' := by
  simp [finalize, pop_to_root, hlen]

theorem stack_of_stackR {s : LineMarkersParser_impl} (hs : s.StoreOK)
    (hv : s.view.stackR = [0]) : s.stack = [s.tree.root] := by
  have hrev : s.stack.reverse.map Ptr.idx = [0] := hv
  have hlen : s.stack.length = 1 := by
    have := congrArg List.length hrev
    simpa using this
  match hst : s.stack, hlen with
  | [p], _ =>
    have hp : p.idx = 0 := by simpa [hst] using hrev
    have hps : p.store = s.tree.store := hs.1 p (by simp [hst])
    rw [hs.2.2]
    cases p
    simp only at hp hps
    subst hp hps
    rfl

theorem sameButCum_getElem? {t t' : IncludeTree} (h : t.SameButCum t') {i : Nat}
    {f : PreprocessedFile} (hf : t.files[i]? = some f) :
    ∃ f', t'.files[i]? = some f' ∧
      f' = { f with cumulated_lines_count := f'.cumulated_lines_count } := by
  have hi : i < t.files.length := by
    by_contra hn
    rw [List.getElem?_eq_none (by omega)] at hf
    cases hf
  refine ⟨t'.rec_at i, getElem?_eq_rec_at (by rw [h.2.2.1]; exact hi), ?_⟩
  have := h.2.2.2 i
  rw [rec_at_eq_of_getElem? hf] at this
  exact this

/-! ### Runs that never pop the root return -/

theorem stoul_error {ds : List Char} {e : Fault} (h : stoul ds = .error e) :
    e = .out_of_range := by
  unfold stoul at h
  split at h
  · cases h
  · cases h
    rfl

theorem parseLine_total {s : LineMarkersParser_impl} {line : String} (hs : s.StoreOK)
    (hw : s.view.WF) (hp : pops_root s line = false) :
    parseLine s line = .error .out_of_range ∨ ∃ s', parseLine s line = .ok s' := by
  obtain ⟨init, top, hst, htst, htidx, hv⟩ := stack_top_of_wf hs hw
  cases hpre : s.in_preamble with
  | true => exact Or.inr ⟨_, parseLine_preamble hpre hst htst htidx line⟩
  | false =>
    cases hm : regex_match line.data with
    | none => exact Or.inr ⟨_, parseLine_content hpre hst htst htidx hm⟩
    | some m =>
      cases hnum : stoul m.m1 with
      | error e =>
        left
        rw [stoul_error hnum] at hnum
        simp [parseLine, hpre, hm, hnum, bind, Except.bind]
      | ok linenum =>
        right
        cases h1 : contains (flags_of m) 1 with
        | true => exact ⟨_, parseLine_enter hpre hst htst htidx hm hnum h1⟩
        | false =>
          cases h2 : contains (flags_of m) 2 with
          | true =>
            have hlen : 1 < s.stack.length := by
              by_contra hn
              have hle : s.stack.length ≤ 1 := by omega
              simp [pops_root, hpre, hm, hnum, h1, h2, hle] at hp
            obtain ⟨init', q, top', hst', htst', htidx', hqst, hqidx, -, -⟩ :=
              stack_two_of_wf hs hw hlen
            exact ⟨_, parseLine_leave hpre hst' htst' htidx' hqst hqidx hm hnum h1 h2⟩
          | false =>
            by_cases hfn : String.mk m.m2 = (s.tree.rec_at top.idx).filename
            · exact ⟨_, parseLine_jump hpre hst htst htidx hm hnum h1 h2 hfn⟩
            · rw [parseLine_restart hpre hst htst htidx hm hnum h1 h2 hfn]
              obtain ⟨s1, hp1, hs1, hsteps1, -, -, -⟩ :=
                pop_to_root_sim s.stack.length hs hw (by omega)
              obtain ⟨s2, hp2, -⟩ := push_stack_sim hs1 (hw.steps hsteps1) (String.mk m.m2)
              simp only [hp1, hp2, bind, Except.bind, pure, Except.pure]
              exact ⟨_, rfl⟩

theorem parseLines_total : ∀ (lines : List String) {s : LineMarkersParser_impl},
    s.StoreOK → s.view.WF → pops_root_run s lines = false →
    parseLines s lines = .error .out_of_range ∨ ∃ s', parseLines s lines = .ok s'
  | [], s, _, _, _ => Or.inr ⟨s, rfl⟩
  | line :: rest, s, hs, hw, hp => by
    simp only [pops_root_run, Bool.or_eq_false_iff] at hp
    rcases parseLine_total hs hw hp.1 with he | ⟨s1, h1⟩
    · left
      simp [parseLines, he, bind, Except.bind]
    · have hp2 : pops_root_run s1 rest = false := by
        have := hp.2
        simpa [h1] using this
      obtain ⟨hs1, -, c, -, hsteps⟩ := parseLine_sim hs hw h1
      rcases parseLines_total rest hs1 (hw.steps hsteps) hp2 with he | ⟨s2, h2⟩
      · left
        simp [parseLines, h1, he, bind, Except.bind]
      · right
        exact ⟨s2, by simp [parseLines, h1, h2, bind, Except.bind]⟩

theorem from_lines_of_parseLines {store : Nat} {lines : List String} {b : Bool}
    {s : LineMarkersParser_impl}
    (h : parseLines (LineMarkersParser_impl.new store b) lines = .ok s) :
    ∃ t, IncludeTree.from_lines store lines b = .ok t := by
  obtain ⟨hs, hw, -⟩ := reach_inv h
  obtain ⟨s2, h2, -, hsteps, -, -⟩ := finalize_sim hs hw
  have hpos : 0 < s2.tree.files.length := (hw.steps hsteps).pos
  unfold IncludeTree.from_lines
  simp only [h, h2, bind, Except.bind]
  unfold IncludeTree.move IncludeTree.front_addr
  cases hf : s2.tree.files with
  | nil => simp [hf] at hpos
  | cons x xs =>
    simp only [bind, Except.bind, pure, Except.pure]
    exact ⟨_, rfl⟩

theorem from_lines_total {store : Nat} {lines : List String} {b : Bool}
    (hp : pops_root_run (LineMarkersParser_impl.new store b) lines = false) :
    IncludeTree.from_lines store lines b = .error .out_of_range ∨
      ∃ t, IncludeTree.from_lines store lines b = .ok t := by
  rcases parseLines_total lines (storeOK_new store b) (wf_new store b) hp with he | ⟨s, h⟩
  · left
    simp [IncludeTree.from_lines, he, bind, Except.bind]
  · exact Or.inr (from_lines_of_parseLines h)

theorem pops_root_run_of_ok : ∀ (lines : List String) {s s' : LineMarkersParser_impl},
    parseLines s lines = .ok s' → pops_root_run s lines = false
  | [], _, _, _ => rfl
  | line :: rest, s, s', h => by
    simp only [parseLines, bind, Except.bind] at h
    cases h1 : parseLine s line with
    | error e => simp [h1] at h
    | ok s1 =>
      simp only [h1] at h
      simp only [pops_root_run, h1, Bool.or_eq_false_iff]
      refine ⟨?_, pops_root_run_of_ok rest h⟩
      by_contra hn
      have hp : pops_root s line = true := by simpa using hn
      unfold pops_root at hp
      simp only [Bool.and_eq_true, Bool.not_eq_true'] at hp
      obtain ⟨hpre, hp2⟩ := hp
      split at hp2
      · next m hm =>
        split at hp2
        · next n hnum =>
          simp only [Bool.and_eq_true, Bool.not_eq_true', decide_eq_true_eq] at hp2
          rw [parseLine_leave_root hpre hp2.2 hm hnum hp2.1.1 hp2.1.2] at h1
          cases h1
        · cases hp2
      · cases hp2

theorem pops_root_run_flag2_first :
    pops_root_run (LineMarkersParser_impl.new 0 true) ["# 1 \"x\" 2"] = true ∧
    pops_root_run (LineMarkersParser_impl.new 0 true) ["x", "# 1 \"a.h\" 1", "# 2 \"-\" 2"] = false ∧
    pops_root_run (LineMarkersParser_impl.new 0 true)
      ["x", "# 1 \"a.h\" 1", "# 2 \"-\" 2", "# 3 \"-\" 2"] = true :=
  ⟨rfl, rfl, rfl⟩

/-! ### The root accounts for every line of the other records -/

theorem AState.Small.small_step {a b : AState} {c : Nat} (h : a.Small) (hstep : AStep c a b) :
    b.Small := by
  cases hstep with
  | bump _ top below hs => exact h
  | push _ top below fn lel hs =>
    intro i
    simp only [AState.push, Function.update_apply]
    split
    · exact Nat.two_pow_pos 64
    · exact h i
  | pop _ top q below hs =>
    intro i
    simp only [AState.pop, Function.update_apply]
    split
    · exact Nat.mod_lt _ (Nat.two_pow_pos 64)
    · split
      · exact Nat.mod_lt _ (Nat.two_pow_pos 64)
      · exact h i

theorem AState.Small.small_steps {a b : AState} {c : Nat} (h : a.Small)
    (hsteps : ASteps c a b) : b.Small := by
  induction hsteps with
  | refl a => exact h
  | step hstep _ ih => exact ih (h.small_step hstep)

theorem sum_at_update_mem {f : Nat → Nat} {x v : Nat} :
    ∀ {l : List Nat}, l.Nodup → x ∈ l →
      sum_at (Function.update f x v) l + f x = sum_at f l + v
  | [], _, hx => by cases hx
  | y :: ys, hnd, hx => by
    rw [List.nodup_cons] at hnd
    by_cases hy : y = x
    · subst hy
      have hrest : sum_at (Function.update f y v) ys = sum_at f ys := by
        refine sum_at_congr (fun c hc => ?_)
        have : c ≠ y := fun h => hnd.1 (h ▸ hc)
        simp [Function.update_apply, this]
      simp only [sum_at, List.map_cons, List.sum_cons, Function.update_same] at hrest ⊢
      omega
    · have hx' : x ∈ ys := by
        rcases List.mem_cons.mp hx with h | h
        · exact absurd h.symm hy
        · exact h
      have ih := @sum_at_update_mem f x v ys hnd.2 hx'
      simp only [sum_at, List.map_cons, List.sum_cons, Function.update_apply, hy,
        if_false] at ih ⊢
      omega

theorem sum_at_update_not_mem {f : Nat → Nat} {x v : Nat} {l : List Nat} (hx : x ∉ l) :
    sum_at (Function.update f x v) l = sum_at f l := by
  refine sum_at_congr (fun c hc => ?_)
  have : c ≠ x := fun h => hx (h ▸ hc)
  simp [Function.update_apply, this]

theorem AState.TotalOK.total_bump {m : Nat} {a : AState} (hw : a.WF) (h : a.TotalOK m)
    {top : Nat} {below : List Nat} (hs : a.stackR = top :: below) :
    (a.bump top).TotalOK m := by
  have hbl := hw.below_lt hs
  have htop : top < a.n := hw.top_lt hs
  unfold AState.TotalOK at h ⊢
  have hrest : (below.map (fun p => (a.bump top).cum p +
      (if p = 0 then 0 else (a.bump top).lc p))).sum =
      (below.map (fun p => a.cum p + (if p = 0 then 0 else a.lc p))).sum := by
    refine map_sum_congr (fun p hp => ?_)
    have := hbl p hp
    simp [AState.bump, Function.update_apply, Nat.ne_of_lt this]
  by_cases h0 : top = 0
  · have ho : (a.bump top).open_total = a.open_total := by
      unfold AState.open_total
      rw [show (a.bump top).stackR = top :: below from hs, hs]
      simp only [List.map_cons, List.sum_cons, hrest]
      simp [AState.bump, h0]
    have hT : sum_at (a.bump top).lc (List.range' 1 ((a.bump top).n - 1)) =
        sum_at a.lc (List.range' 1 (a.n - 1)) := by
      refine sum_at_update_not_mem ?_
      simp [h0, List.mem_range'_1]
    rw [ho, hT]
    exact h
  · have ho : (a.bump top).open_total + a.lc top =
        a.open_total + (a.lc top + 1) % SIZE_MOD := by
      unfold AState.open_total
      rw [show (a.bump top).stackR = top :: below from hs, hs]
      simp only [List.map_cons, List.sum_cons, hrest]
      simp only [AState.bump, Function.update_same, h0, if_false]
      ring
    have hT : sum_at (a.bump top).lc (List.range' 1 ((a.bump top).n - 1)) + a.lc top =
        sum_at a.lc (List.range' 1 (a.n - 1)) + (a.lc top + 1) % SIZE_MOD := by
      refine sum_at_update_mem (List.nodup_range' 1 (a.n - 1)) ?_
      rw [List.mem_range'_1]
      show 1 ≤ top ∧ top < 1 + (a.n - 1)
      omega
    have h1 : Nat.ModEq m ((a.bump top).open_total + a.lc top)
        (sum_at (a.bump top).lc (List.range' 1 ((a.bump top).n - 1)) + a.lc top) := by
      rw [ho, hT]
      exact h.add_right _
    exact Nat.ModEq.add_right_cancel' _ h1

theorem AState.TotalOK.total_push {m : Nat} {a : AState} (hw : a.WF) (h : a.TotalOK m)
    {top : Nat} (fn : String) (lel : Nat) : (a.push top fn lel).TotalOK m := by
  have hsv := hw.stack_valid
  have hpos : 0 < a.n := hw.pos
  unfold AState.TotalOK at h ⊢
  have ho : (a.push top fn lel).open_total = a.open_total := by
    unfold AState.open_total
    simp only [AState.push, List.map_cons, List.sum_cons, Function.update_same]
    have hrest : (a.stackR.map (fun p => Function.update a.cum a.n 0 p +
        (if p = 0 then 0 else Function.update a.lc a.n 0 p))).sum =
        (a.stackR.map (fun p => a.cum p + (if p = 0 then 0 else a.lc p))).sum := by
      refine map_sum_congr (fun p hp => ?_)
      have := hsv p hp
      simp [Function.update_apply, Nat.ne_of_lt this]
    rw [hrest]
    simp
  have hT : sum_at (a.push top fn lel).lc (List.range' 1 ((a.push top fn lel).n - 1)) =
      sum_at a.lc (List.range' 1 (a.n - 1)) := by
    have hn : (a.push top fn lel).n - 1 = (a.n - 1) + 1 := by
      simp only [AState.push]
      omega
    rw [hn, List.range'_concat, sum_at_append]
    have h1 : sum_at (a.push top fn lel).lc (List.range' 1 (a.n - 1)) =
        sum_at a.lc (List.range' 1 (a.n - 1)) := by
      refine sum_at_update_not_mem ?_
      rw [List.mem_range'_1]
      omega
    have h2 : sum_at (a.push top fn lel).lc [1 + 1 * (a.n - 1)] = 0 := by
      have : 1 + 1 * (a.n - 1) = a.n := by omega
      rw [this]
      simp [sum_at, AState.push]
    rw [h1, h2]
    rfl
  rw [ho, hT]
  exact h

theorem AState.TotalOK.total_pop {m : Nat} {a : AState} (hw : a.WF) (h : a.TotalOK m)
    {top q : Nat} {below : List Nat} (hs : a.stackR = top :: q :: below)
    (h1 : Nat.ModEq m ((a.cum top + a.lc top) % SIZE_MOD) (a.cum top + a.lc top))
    (h2 : Nat.ModEq m ((a.cum q + (a.cum top + a.lc top) % SIZE_MOD) % SIZE_MOD)
      (a.cum q + (a.cum top + a.lc top) % SIZE_MOD)) :
    (a.pop top q).TotalOK m := by
  have hbl := hw.below_lt hs
  have hqlt : q < top := hbl q (by simp)
  have hsorted := hw.stack_sorted
  rw [hs, List.pairwise_cons, List.pairwise_cons] at hsorted
  unfold AState.TotalOK at h ⊢
  have hT : sum_at (a.pop top q).lc (List.range' 1 ((a.pop top q).n - 1)) =
      sum_at a.lc (List.range' 1 (a.n - 1)) := rfl
  rw [hT]
  refine Nat.ModEq.trans ?_ h
  unfold AState.open_total
  rw [show (a.pop top q).stackR = q :: below by simp [AState.pop, hs], hs]
  simp only [List.map_cons, List.sum_cons]
  have hrest : (below.map (fun p => (a.pop top q).cum p +
      (if p = 0 then 0 else (a.pop top q).lc p))).sum =
      (below.map (fun p => a.cum p + (if p = 0 then 0 else a.lc p))).sum := by
    refine map_sum_congr (fun p hp => ?_)
    have hp1 : p < top := hbl p (by simp [hp])
    have hp2 : p < q := hsorted.2.1 p hp
    simp [AState.pop, Function.update_apply, Nat.ne_of_lt hp1, Nat.ne_of_lt hp2]
  rw [hrest]
  have htop0 : top ≠ 0 := by omega
  have hqt : q ≠ top := by omega
  simp only [AState.pop, Function.update_same, Function.update_apply, hqt, htop0, if_false]
  have h3 : Nat.ModEq m ((a.cum q + (a.cum top + a.lc top) % SIZE_MOD) % SIZE_MOD)
      (a.cum q + (a.cum top + a.lc top)) := h2.trans (h1.add_left _)
  have h4 := (h3.add_right (if q = 0 then 0 else a.lc q)).add_right
    ((below.map (fun p => a.cum p + (if p = 0 then 0 else a.lc p))).sum)
  refine Nat.ModEq.trans h4 ?_
  have : a.cum q + (a.cum top + a.lc top) + (if q = 0 then 0 else a.lc q) +
      (below.map (fun p => a.cum p + (if p = 0 then 0 else a.lc p))).sum =
      a.cum top + a.lc top + (a.cum q + (if q = 0 then 0 else a.lc q) +
      (below.map (fun p => a.cum p + (if p = 0 then 0 else a.lc p))).sum) := by ring
  rw [this]

theorem map_range'_getD {α β : Type} (l : List α) (d : α) (g : α → β) :
    (List.range' 1 (l.length - 1)).map (fun i => g (l.getD i d)) = (l.drop 1).map g := by
  apply List.ext_getElem?
  intro j
  simp only [List.getElem?_map, List.getElem?_drop]
  by_cases hj : j < l.length - 1
  · rw [List.getElem?_range' 1 1 hj]
    have h1 : 1 + j < l.length := by omega
    simp [List.getD_eq_getElem?_getD, List.getElem?_eq_getElem h1]
  · rw [List.getElem?_eq_none (by simpa using hj), List.getElem?_eq_none (by omega)]
    rfl

theorem AState.TotalOK.total_step_mod {a b : AState} {c : Nat} (hw : a.WF)
    (h : a.TotalOK SIZE_MOD) (hstep : AStep c a b) : b.TotalOK SIZE_MOD := by
  cases hstep with
  | bump _ top below hs => exact h.total_bump hw hs
  | push _ top below fn lel hs => exact h.total_push hw fn lel
  | pop _ top q below hs => exact h.total_pop hw hs (Nat.mod_modEq _ _) (Nat.mod_modEq _ _)

theorem AState.TotalOK.total_steps_mod {a b : AState} {c : Nat} (hw : a.WF)
    (h : a.TotalOK SIZE_MOD) (hsteps : ASteps c a b) : b.TotalOK SIZE_MOD := by
  induction hsteps with
  | refl a => exact h
  | step hstep _ ih => exact ih (hw.step hstep) (h.total_step_mod hw hstep)

theorem AState.TotalOK.total_step_exact {a b : AState} {c k : Nat} (hw : a.WF)
    (h : a.TotalOK 0) (hb : a.SumBound k) (hk : k < SIZE_MOD) (hstep : AStep c a b) :
    b.TotalOK 0 := by
  cases hstep with
  | bump _ top below hs => exact h.total_bump hw hs
  | push _ top below fn lel hs => exact h.total_push hw fn lel
  | pop _ top q below hs =>
    unfold AState.SumBound at hb
    rw [hs] at hb
    simp only [List.map_cons, List.sum_cons] at hb
    have e1 : (a.cum top + a.lc top) % SIZE_MOD = a.cum top + a.lc top :=
      Nat.mod_eq_of_lt (by omega)
    have e2 : (a.cum q + (a.cum top + a.lc top) % SIZE_MOD) % SIZE_MOD =
        a.cum q + (a.cum top + a.lc top) % SIZE_MOD := by
      rw [e1]
      exact Nat.mod_eq_of_lt (by omega)
    exact h.total_pop hw hs (Nat.modEq_zero_iff.mpr e1) (Nat.modEq_zero_iff.mpr e2)

theorem AState.TotalOK.total_steps_exact {a b : AState} {c : Nat} (hsteps : ASteps c a b) :
    ∀ {k : Nat}, a.WF → a.TotalOK 0 → a.SumBound k → k + c < SIZE_MOD → b.TotalOK 0 := by
  induction hsteps with
  | refl a =>
    intro k _ h _ _
    exact h
  | @step c1 d a1 b1 z1 hstep _ ih =>
    intro k hw h hb hk
    exact ih (hw.step hstep) (h.total_step_exact hw hb (by omega) hstep)
      (hb.bound_step hw hstep) (by omega)

theorem totalOK_new (store : Nat) (b : Bool) (m : Nat) :
    (LineMarkersParser_impl.new store b).view.TotalOK m := by
  unfold AState.TotalOK
  exact Nat.ModEq.refl _

theorem small_new (store : Nat) (b : Bool) : (LineMarkersParser_impl.new store b).view.Small := by
  intro i
  show ((LineMarkersParser_impl.new store b).tree.rec_at i).cumulated_lines_count < SIZE_MOD
  have : ((LineMarkersParser_impl.new store b).tree.rec_at i).cumulated_lines_count = 0 := by
    match i with
    | 0 => rfl
    | k + 1 => rfl
  rw [this]
  exact Nat.two_pow_pos 64

theorem from_lines_totals {store : Nat} {lines : List String} {b : Bool} {t : IncludeTree}
    (h : IncludeTree.from_lines store lines b = .ok t) :
    (∀ i, (t.rec_at i).cumulated_lines_count < SIZE_MOD) ∧
    (t.rec_at 0).cumulated_lines_count =
      ((t.files.drop 1).map (fun f => f.lines_count)).sum % SIZE_MOD ∧
    (lines.length < SIZE_MOD → (t.rec_at 0).cumulated_lines_count =
      ((t.files.drop 1).map (fun f => f.lines_count)).sum) := by
  obtain ⟨s1, s2, -, -, htree, -, -, hst, -, c, hc, hsteps⟩ := from_lines_ok h
  subst htree
  have hw0 := wf_new store b
  have hsmall : s2.view.Small := (small_new store b).small_steps hsteps
  have hsum : sum_at s2.view.lc (List.range' 1 (s2.view.n - 1)) =
      ((s2.tree.files.drop 1).map (fun f => f.lines_count)).sum := by
    unfold sum_at
    exact congrArg List.sum
      (map_range'_getD s2.tree.files (PreprocessedFile.mk2 0 "") (fun f => f.lines_count))
  have hopen : s2.view.open_total = (s2.tree.rec_at 0).cumulated_lines_count := by
    unfold AState.open_total
    rw [hst]
    simp [LineMarkersParser_impl.view]
  have hmod := (totalOK_new store b SIZE_MOD).total_steps_mod hw0 hsteps
  unfold AState.TotalOK at hmod
  rw [hopen, hsum] at hmod
  refine ⟨hsmall, ?_, ?_⟩
  · have hlt := hsmall 0
    have : (s2.tree.rec_at 0).cumulated_lines_count % SIZE_MOD =
        ((s2.tree.files.drop 1).map (fun f => f.lines_count)).sum % SIZE_MOD := hmod
    rw [← this]
    exact (Nat.mod_eq_of_lt hlt).symm
  · intro hlen
    have hex := AState.TotalOK.total_steps_exact hsteps hw0 (totalOK_new store b 0)
      (sumBound_new store b) (by omega)
    unfold AState.TotalOK at hex
    rw [hopen, hsum] at hex
    exact Nat.modEq_zero_iff.mp hex

/-! ### Two runs side by side: the primitives -/

theorem resRel_ok {α β : Type} {R : α → β → Prop} {a : α} {b : β} (h : R a b) :
    ResRel R (.ok a) (.ok b) := h

theorem resRel_bind {α β γ δ : Type} {R : α → β → Prop} {Q : γ → δ → Prop}
    {m1 : Res α} {m2 : Res β} {f1 : α → Res γ} {f2 : β → Res δ} (h : ResRel R m1 m2)
    (hf : ∀ a b, m1 = .ok a → m2 = .ok b → R a b → ResRel Q (f1 a) (f2 b)) :
    ResRel Q (m1 >>= f1) (m2 >>= f2) := by
  cases m1 with
  | error e1 =>
    cases m2 with
    | error e2 => exact h
    | ok b => exact h.elim
  | ok a =>
    cases m2 with
    | error e2 => exact h.elim
    | ok b => exact hf a b rfl rfl h

theorem forall₂_back {α β : Type} {R : α → β → Prop} {l1 : List α} {l2 : List β}
    (h : List.Forall₂ R l1 l2) : ResRel R (back l1) (back l2) := by
  induction h with
  | nil => exact rfl
  | @cons a b r1 r2 hab hrest ih =>
    cases hrest with
    | nil => exact hab
    | @cons a' b' r1' r2' hab' hrest' =>
      simpa [back, List.getLast?_cons_cons] using ih

theorem forall₂_dropLast {α β : Type} {R : α → β → Prop} {l1 : List α} {l2 : List β}
    (h : List.Forall₂ R l1 l2) : List.Forall₂ R l1.dropLast l2.dropLast := by
  induction h with
  | nil => exact List.Forall₂.nil
  | @cons a b r1 r2 hab hrest ih =>
    cases hrest with
    | nil => exact List.Forall₂.nil
    | @cons a' b' r1' r2' hab' hrest' =>
      simpa [List.dropLast_cons₂] using List.Forall₂.cons hab ih

theorem forall₂_concat {α β : Type} {R : α → β → Prop} {l1 : List α} {l2 : List β}
    (h : List.Forall₂ R l1 l2) {a : α} {b : β} (hab : R a b) :
    List.Forall₂ R (l1 ++ [a]) (l2 ++ [b]) := by
  induction h with
  | nil => exact List.Forall₂.cons hab List.Forall₂.nil
  | cons h1 _ ih => exact List.Forall₂.cons h1 ih

theorem forall₂_set {α β : Type} {R : α → β → Prop} {l1 : List α} {l2 : List β}
    (h : List.Forall₂ R l1 l2) {a : α} {b : β} (hab : R a b) (i : Nat) :
    List.Forall₂ R (l1.set i a) (l2.set i b) := by
  induction h generalizing i with
  | nil => exact List.Forall₂.nil
  | cons h1 hrest ih =>
    cases i with
    | zero => exact List.Forall₂.cons hab hrest
    | succ k => exact List.Forall₂.cons h1 (ih k)

theorem forall₂_getElem? {α β : Type} {R : α → β → Prop} {l1 : List α} {l2 : List β}
    (h : List.Forall₂ R l1 l2) (i : Nat) :
    (l1[i]? = none ∧ l2[i]? = none) ∨ ∃ a b, l1[i]? = some a ∧ l2[i]? = some b ∧ R a b := by
  induction h generalizing i with
  | nil => exact Or.inl ⟨rfl, rfl⟩
  | @cons a b r1 r2 hab hrest ih =>
    cases i with
    | zero => exact Or.inr ⟨a, b, by simp, by simp, hab⟩
    | succ k => simpa using ih k

theorem treeRel_deref {σ1 σ2 : Nat} {t1 t2 : IncludeTree} {p1 p2 : Ptr}
    (ht : TreeRel σ1 σ2 t1 t2) (hp : PtrRel σ1 σ2 p1 p2) :
    ResRel (FileRel σ1 σ2) (t1.deref p1) (t2.deref p2) := by
  obtain ⟨h1, h2, hfiles, -⟩ := ht
  unfold IncludeTree.deref
  by_cases hs : p1.store = t1.store
  · have hs2 : p2.store = t2.store := by
      rw [h2]
      exact hp.2.mp (hs.trans h1)
    rw [if_pos hs, if_pos hs2, ← hp.1]
    rcases forall₂_getElem? hfiles p1.idx with ⟨e1, e2⟩ | ⟨a, b, e1, e2, hab⟩
    · rw [e1, e2]
      exact rfl
    · rw [e1, e2]
      exact hab
  · have hs2 : ¬ p2.store = t2.store := by
      intro h
      exact hs ((hp.2.mpr (h.trans h2)).trans h1.symm)
    rw [if_neg hs, if_neg hs2]
    exact rfl

theorem treeRel_update {σ1 σ2 : Nat} {t1 t2 : IncludeTree} {p1 p2 : Ptr}
    {g1 g2 : PreprocessedFile → PreprocessedFile}
    (ht : TreeRel σ1 σ2 t1 t2) (hp : PtrRel σ1 σ2 p1 p2)
    (hg : ∀ f1 f2, FileRel σ1 σ2 f1 f2 → FileRel σ1 σ2 (g1 f1) (g2 f2)) :
    ResRel (TreeRel σ1 σ2) (t1.update p1 g1) (t2.update p2 g2) := by
  unfold IncludeTree.update
  refine resRel_bind (treeRel_deref ht hp) ?_
  intro f1 f2 _ _ hf
  obtain ⟨h1, h2, hfiles, hroot⟩ := ht
  refine resRel_ok ⟨h1, h2, ?_, hroot⟩
  rw [← hp.1]
  exact forall₂_set hfiles (hg f1 f2 hf) p1.idx

/-! ### Two runs side by side: the stack operations -/

theorem stateRel_pop_stack {σ1 σ2 : Nat} {s1 s2 : LineMarkersParser_impl}
    (hs : StateRel σ1 σ2 s1 s2) :
    ResRel (StateRel σ1 σ2) (pop_stack s1) (pop_stack s2) := by
  obtain ⟨ht, hstack, hpre⟩ := hs
  unfold pop_stack
  refine resRel_bind (forall₂_back hstack) ?_
  intro top1 top2 _ _ htop
  refine resRel_bind (treeRel_deref ht htop) ?_
  intro f1 f2 _ _ hf
  dsimp only
  have hc : (f1.cumulated_lines_count + f1.lines_count) % SIZE_MOD =
      (f2.cumulated_lines_count + f2.lines_count) % SIZE_MOD := by
    rw [hf.2.2.2.2.1, hf.2.2.2.1]
  refine resRel_bind (treeRel_update ht htop ?_) ?_
  · intro g1 g2 hg
    exact ⟨hg.1, hg.2.1, hg.2.2.1, hg.2.2.2.1, hc, hg.2.2.2.2.2.1, hg.2.2.2.2.2.2⟩
  intro tree1 tree1' _ _ ht1
  refine resRel_bind (forall₂_back (forall₂_dropLast hstack)) ?_
  intro q1 q2 _ _ hq
  refine resRel_bind (treeRel_update ht1 hq ?_) ?_
  · intro g1 g2 hg
    refine ⟨hg.1, hg.2.1, hg.2.2.1, hg.2.2.2.1, ?_, hg.2.2.2.2.2.1, hg.2.2.2.2.2.2⟩
    show (g1.cumulated_lines_count + _) % SIZE_MOD = (g2.cumulated_lines_count + _) % SIZE_MOD
    rw [hg.2.2.2.2.1, hc]
  intro tree2 tree2' _ _ ht2
  exact resRel_ok ⟨ht2, forall₂_dropLast hstack, hpre⟩

theorem stateRel_push_stack {σ1 σ2 : Nat} {s1 s2 : LineMarkersParser_impl}
    (hs : StateRel σ1 σ2 s1 s2) (filename : String) :
    ResRel (StateRel σ1 σ2) (push_stack s1 filename) (push_stack s2 filename) := by
  obtain ⟨ht, hstack, hpre⟩ := hs
  unfold push_stack
  refine resRel_bind (forall₂_back hstack) ?_
  intro top1 top2 _ _ htop
  refine resRel_bind (treeRel_deref ht htop) ?_
  intro f1 f2 _ _ hf
  dsimp only
  obtain ⟨h1, h2, hfiles, hroot⟩ := ht
  have hlen : s1.tree.files.length = s2.tree.files.length := hfiles.length_eq
  have hins : PtrRel σ1 σ2 ⟨s1.tree.store, (s1.tree.files ++
      [PreprocessedFile.mk2 f1.last_effective_line filename]).length - 1⟩
      ⟨s2.tree.store, (s2.tree.files ++
      [PreprocessedFile.mk2 f2.last_effective_line filename]).length - 1⟩ := by
    refine ⟨?_, ?_⟩
    · simp [hlen]
    · simp [h1, h2]
  have hnew : FileRel σ1 σ2 (PreprocessedFile.mk2 f1.last_effective_line filename)
      (PreprocessedFile.mk2 f2.last_effective_line filename) :=
    ⟨rfl, hf.2.2.2.2.2.1, rfl, rfl, rfl, rfl, List.Forall₂.nil⟩
  have ht1 : TreeRel σ1 σ2
      { s1.tree with files := s1.tree.files ++
        [PreprocessedFile.mk2 f1.last_effective_line filename] }
      { s2.tree with files := s2.tree.files ++
        [PreprocessedFile.mk2 f2.last_effective_line filename] } :=
    ⟨h1, h2, forall₂_concat hfiles hnew, hroot⟩
  refine resRel_bind (treeRel_update ht1 htop ?_) ?_
  · intro g1 g2 hg
    exact ⟨hg.1, hg.2.1, hg.2.2.1, hg.2.2.2.1, hg.2.2.2.2.1, hg.2.2.2.2.2.1,
      forall₂_concat hg.2.2.2.2.2.2 hins⟩
  intro tree2 tree2' _ _ ht2
  refine resRel_bind (treeRel_deref ht2 htop) ?_
  intro p2 p2' _ _ hp2
  refine resRel_bind (forall₂_back hp2.2.2.2.2.2.2) ?_
  intro child child' _ _ hchild
  refine resRel_bind (treeRel_update ht2 hchild ?_) ?_
  · intro g1 g2 hg
    refine ⟨hg.1, hg.2.1, ?_, hg.2.2.2.1, hg.2.2.2.2.1, hg.2.2.2.2.2.1, hg.2.2.2.2.2.2⟩
    show p2.depth + 1 = p2'.depth + 1
    rw [hp2.2.2.1]
  intro tree3 tree3' _ _ ht3
  refine resRel_bind (treeRel_update ht3 htop ?_) ?_
  · intro g1 g2 hg
    exact ⟨hg.1, hg.2.1, hg.2.2.1, hg.2.2.2.1, hg.2.2.2.2.1, hg.2.2.2.2.2.1, hg.2.2.2.2.2.2⟩
  intro tree4 tree4' _ _ ht4
  refine resRel_bind (treeRel_deref ht4 htop) ?_
  intro p4 p4' _ _ hp4
  refine resRel_bind (forall₂_back hp4.2.2.2.2.2.2) ?_
  intro child4 child4' _ _ hchild4
  exact resRel_ok ⟨ht4, forall₂_concat hstack hchild4, hpre⟩

theorem stateRel_pop_to_root {σ1 σ2 : Nat} : ∀ (fuel : Nat) {s1 s2 : LineMarkersParser_impl},
    StateRel σ1 σ2 s1 s2 →
    ResRel (StateRel σ1 σ2) (pop_to_root fuel s1) (pop_to_root fuel s2)
  | 0, s1, s2, hs => by
    have hlen : s1.stack.length = s2.stack.length := hs.2.1.length_eq
    unfold pop_to_root
    rw [← hlen]
    split
    · exact rfl
    · exact resRel_ok hs
  | fuel + 1, s1, s2, hs => by
    have hlen : s1.stack.length = s2.stack.length := hs.2.1.length_eq
    unfold pop_to_root
    rw [← hlen]
    split
    · refine resRel_bind (stateRel_pop_stack hs) ?_
      intro a b _ _ hab
      exact stateRel_pop_to_root fuel hab
    · exact resRel_ok hs

/-! ### Two runs side by side: retention touches `lines` only -/

theorem update_then_deref {t t' : IncludeTree} {p : Ptr}
    {g : PreprocessedFile → PreprocessedFile} (h : t.update p g = .ok t') :
    ∃ f, t'.deref p = .ok f := by
  unfold IncludeTree.update at h
  cases hd : t.deref p with
  | error e => simp [hd, bind, Except.bind] at h
  | ok f =>
    simp only [hd, bind, Except.bind, pure, Except.pure, Except.ok.injEq] at h
    obtain ⟨hst, hidx, -⟩ := deref_eq_ok hd
    subst h
    exact ⟨_, deref_ok hst (by simpa using hidx)⟩

theorem treeRel_lines_left {σ1 σ2 : Nat} {t1 t2 : IncludeTree} {p : Ptr}
    (ht : TreeRel σ1 σ2 t1 t2) (hd : ∃ f, t1.deref p = .ok f)
    {h : PreprocessedFile → PreprocessedFile}
    (hh : ∀ f1 f2, FileRel σ1 σ2 f1 f2 → FileRel σ1 σ2 (h f1) f2) :
    ∃ t, t1.update p h = .ok t ∧ TreeRel σ1 σ2 t t2 := by
  obtain ⟨f, hf⟩ := hd
  obtain ⟨h1, h2, hfiles, hroot⟩ := ht
  refine ⟨{ t1 with files := t1.files.set p.idx (h f) },
    by simp only [IncludeTree.update, hf, bind, Except.bind, pure, Except.pure],
    h1, h2, ?_, hroot⟩
  obtain ⟨-, hidx, hrec⟩ := deref_eq_ok hf
  rcases forall₂_getElem? hfiles p.idx with ⟨e1, -⟩ | ⟨a, b, e1, e2, hab⟩
  · rw [List.getElem?_eq_none_iff] at e1
    omega
  · have ha : a = f := by
      rw [← hrec]
      exact (rec_at_eq_of_getElem? e1).symm
    subst ha
    have hset : t2.files = t2.files.set p.idx b := by
      apply List.ext_getElem?
      intro j
      rw [List.getElem?_set]
      split
      · next hj =>
        subst hj
        have hlt : p.idx < t2.files.length := (List.getElem?_eq_some.mp e2).1
        simp [hlt, e2]
      · rfl
    have hall := forall₂_set hfiles (hh a b hab) p.idx
    rwa [← hset] at hall

theorem treeRel_lines_right {σ1 σ2 : Nat} {t1 t2 : IncludeTree} {p : Ptr}
    (ht : TreeRel σ1 σ2 t1 t2) (hd : ∃ f, t2.deref p = .ok f)
    {h : PreprocessedFile → PreprocessedFile}
    (hh : ∀ f1 f2, FileRel σ1 σ2 f1 f2 → FileRel σ1 σ2 f1 (h f2)) :
    ∃ t, t2.update p h = .ok t ∧ TreeRel σ1 σ2 t1 t := by
  obtain ⟨f, hf⟩ := hd
  obtain ⟨h1, h2, hfiles, hroot⟩ := ht
  refine ⟨{ t2 with files := t2.files.set p.idx (h f) },
    by simp only [IncludeTree.update, hf, bind, Except.bind, pure, Except.pure],
    h1, h2, ?_, hroot⟩
  obtain ⟨-, hidx, hrec⟩ := deref_eq_ok hf
  rcases forall₂_getElem? hfiles p.idx with ⟨-, e2⟩ | ⟨a, b, e1, e2, hab⟩
  · rw [List.getElem?_eq_none_iff] at e2
    omega
  · have hb : b = f := by
      rw [← hrec]
      exact (rec_at_eq_of_getElem? e2).symm
    subst hb
    have hset : t1.files = t1.files.set p.idx a := by
      apply List.ext_getElem?
      intro j
      rw [List.getElem?_set]
      split
      · next hj =>
        subst hj
        have hlt : p.idx < t1.files.length := (List.getElem?_eq_some.mp e1).1
        simp [hlt, e1]
      · rfl
    have hall := forall₂_set hfiles (hh a b hab) p.idx
    rwa [← hset] at hall

theorem fileRel_lines {σ1 σ2 : Nat} (x1 x2 : List String) (f1 f2 : PreprocessedFile)
    (h : FileRel σ1 σ2 f1 f2) :
    FileRel σ1 σ2 { f1 with lines := x1 } { f2 with lines := x2 } := h

theorem stateRel_store_tail {σ1 σ2 : Nat} {a1 a2 : IncludeTree} {top1 top2 : Ptr}
    (x1 x2 : String) {k1 k2 : List Ptr} (p : Bool) (c1 c2 d1 d2 : Bool)
    (hk : List.Forall₂ (PtrRel σ1 σ2) k1 k2) (ha : TreeRel σ1 σ2 a1 a2)
    (htop : PtrRel σ1 σ2 top1 top2)
    (hd1 : ∃ f, a1.deref top1 = .ok f) (hd2 : ∃ f, a2.deref top2 = .ok f) :
    ResRel (StateRel σ1 σ2)
      (if c1 = true then do
        let t ← a1.update top1 (fun f => { f with lines := f.lines ++ [x1] })
        pure (LineMarkersParser_impl.mk t k1 p d1)
       else pure (LineMarkersParser_impl.mk a1 k1 p d1))
      (if c2 = true then do
        let t ← a2.update top2 (fun f => { f with lines := f.lines ++ [x2] })
        pure (LineMarkersParser_impl.mk t k2 p d2)
       else pure (LineMarkersParser_impl.mk a2 k2 p d2)) := by
  cases c1 <;> cases c2
  · exact resRel_ok ⟨ha, hk, rfl⟩
  · obtain ⟨t, ht, hrel⟩ := @treeRel_lines_right σ1 σ2 a1 a2 top2 ha hd2
      (fun f => { f with lines := f.lines ++ [x2] }) (fun f1 f2 h => h)
    simp only [ht, bind, Except.bind, pure, Except.pure, if_true, Bool.false_eq_true, if_false]
    exact resRel_ok ⟨hrel, hk, rfl⟩
  · obtain ⟨t, ht, hrel⟩ := @treeRel_lines_left σ1 σ2 a1 a2 top1 ha hd1
      (fun f => { f with lines := f.lines ++ [x1] }) (fun f1 f2 h => h)
    simp only [ht, bind, Except.bind, pure, Except.pure, if_true, Bool.false_eq_true, if_false]
    exact resRel_ok ⟨hrel, hk, rfl⟩
  · simp only [if_true]
    refine resRel_bind (treeRel_update ha htop (fun f1 f2 h => h)) ?_
    intro t t' _ _ ht
    exact resRel_ok ⟨ht, hk, rfl⟩

theorem resRel_eq_refl {α : Type} (r : Res α) : ResRel Eq r r := by
  cases r with
  | error e => exact rfl
  | ok a => exact rfl

theorem stateRel_parseLine {σ1 σ2 : Nat} {s1 s2 : LineMarkersParser_impl}
    (hs : StateRel σ1 σ2 s1 s2) (line : String) :
    ResRel (StateRel σ1 σ2) (parseLine s1 line) (parseLine s2 line) := by
  obtain ⟨ht, hstack, hpre⟩ := hs
  unfold parseLine
  rw [← hpre]
  cases hp : s1.in_preamble with
  | true =>
    simp only [if_true]
    refine resRel_bind (forall₂_back hstack) ?_
    intro top1 top2 _ _ htop
    refine resRel_bind (treeRel_deref ht htop) ?_
    intro f1 f2 _ _ hf
    refine resRel_ok ⟨ht, hstack, ?_⟩
    show decide _ = decide _
    rw [hf.1]
  | false =>
    simp only [Bool.false_eq_true, if_false]
    cases hm : regex_match line.data with
    | none =>
      dsimp only
      refine resRel_bind (forall₂_back hstack) ?_
      intro top1 top2 _ _ htop
      refine resRel_bind (treeRel_update ht htop ?_) ?_
      · intro g1 g2 hg
        refine ⟨hg.1, hg.2.1, hg.2.2.1, hg.2.2.2.1, hg.2.2.2.2.1, ?_, hg.2.2.2.2.2.2⟩
        show (g1.last_effective_line + 1) % SIZE_MOD = (g2.last_effective_line + 1) % SIZE_MOD
        rw [hg.2.2.2.2.2.1]
      intro tree1 tree1' _ _ ht1
      refine resRel_bind (treeRel_update ht1 htop ?_) ?_
      · intro g1 g2 hg
        refine ⟨hg.1, hg.2.1, hg.2.2.1, ?_, hg.2.2.2.2.1, hg.2.2.2.2.2.1, hg.2.2.2.2.2.2⟩
        show (g1.lines_count + 1) % SIZE_MOD = (g2.lines_count + 1) % SIZE_MOD
        rw [hg.2.2.2.1]
      intro tree2 tree2' e1 e2 ht2
      exact stateRel_store_tail line line false _ _ _ _ hstack ht2 htop
        (update_then_deref e1) (update_then_deref e2)
    | some m =>
      dsimp only
      refine resRel_bind (resRel_eq_refl (stoul m.m1)) ?_
      intro linenum linenum' _ _ hn
      subst hn
      by_cases h1 : contains (flags_of m) 1 = true
      · simp only [h1, if_true]
        refine resRel_bind (forall₂_back hstack) ?_
        intro top1 top2 _ _ htop
        refine resRel_bind (treeRel_update ht htop ?_) ?_
        · intro g1 g2 hg
          refine ⟨hg.1, hg.2.1, hg.2.2.1, hg.2.2.2.1, hg.2.2.2.2.1, ?_, hg.2.2.2.2.2.2⟩
          show (g1.last_effective_line + 1) % SIZE_MOD =
            (g2.last_effective_line + 1) % SIZE_MOD
          rw [hg.2.2.2.2.2.1]
        intro tree1 tree1' _ _ ht1
        refine resRel_bind (treeRel_update ht1 htop ?_) ?_
        · intro g1 g2 hg
          refine ⟨hg.1, hg.2.1, hg.2.2.1, ?_, hg.2.2.2.2.1, hg.2.2.2.2.2.1, hg.2.2.2.2.2.2⟩
          show (g1.lines_count + 1) % SIZE_MOD = (g2.lines_count + 1) % SIZE_MOD
          rw [hg.2.2.2.1]
        intro tree2 tree2' _ _ ht2
        refine stateRel_push_stack ?_ _
        exact ⟨ht2, hstack, rfl⟩
      · simp only [h1, Bool.false_eq_true, if_false]
        by_cases h2 : contains (flags_of m) 2 = true
        · simp only [h2, if_true]
          refine resRel_bind (stateRel_pop_stack ⟨ht, hstack, hpre⟩) ?_
          intro a b _ _ hab
          refine resRel_bind (forall₂_back hab.2.1) ?_
          intro top1 top2 _ _ htop
          refine resRel_bind (treeRel_update hab.1 htop ?_) ?_
          · intro g1 g2 hg
            exact ⟨hg.1, hg.2.1, hg.2.2.1, hg.2.2.2.1, hg.2.2.2.2.1, rfl, hg.2.2.2.2.2.2⟩
          intro tree1 tree1' _ _ ht1
          exact resRel_ok ⟨ht1, hab.2.1, hab.2.2⟩
        · simp only [h2, Bool.false_eq_true, if_false]
          refine resRel_bind (forall₂_back hstack) ?_
          intro top1 top2 _ _ htop
          refine resRel_bind (treeRel_deref ht htop) ?_
          intro f1 f2 _ _ hf
          rw [← hf.1]
          by_cases hfn : String.mk m.m2 = f1.filename
          · simp only [hfn, if_true]
            refine resRel_bind (treeRel_update ht htop ?_) ?_
            · intro g1 g2 hg
              exact ⟨hg.1, hg.2.1, hg.2.2.1, hg.2.2.2.1, hg.2.2.2.2.1, rfl, hg.2.2.2.2.2.2⟩
            intro tree1 tree1' e1 e2 ht1
            exact stateRel_store_tail _ _ false _ _ _ _ hstack ht1 htop
              (update_then_deref e1) (update_then_deref e2)
          · simp only [hfn, if_false]
            have hlen : s1.stack.length = s2.stack.length := hstack.length_eq
            rw [← hlen]
            refine resRel_bind (stateRel_pop_to_root _ ⟨ht, hstack, hpre⟩) ?_
            intro a b _ _ hab
            refine resRel_bind (stateRel_push_stack hab _) ?_
            intro a2 b2 _ _ hab2
            exact resRel_ok ⟨hab2.1, hab2.2.1, rfl⟩

theorem stateRel_parseLines {σ1 σ2 : Nat} : ∀ (lines : List String)
    {s1 s2 : LineMarkersParser_impl}, StateRel σ1 σ2 s1 s2 →
    ResRel (StateRel σ1 σ2) (parseLines s1 lines) (parseLines s2 lines)
  | [], _, _, hs => resRel_ok hs
  | line :: rest, s1, s2, hs => by
    unfold parseLines
    refine resRel_bind (stateRel_parseLine hs line) ?_
    intro a b _ _ hab
    exact stateRel_parseLines rest hab

theorem stateRel_new (σ1 σ2 : Nat) (b1 b2 : Bool) :
    StateRel σ1 σ2 (LineMarkersParser_impl.new σ1 b1) (LineMarkersParser_impl.new σ2 b2) := by
  have hroot : PtrRel σ1 σ2 ⟨σ1, 0⟩ ⟨σ2, 0⟩ := ⟨rfl, by simp⟩
  refine ⟨⟨rfl, rfl, ?_, hroot⟩, List.Forall₂.cons hroot List.Forall₂.nil, rfl⟩
  exact List.Forall₂.cons ⟨rfl, rfl, rfl, rfl, rfl, rfl, List.Forall₂.nil⟩ List.Forall₂.nil

theorem stateRel_finalize {σ1 σ2 : Nat} {s1 s2 : LineMarkersParser_impl}
    (hs : StateRel σ1 σ2 s1 s2) : ResRel (StateRel σ1 σ2) (finalize s1) (finalize s2) := by
  have hlen : s1.stack.length = s2.stack.length := hs.2.1.length_eq
  unfold finalize
  rw [← hlen]
  exact stateRel_pop_to_root _ hs

theorem treeRel_from_lines (σ1 σ2 : Nat) (lines : List String) (b1 b2 : Bool) :
    ResRel (TreeRel σ1 σ2) (IncludeTree.from_lines σ1 lines b1)
      (IncludeTree.from_lines σ2 lines b2) := by
  unfold IncludeTree.from_lines
  refine resRel_bind (stateRel_parseLines lines (stateRel_new σ1 σ2 b1 b2)) ?_
  intro a b _ _ hab
  refine resRel_bind (stateRel_finalize hab) ?_
  intro a2 b2' _ _ hab2
  obtain ⟨⟨h1, h2, hfiles, hroot⟩, -, -⟩ := hab2
  unfold IncludeTree.move IncludeTree.front_addr
  generalize a2.tree.files = l1 at hfiles ⊢
  generalize b2'.tree.files = l2 at hfiles ⊢
  cases hfiles with
  | nil => exact rfl
  | cons hab3 hrest =>
    refine resRel_ok ⟨h1, h2, List.Forall₂.cons hab3 hrest, rfl, ?_⟩
    simp [h1, h2]

theorem forall₂_ptrRel_idx {σ1 σ2 : Nat} {l1 l2 : List Ptr}
    (h : List.Forall₂ (PtrRel σ1 σ2) l1 l2) : l1.map Ptr.idx = l2.map Ptr.idx := by
  induction h with
  | nil => rfl
  | cons hab _ ih => simp [hab.1, ih]

theorem rebase_of_idx {store : Nat} {l1 l2 : List Ptr} (h : l1.map Ptr.idx = l2.map Ptr.idx)
    (hst : ∀ c ∈ l2, c.store = store) : l2 = l1.map (Ptr.rebase store) := by
  have h2 : l2 = (l2.map Ptr.idx).map (Ptr.mk store) := by
    rw [List.map_map]
    conv_lhs => rw [← List.map_id l2]
    refine List.map_congr_left (fun c hc => ?_)
    have := hst c hc
    cases c
    simp only at this
    subst this
    rfl
  rw [h2, ← h, List.map_map]
  rfl

theorem retention_changes_lines :
    ∃ t1 t2, IncludeTree.from_lines 0 ["x"] false = .ok t1 ∧
      IncludeTree.from_lines 0 ["x"] true = .ok t2 ∧
      t1.files.map (fun f => f.lines) = [[]] ∧ t2.files.map (fun f => f.lines) = [["x"]] :=
  ⟨_, _, rfl, rfl, rfl, rfl⟩

/-! ### The in-place methods return what the state-passing methods return -/

theorem result_bind_eval {α : Type} (r : LineMarkersParser_impl → Res α) (f : α → Eff Unit)
    (s : LineMarkersParser_impl) :
    (Eff.eval r >>= f).result s = (r s >>= fun a => (f a).result s) := by
  show Eff.result (Eff.bind (Eff.eval r) f) s = _
  unfold Eff.result Eff.bind Eff.eval
  cases r s <;> rfl

theorem result_bind {β : Type} (m : Eff β) (f : β → Eff Unit) (s : LineMarkersParser_impl) :
    (m >>= f).result s =
      match m s with
      | (.ok a, s1) => (f a).result s1
      | (.error e, _) => .error e := by
  show Eff.result (Eff.bind m f) s = _
  unfold Eff.result Eff.bind
  rcases m s with ⟨r, s1⟩
  cases r <;> rfl

theorem result_bind_unit (m : Eff Unit) (f : Unit → Eff Unit) (s : LineMarkersParser_impl) :
    (m >>= f).result s = (m.result s >>= fun s1 => (f ()).result s1) := by
  rw [result_bind]
  unfold Eff.result
  rcases m s with ⟨r, s1⟩
  cases r <;> rfl

theorem result_assign (p : Ptr) (g : PreprocessedFile → PreprocessedFile)
    (s : LineMarkersParser_impl) :
    (Eff.assign p g).result s = (s.tree.update p g >>= fun t => pure { s with tree := t }) := by
  unfold Eff.result Eff.assign
  cases s.tree.update p g <;> rfl

theorem result_exec (g : LineMarkersParser_impl → LineMarkersParser_impl)
    (s : LineMarkersParser_impl) : (Eff.exec g).result s = .ok (g s) := rfl

theorem result_pure (s : LineMarkersParser_impl) :
    (pure () : Eff Unit).result s = .ok s := rfl

theorem inplace_pop_stack (s : LineMarkersParser_impl) :
    InPlace.pop_stack.result s = pop_stack s := by
  unfold InPlace.pop_stack pop_stack
  simp only [result_bind_eval, result_bind_unit, result_assign, result_exec, bind_assoc,
    pure_bind]
  rfl

theorem inplace_push_stack (filename : String) (s : LineMarkersParser_impl) :
    (InPlace.push_stack filename).result s = push_stack s filename := by
  unfold InPlace.push_stack push_stack
  simp only [result_bind_eval, result_bind_unit, result_assign, result_exec, bind_assoc,
    pure_bind]
  rfl

theorem ok_bind {α β : Type} (a : α) (f : α → Res β) : (Except.ok a >>= f) = f a := rfl

theorem inplace_pop_to_root : ∀ (fuel : Nat) (s : LineMarkersParser_impl),
    (InPlace.pop_to_root fuel).result s = pop_to_root fuel s
  | 0, s => by
    unfold InPlace.pop_to_root pop_to_root
    simp only [result_bind_eval, ok_bind]
    by_cases h : s.stack.length > 1
    · simp only [h, if_true]
      rfl
    · simp only [h, if_false]
      rfl
  | fuel + 1, s => by
    unfold InPlace.pop_to_root pop_to_root
    simp only [result_bind_eval, ok_bind]
    by_cases h : s.stack.length > 1
    · simp only [h, if_true]
      rw [result_bind_unit, inplace_pop_stack]
      refine bind_congr (fun s1 => ?_)
      exact inplace_pop_to_root fuel s1
    · simp only [h, if_false]
      rfl

theorem inplace_parseLine (line : String) (s : LineMarkersParser_impl) :
    (InPlace.parseLine line).result s = parseLine s line := by
  obtain ⟨tree, stack, pre, sl⟩ := s
  unfold InPlace.parseLine parseLine
  simp only [result_bind_eval, ok_bind]
  cases pre with
  | true =>
    simp only [if_true, result_bind_eval, result_exec]
    rfl
  | false =>
    simp only [Bool.false_eq_true, if_false]
    cases hm : regex_match line.data with
    | none =>
      simp only [result_bind_eval, result_bind_unit, result_assign, bind_assoc, pure_bind]
      refine bind_congr (fun top => ?_)
      refine bind_congr (fun t1 => ?_)
      refine bind_congr (fun t2 => ?_)
      cases sl with
      | true =>
        simp only [if_true, result_assign]
      | false =>
        simp only [Bool.false_eq_true, if_false]
        rfl
    | some m =>
      simp only [result_bind_eval]
      refine bind_congr (fun linenum => ?_)
      cases h1 : contains (flags_of m) 1 with
      | true =>
        simp only [if_true, result_bind_eval, result_bind_unit, result_assign, bind_assoc,
          pure_bind, inplace_push_stack]
      | false =>
        simp only [Bool.false_eq_true, if_false]
        cases h2 : contains (flags_of m) 2 with
        | true =>
          simp only [if_true, result_bind_eval, result_bind_unit, result_assign,
            bind_assoc, pure_bind, inplace_pop_stack]
        | false =>
          simp only [Bool.false_eq_true, if_false, result_bind_eval]
          refine bind_congr (fun top => ?_)
          refine bind_congr (fun f => ?_)
          by_cases hfn : String.mk m.m2 = f.filename
          · simp only [hfn, if_true, result_bind_unit, result_assign, bind_assoc, pure_bind]
            refine bind_congr (fun t => ?_)
            cases sl with
            | true =>
              simp only [if_true, result_assign]
            | false =>
              simp only [Bool.false_eq_true, if_false]
              rfl
          · simp only [hfn, if_false, result_bind_unit, result_exec, inplace_pop_to_root,
              inplace_push_stack, bind_assoc]
            rfl

theorem inplace_fault_keeps_writes :
    InPlace.parseLine "# 1 \"x\" 2" (LineMarkersParser_impl.new 0 true) =
      (.error .undefined_behaviour, { LineMarkersParser_impl.new 0 true with stack := [] }) :=
  rfl

/-! ### Cumulative counts of the finished tree -/

/-- C1 (evaluation at the failing input): after `from_lines` on the single
content line `x` the root has counted one line of its own, has no children, and
its cumulative count is still 0, so the root does not hold its own count plus
the cumulative counts of its children.  A file that is not the root and reads
the same line does: on `# 1 "a.c"`, `# 1 "a.c"`, `x` the record of "a.c" has
counted one line and its cumulative count is 1, because `pop_stack` folds the
count of every file it closes and nothing closes the root. -/
theorem root_own_lines_not_folded :
    (∃ t r, IncludeTree.from_lines 0 ["x"] true = .ok t ∧ t.files[0]? = some r ∧
      r.lines_count = 1 ∧ t.children_total r = 0 ∧ r.cumulated_lines_count = 0 ∧
      r.cumulated_lines_count ≠ r.lines_count + t.children_total r) ∧
    (∃ t f, IncludeTree.from_lines 0 ["# 1 \"a.c\"", "# 1 \"a.c\"", "x"] true = .ok t ∧
      t.files[1]? = some f ∧ f.filename = "a.c" ∧ f.lines_count = 1 ∧
      t.children_total f = 0 ∧ f.cumulated_lines_count = 1 ∧
      f.cumulated_lines_count = f.lines_count + t.children_total f) :=
  ⟨⟨_, _, rfl, rfl, rfl, rfl, rfl, by decide⟩, ⟨_, _, rfl, rfl, rfl, rfl, rfl, rfl, rfl⟩⟩

/-- What the code computes when `from_lines` returns a tree for fewer than
`2 ^ 64` input lines: every record other than the root holds its own line count
plus the cumulative counts of its children, while the root holds the sum of the
cumulative counts of its children only; every child pointer addresses a record
of the tree, so the counts summed are those of the records pointed to. -/
theorem cumulated_counts_settled (store : Nat) (lines : List String) (b : Bool)
    (t : IncludeTree) (h : IncludeTree.from_lines store lines b = .ok t)
    (hlen : lines.length < SIZE_MOD) :
    (∀ i f, 0 < i → t.files[i]? = some f →
      f.cumulated_lines_count = f.lines_count + t.children_total f) ∧
    (∀ r, t.files[0]? = some r → r.cumulated_lines_count = t.children_total r) ∧
    (∀ f ∈ t.files, ∀ c ∈ f.includes, t.deref c = .ok (t.rec_at c.idx)) := by
  obtain ⟨-, hvalid⟩ := from_lines_valid h
  obtain ⟨s, htree, hs, hw, hst, -, -, -, hx⟩ := from_lines_view h
  have hc := hx hlen
  subst htree
  have hsum : ∀ i, sum_at s.view.cum (s.view.inc i) = s.tree.children_total (s.tree.rec_at i) := by
    intro i
    simp [sum_at, LineMarkersParser_impl.view, IncludeTree.children_total, List.map_map,
      Function.comp_def]
  refine ⟨?_, ?_, fun f hf c hc => deref_ok (hvalid f hf c hc).1 (hvalid f hf c hc).2⟩
  · intro i f hi hf
    have hlt : i < s.tree.files.length := (List.getElem?_eq_some.mp hf).1
    have hrec := rec_at_eq_of_getElem? hf
    have := Nat.modEq_zero_iff.mp (hc.closed i hlt (by simp [hst]; omega))
    rw [hsum, hrec] at this
    simpa [LineMarkersParser_impl.view, hrec] using this
  · intro r hr
    have hrec := rec_at_eq_of_getElem? hr
    have := Nat.modEq_zero_iff.mp (hc.top 0 (by simp [hst]))
    rw [hsum, hrec] at this
    simpa [LineMarkersParser_impl.view, hrec] using this

/-- The test fixture as an instance of `cumulated_counts_settled`. -/
theorem cumulated_counts_settled_witness :
    ∃ t, IncludeTree.from_lines 0 fixture_lines true = .ok t ∧
      fixture_lines.length < SIZE_MOD ∧
      (∀ i f, 0 < i → t.files[i]? = some f →
        f.cumulated_lines_count = f.lines_count + t.children_total f) ∧
      (∀ r, t.files[0]? = some r → r.cumulated_lines_count = t.children_total r) ∧
      (∀ f ∈ t.files, ∀ c ∈ f.includes, t.deref c = .ok (t.rec_at c.idx)) :=
  ⟨_, rfl, by decide, cumulated_counts_settled 0 fixture_lines true _ rfl (by decide)⟩


/-! ### The root on the stack -/

/-- C2 (evaluation at the failing input): a marker with flag 2 that reaches a
fresh parser, whose stack holds only the root, runs `pop_stack`; its
`stack.pop_back()` removes the root and leaves the stack empty, and the
following `stack.back()` is undefined. -/
theorem flag2_at_root_pops_root :
    (LineMarkersParser_impl.new 0 true).stack = [⟨0, 0⟩] ∧
    (LineMarkersParser_impl.new 0 true).stack.dropLast = [] ∧
    pop_stack (LineMarkersParser_impl.new 0 true) = .error .undefined_behaviour ∧
    parseLine (LineMarkersParser_impl.new 0 true) "# 1 \"x\" 2" = .error .undefined_behaviour :=
  ⟨rfl, rfl, rfl, rfl⟩


/-! ### The preorder walk -/

theorem from_lines_walk {store : Nat} {lines : List String} {b : Bool} {t : IncludeTree}
    (h : IncludeTree.from_lines store lines b = .ok t) :
    ∃ out, (∀ fuel, t.files.length ≤ fuel → preorder_walk fuel t = .ok out) ∧
      out.Nodup ∧
      (∀ p, p ∈ out ↔ p ≠ t.root ∧ p.store = t.store ∧ p.idx < t.files.length) ∧
      (∀ p q, p ∈ out → Desc t p q → [p, q].Sublist out) ∧
      (∀ f ∈ t.files, f.includes.Sublist out) := by
  obtain ⟨hroot, hpos, e, hI⟩ := from_lines_intervals h
  have hmem : ∀ p : Ptr, p ∈ (List.range' 1 (t.files.length - 1)).map (Ptr.mk t.store) ↔
      p.store = t.store ∧ 1 ≤ p.idx ∧ p.idx < t.files.length := by
    intro p
    simp only [List.mem_map, List.mem_range'_1]
    constructor
    · rintro ⟨x, hx, rfl⟩
      refine ⟨rfl, hx.1, ?_⟩
      show x < t.files.length
      omega
    · rintro ⟨h1, h2, h3⟩
      refine ⟨p.idx, ⟨h2, by omega⟩, ?_⟩
      cases p
      simp only at h1
      subst h1
      rfl
  refine ⟨(List.range' 1 (t.files.length - 1)).map (Ptr.mk t.store),
    fun fuel hfuel => preorder_walk_intervals hI hroot hpos hfuel, ?_, ?_, ?_, ?_⟩
  · refine (List.nodup_range' 1 (t.files.length - 1)).map ?_
    intro x y hxy
    simpa using hxy
  · intro p
    rw [hmem, hroot]
    constructor
    · rintro ⟨h1, h2, h3⟩
      refine ⟨?_, h1, h3⟩
      intro heq
      rw [heq] at h2
      simp at h2
    · rintro ⟨h1, h2, h3⟩
      refine ⟨h2, ?_, h3⟩
      rcases Nat.eq_zero_or_pos p.idx with h0 | h0
      · exfalso
        apply h1
        cases p
        simp only at h0 h2
        subst h0 h2
        rfl
      · exact h0
  · intro p q hp hd
    obtain ⟨hp1, hp2, hp3⟩ := (hmem p).mp hp
    obtain ⟨hq1, hq2, hq3⟩ := desc_lt hI hd
    have hl : [p, q] = ([p.idx, q.idx]).map (Ptr.mk t.store) := by
      cases p
      cases q
      simp only at hp1 hq1
      subst hp1 hq1
      rfl
    rw [hl]
    refine List.Sublist.map _ (sublist_range'_of_sorted ?_ ?_)
    · simp [hq2]
    · intro x hx
      simp only [List.mem_cons, List.mem_singleton, List.not_mem_nil, or_false] at hx
      rcases hx with rfl | rfl <;> omega
  · intro f hf
    obtain ⟨i, hi, hget⟩ := List.getElem_of_mem hf
    have hrec : t.rec_at i = f := by
      rw [← hget]
      exact rec_at_eq_of_getElem? (List.getElem?_eq_getElem hi)
    have hch := intervals_children hI hi
    rw [hrec] at hch
    rw [includes_eq_map (t := t) (f := f) (by rw [← hrec]; exact hI.1 i hi)]
    refine List.Sublist.map _ (sublist_range'_of_sorted hch.1 ?_)
    intro x hx
    have := hch.2 x hx
    omega

/-- C3: on every tree returned by `from_lines` the walk terminates (any budget of
at least `files.size()` iterations gives the same sequence `out`), `out` has no
repetition and holds exactly the addresses of the records other than the root,
every record comes before each of its descendants, and the children of every
record appear in `out` in the order of its `includes` list. -/
theorem preorder_walk_visits (store : Nat) (lines : List String) (b : Bool) (t : IncludeTree)
    (h : IncludeTree.from_lines store lines b = .ok t) :
    ∃ out, (∀ fuel, t.files.length ≤ fuel → preorder_walk fuel t = .ok out) ∧
      out.Nodup ∧
      (∀ p, p ∈ out ↔ p ≠ t.root ∧ p.store = t.store ∧ p.idx < t.files.length) ∧
      (∀ p q, p ∈ out → Desc t p q → [p, q].Sublist out) ∧
      (∀ f ∈ t.files, f.includes.Sublist out) :=
  from_lines_walk h

/-- Witness for `preorder_walk_visits`: the test fixture. -/
theorem preorder_walk_visits_witness :
    ∃ t, IncludeTree.from_lines 0 fixture_lines true = .ok t ∧
      ∃ out, (∀ fuel, t.files.length ≤ fuel → preorder_walk fuel t = .ok out) ∧
        out.Nodup ∧
        (∀ p, p ∈ out ↔ p ≠ t.root ∧ p.store = t.store ∧ p.idx < t.files.length) ∧
        (∀ p q, p ∈ out → Desc t p q → [p, q].Sublist out) ∧
        (∀ f ∈ t.files, f.includes.Sublist out) :=
  ⟨_, rfl, preorder_walk_visits 0 fixture_lines true _ rfl⟩


/-! ### Depths -/

/-- C4: at every point of parsing, that is in the state reached after any
sequence of lines and in the state `finalize` makes of it, every child stored in
an `includes` list is one level deeper than its parent, and every direct child
of the root has depth 1. -/
theorem depth_is_parent_depth_plus_one (store : Nat) (b : Bool) (lines : List String)
    (s : LineMarkersParser_impl)
    (h : parseLines (LineMarkersParser_impl.new store b) lines = .ok s) :
    s.tree.DepthRule ∧ s.tree.RootChildrenRule ∧
    ∀ s', finalize s = .ok s' → s'.tree.DepthRule ∧ s'.tree.RootChildrenRule := by
  obtain ⟨hs, hw, hd, hr, -, -⟩ := reach_inv h
  refine ⟨depthRule_of_view hs hw hd, rootChildrenRule_of_view hs hw hd hr, ?_⟩
  intro s' hf
  obtain ⟨hs', -, hsteps⟩ := finalize_inv hs hw hf
  have hw' := hw.steps hsteps
  have hd' := hd.depth_steps hw hsteps
  exact ⟨depthRule_of_view hs' hw' hd',
    rootChildrenRule_of_view hs' hw' hd' (hr.root_steps hw hsteps)⟩

/-- Witness for `depth_is_parent_depth_plus_one`: the first eleven lines of the
test fixture, after which "d.cpp", "c.h" and "a.h" are open. -/
theorem depth_is_parent_depth_plus_one_witness :
    ∃ s, parseLines (LineMarkersParser_impl.new 0 true) (fixture_lines.take 11) = .ok s ∧
      s.stack = [⟨0, 0⟩, ⟨0, 1⟩, ⟨0, 2⟩, ⟨0, 3⟩] ∧
      s.tree.DepthRule ∧ s.tree.RootChildrenRule ∧
      ∀ s', finalize s = .ok s' → s'.tree.DepthRule ∧ s'.tree.RootChildrenRule :=
  ⟨_, rfl, by decide,
    depth_is_parent_depth_plus_one 0 true (fixture_lines.take 11) _ rfl⟩


/-! ### The synthetic root -/

/-- C5: the tree returned by `from_lines` has `files[0]` as its root, that record
is named "-" with depth 0 and `included_at_line` 0, it is in no `includes` list,
and no run of `preorder_walk` hands it to the visitor. -/
theorem root_record_fixed (store : Nat) (lines : List String) (b : Bool) (t : IncludeTree)
    (h : IncludeTree.from_lines store lines b = .ok t) :
    t.root = ⟨t.store, 0⟩ ∧
    (∃ r, t.files[0]? = some r ∧ t.deref t.root = .ok r ∧ r.filename = "-" ∧ r.depth = 0 ∧
      r.included_at_line = 0) ∧
    (∀ f ∈ t.files, t.root ∉ f.includes) ∧
    (∀ fuel out, preorder_walk fuel t = .ok out → t.root ∉ out) := by
  obtain ⟨s, htree, hs, hw, hst, -, hr, -, -⟩ := from_lines_view h
  obtain ⟨out, hwalk, -, hmem, -, hsub⟩ := from_lines_walk h
  subst htree
  have hroot := hs.2.2
  have hpos : 0 < s.tree.files.length := hw.pos
  refine ⟨hroot, ⟨s.tree.rec_at 0, getElem?_eq_rec_at hpos, ?_, hr.1, hr.2.1, hr.2.2⟩, ?_, ?_⟩
  · rw [hroot]
    exact deref_ok rfl hpos
  · intro f hf hin
    have := (hmem s.tree.root).mp ((hsub f hf).subset hin)
    exact this.1 rfl
  · intro fuel out' hw' hin
    have h1 := preorder_walk_mono_le s.tree (Nat.le_max_left fuel s.tree.files.length) hw'
    have h2 := hwalk _ (Nat.le_max_right fuel s.tree.files.length)
    rw [h1] at h2
    cases h2
    exact ((hmem s.tree.root).mp hin).1 rfl

/-- Witness for `root_record_fixed`: the test fixture. -/
theorem root_record_fixed_witness :
    ∃ t, IncludeTree.from_lines 0 fixture_lines true = .ok t ∧
      t.root = ⟨t.store, 0⟩ ∧
      (∃ r, t.files[0]? = some r ∧ t.deref t.root = .ok r ∧ r.filename = "-" ∧ r.depth = 0 ∧
        r.included_at_line = 0) ∧
      (∀ f ∈ t.files, t.root ∉ f.includes) ∧
      (∀ fuel out, preorder_walk fuel t = .ok out → t.root ∉ out) :=
  ⟨_, rfl, root_record_fixed 0 fixture_lines true _ rfl⟩


/-! ### The test fixture -/

/-- C6: on the 27 lines of the test fixture `from_lines` with retention returns
six records named "-", "d.cpp", "c.h", "a.h", "b.h", "e.cpp" in storage order,
with the include lists, line numbers, counts and retained content of the test. -/
theorem fixture_tree :
    fixture_lines.length = 27 ∧
    ∃ t, IncludeTree.from_lines 0 fixture_lines true = .ok t ∧
      t.files.map (fun f => f.filename) = ["-", "d.cpp", "c.h", "a.h", "b.h", "e.cpp"] ∧
      t.files.map (fun f => f.includes) =
        [[⟨0, 1⟩, ⟨0, 5⟩], [⟨0, 2⟩], [⟨0, 3⟩, ⟨0, 4⟩], [], [], []] ∧
      t.files.map (fun f => f.included_at_line) = [0, 0, 1, 3, 12, 0] ∧
      t.files.map (fun f => f.lines_count) = [0, 2, 5, 3, 4, 1] ∧
      t.files.map (fun f => f.last_effective_line) = [0, 2, 13, 3, 4, 1] ∧
      (t.files.map (fun f => f.cumulated_lines_count))[2]? = some 12 ∧
      (t.files.map (fun f => f.lines))[2]? =
        some ["", "", "#include \"a.h\"", "#line 12", "#include \"b.h\"", "void c13();"] := by
  refine ⟨by decide, _, rfl, ?_, ?_, ?_, ?_, ?_, ?_, ?_⟩ <;> decide


/-! ### Marker lines and content lines -/

/-- C7 (counterexample): the line `# 3 "a.h" 7`, whose flag digit is 7, matches
the pattern, and `parseLine` treats it as a marker: on a fresh parser it creates
a record for "a.h" and counts no line for the file on top of the stack. -/
theorem flag_digit_seven_is_marker :
    regex_match "# 3 \"a.h\" 7".data = some ⟨['3'], ['a', '.', 'h'], ['7'], [], []⟩ ∧
    ∃ s, parseLine (LineMarkersParser_impl.new 0 true) "# 3 \"a.h\" 7" = .ok s ∧
      s.tree.files.map (fun f => f.filename) = ["-", "a.h"] ∧
      s.tree.files.map (fun f => f.lines_count) = [0, 0] ∧
      s.stack = [⟨0, 0⟩, ⟨0, 1⟩] := by
  refine ⟨by decide, _, rfl, ?_, ?_, ?_⟩ <;> decide

/-- C7 (amended): a line matches the marker pattern exactly when it consists of
`#`, white space, one or more decimal digits, white space, a double-quoted
filename without a quote inside, and zero to three flags, each a single decimal
digit from 0 to 9 that optional white space may precede (white space may also
follow when there are fewer than three flags); outside the preamble every other
line is a content line: `parseLine` adds 1 (in `std::size_t`) to
`last_effective_line` and `lines_count` of the file on top of the stack,
appends the line to its content when retention is enabled, creates no record
and pops nothing. -/
theorem marker_pattern_and_content_lines (s : LineMarkersParser_impl) (line : String)
    (init : List Ptr) (top : Ptr) (f : PreprocessedFile)
    (hpre : s.in_preamble = false) (hstack : s.stack = init ++ [top])
    (htop : s.tree.deref top = .ok f) :
    (∀ c, isdigit c = true ↔ '0' ≤ c ∧ c ≤ '9') ∧
    ((regex_match line.data).isSome = true ↔ MarkerShape line.data) ∧
    (¬ MarkerShape line.data →
      ∃ s', parseLine s line = .ok s' ∧ s'.stack = s.stack ∧ s'.in_preamble = false ∧
        s'.tree.files = s.tree.files.set top.idx (count_line s.store_lines line f)) := by
  refine ⟨fun c => by simp [isdigit], regex_match_isSome_iff line.data, ?_⟩
  intro hshape
  obtain ⟨htst, htidx, hrec⟩ := deref_eq_ok htop
  have hm : regex_match line.data = none := by
    cases hr : regex_match line.data with
    | none => rfl
    | some m =>
      exfalso
      exact hshape ((regex_match_isSome_iff line.data).mp (by simp [hr]))
  refine ⟨_, parseLine_content hpre hstack htst htidx hm, rfl, hpre, ?_⟩
  rw [hrec]
  rfl

/-- Witness for `marker_pattern_and_content_lines`: a fresh parser and the line
`void a3();`. -/
theorem marker_pattern_and_content_lines_witness :
    (LineMarkersParser_impl.new 0 true).in_preamble = false ∧
    (LineMarkersParser_impl.new 0 true).stack = [] ++ [⟨0, 0⟩] ∧
    (LineMarkersParser_impl.new 0 true).tree.deref ⟨0, 0⟩ = .ok (PreprocessedFile.mk2 0 "-") ∧
    (∀ c, isdigit c = true ↔ '0' ≤ c ∧ c ≤ '9') ∧
    ((regex_match "void a3();".data).isSome = true ↔ MarkerShape "void a3();".data) ∧
    (¬ MarkerShape "void a3();".data →
      ∃ s', parseLine (LineMarkersParser_impl.new 0 true) "void a3();" = .ok s' ∧
        s'.stack = (LineMarkersParser_impl.new 0 true).stack ∧ s'.in_preamble = false ∧
        s'.tree.files = (LineMarkersParser_impl.new 0 true).tree.files.set 0
          (count_line true "void a3();" (PreprocessedFile.mk2 0 "-"))) :=
  ⟨rfl, rfl, rfl,
    marker_pattern_and_content_lines (LineMarkersParser_impl.new 0 true) "void a3();" []
      ⟨0, 0⟩ (PreprocessedFile.mk2 0 "-") rfl rfl rfl⟩


/-! ### Line numbers that do not fit -/

/-- C8 (counterexample): a marker-shaped line whose line number is `2 ^ 64` makes
`parseLine` raise `std::out_of_range`; no state is returned, so the line is not
counted as a content line. -/
theorem linenum_overflow_raises :
    (regex_match "# 18446744073709551616 \"a.h\"".data).isSome = true ∧
    parseLine (LineMarkersParser_impl.new 0 true) "# 18446744073709551616 \"a.h\"" =
      .error .out_of_range :=
  ⟨rfl, rfl⟩

/-- C8 (amended): outside the preamble, a line that matches the marker pattern
with a line number of `2 ^ 64` or more makes `parseLine` raise
`std::out_of_range` from `std::stoul` before anything is modified: the call does
not return, and the parser object it leaves is the one it was given, with the
same tree (no count has grown, no record has been created) and the same stack
(nothing has been popped).  `InPlace.parseLine` is the method written in place;
by `inplace_parseLine` it returns what `parseLine` returns. -/
theorem parseLine_linenum_overflow (s : LineMarkersParser_impl) (line : String) (m : Smatch)
    (hpre : s.in_preamble = false) (hm : regex_match line.data = some m)
    (hbig : SIZE_MOD ≤ digits_value m.m1) :
    parseLine s line = .error .out_of_range ∧
    InPlace.parseLine line s = (.error .out_of_range, s) := by
  have hlt : ¬ digits_value m.m1 < SIZE_MOD := Nat.not_lt.mpr hbig
  constructor
  · simp [parseLine, hpre, hm, stoul, hlt, bind, Except.bind]
  · have hst : stoul m.m1 = .error .out_of_range := by simp [stoul, hlt]
    unfold InPlace.parseLine
    show Eff.bind _ _ s = _
    simp only [Eff.bind, Eff.eval, hpre, Bool.false_eq_true, if_false, hm]
    show Eff.bind _ _ s = _
    simp only [Eff.bind, Eff.eval, hst]

/-- Witness for `parseLine_linenum_overflow`: a fresh parser, and a parser with
"a.h" open, given a marker with line number `2 ^ 64`. -/
theorem parseLine_linenum_overflow_witness :
    (parseLine (LineMarkersParser_impl.new 0 false) "# 18446744073709551616 \"a.h\"" =
      .error .out_of_range ∧
    InPlace.parseLine "# 18446744073709551616 \"a.h\"" (LineMarkersParser_impl.new 0 false) =
      (.error .out_of_range, LineMarkersParser_impl.new 0 false)) ∧
    ∃ s, parseLines (LineMarkersParser_impl.new 0 true) ["x", "# 1 \"a.h\" 1", "y"] = .ok s ∧
      s.stack = [⟨0, 0⟩, ⟨0, 1⟩] ∧
      InPlace.parseLine "# 18446744073709551616 \"a.h\" 2" s = (.error .out_of_range, s) :=
  ⟨parseLine_linenum_overflow (LineMarkersParser_impl.new 0 false)
    "# 18446744073709551616 \"a.h\"" ⟨"18446744073709551616".data, "a.h".data, [], [], []⟩
    (by decide) (by decide) (by decide),
   _, rfl, by decide,
   (parseLine_linenum_overflow _
    "# 18446744073709551616 \"a.h\" 2" ⟨"18446744073709551616".data, "a.h".data, ['2'], [], []⟩
    rfl (by decide) (by decide)).2⟩


/-! ### Content retention -/

/-- C9 (evaluation at the failing input): with retention disabled, entering
"a.h" still appends the synthetic include line to the parent, because
`push_stack` does not test `store_lines`. -/
theorem include_line_stored_without_retention :
    ∃ t, IncludeTree.from_lines 0 ["# 1 \"a.h\" 1"] false = .ok t ∧
      t.files.map (fun f => f.lines) = [["#include \"a.h\""], []] := by
  refine ⟨_, rfl, ?_⟩; decide


/-! ### Copies of the tree -/

/-- C10: for every tree `t` produced by the parser, be it the tree returned by
`from_lines` or the tree of a parser that has read any sequence of lines, copy
construction into a new storage `store'` and copy assignment to any tree `self`
succeed and yield a faithful copy: the same number of records with equal scalar
fields and content, the root referring to `files[0]` of the copy, every child
reference referring to the record of the copy at the position its original has
in `t`, and no child reference into the storage of `t` when the storages
differ. -/
theorem copy_rewrites_references (store : Nat) (lines : List String) (b : Bool)
    (t : IncludeTree) (store' : Nat) (self : IncludeTree)
    (h : IncludeTree.from_lines store lines b = .ok t ∨
      ∃ s, parseLines (LineMarkersParser_impl.new store b) lines = .ok s ∧ s.tree = t) :
    (∃ t', IncludeTree.copy_construct store' t = .ok t' ∧ t.CopyOf store' t') ∧
    (∃ t', IncludeTree.copy_assign self t = .ok t' ∧ t.CopyOf self.store t') := by
  have hv : 0 < t.files.length ∧
      ∀ f ∈ t.files, ∀ c ∈ f.includes, c.store = t.store ∧ c.idx < t.files.length := by
    rcases h with h | ⟨s, hs, rfl⟩
    · exact from_lines_valid h
    · exact reach_valid hs
  obtain ⟨hpos, hvalid⟩ := hv
  exact ⟨⟨_, copy_construct_valid hpos hvalid, copyOf_of_valid hpos hvalid⟩,
    ⟨_, copy_assign_valid hpos hvalid, copyOf_of_valid hpos hvalid⟩⟩

/-- Witness for `copy_rewrites_references`: the tree of the test fixture, copied
into the storage 7 and assigned to a fresh tree in the storage 3. -/
theorem copy_rewrites_references_witness :
    ∃ t, IncludeTree.from_lines 0 fixture_lines true = .ok t ∧
      (∃ t', IncludeTree.copy_construct 7 t = .ok t' ∧ t.CopyOf 7 t') ∧
      (∃ t', IncludeTree.copy_assign (IncludeTree.new 3) t = .ok t' ∧
        t.CopyOf (IncludeTree.new 3).store t') :=
  ⟨_, rfl,
    copy_rewrites_references 0 fixture_lines true _ 7 (IncludeTree.new 3) (Or.inl rfl)⟩

/-! ### C11: a marker with flag 2 -/

/-- C11: in a reachable parser state outside the preamble with a file open above
the root, `parseLine` on a marker with line number `n ≥ 1` (one that fits
`unsigned long`) whose flags contain 2 and not 1 returns the state in which the
top file `ft` is off the stack, its `cumulated_lines_count` has its `lines_count`
added, the file `fq` below it, now on top, has that total added to its
`cumulated_lines_count` (both sums in `std::size_t`) and has `last_effective_line`
`n - 1`; nothing else changes.  A content line read next is counted for `fq` and
brings its `last_effective_line` to `n`. -/
theorem flag2_marker_closes_top (store : Nat) (b : Bool) (pre : List String)
    (s : LineMarkersParser_impl) (line : String) (m : Smatch) (n : Nat)
    (hreach : parseLines (LineMarkersParser_impl.new store b) pre = .ok s)
    (hpre : s.in_preamble = false) (hopen : 1 < s.stack.length)
    (hm : regex_match line.data = some m) (hnum : stoul m.m1 = .ok n) (hn : 1 ≤ n)
    (h1 : contains (flags_of m) 1 = false) (h2 : contains (flags_of m) 2 = true) :
    ∃ init q top ft fq s', s.stack = init ++ [q, top] ∧ s.tree.deref top = .ok ft ∧
      s.tree.deref q = .ok fq ∧ q.idx ≠ top.idx ∧
      parseLine s line = .ok s' ∧
      s' = { s with
        tree := { s.tree with
          files := (s.tree.files.set top.idx
              { ft with
                cumulated_lines_count :=
                  (ft.cumulated_lines_count + ft.lines_count) % SIZE_MOD }).set q.idx
              { fq with
                cumulated_lines_count :=
                  (fq.cumulated_lines_count +
                    (ft.cumulated_lines_count + ft.lines_count) % SIZE_MOD) % SIZE_MOD
                last_effective_line := n - 1 } }
        stack := init ++ [q] } ∧
      ∀ line2, regex_match line2.data = none →
        ∃ s'' g, parseLine s' line2 = .ok s'' ∧ back s''.stack = .ok q ∧
          s''.tree.deref q = .ok g ∧ g.last_effective_line = n := by
  obtain ⟨init, q, top, hst, htst, htidx, hqst, hqidx, hlt, hdt, hdq⟩ := reach_two hreach hopen
  have hne : q.idx ≠ top.idx := by omega
  have hnlt : n < SIZE_MOD := by
    unfold stoul at hnum
    split at hnum
    · cases hnum
      assumption
    · cases hnum
  have hs' : parseLine s line = .ok { s with
        tree := { s.tree with
          files := (s.tree.files.set top.idx
              { s.tree.rec_at top.idx with
                cumulated_lines_count :=
                  ((s.tree.rec_at top.idx).cumulated_lines_count +
                    (s.tree.rec_at top.idx).lines_count) % SIZE_MOD }).set q.idx
              { s.tree.rec_at q.idx with
                cumulated_lines_count :=
                  ((s.tree.rec_at q.idx).cumulated_lines_count +
                    ((s.tree.rec_at top.idx).cumulated_lines_count +
                      (s.tree.rec_at top.idx).lines_count) % SIZE_MOD) % SIZE_MOD
                last_effective_line := n - 1 } }
        stack := init ++ [q] } := by
    rw [parseLine_leave hpre hst htst htidx hqst hqidx hm hnum h1 h2]
    simp only [LineMarkersParser_impl.popped, rec_at_put, hne, false_and, if_false, htidx,
      hqidx, and_self, if_true, put_length]
    simp [IncludeTree.put, List.set_set, resume_at, size_pred_pos hn, hst]
  refine ⟨init, q, top, _, _, _, by simpa using hst, hdt, hdq, hne, hs', rfl, ?_⟩
  intro line2 hm2
  refine @content_next _ init q n ?_ ?_ ?_ ?_ ?_ hnlt line2 hm2
  · exact hpre
  · rfl
  · exact hqst
  · simpa using hqidx
  · simp [IncludeTree.rec_at, hqidx]
    omega

/-- Witness for `flag2_marker_closes_top`: the marker `# 4 "c.h" 2` of the test
fixture, read while "d.cpp", "c.h" and "a.h" are open. -/
theorem flag2_marker_closes_top_witness :
    ∃ s, parseLines (LineMarkersParser_impl.new 0 true) (fixture_lines.take 11) = .ok s ∧
      s.in_preamble = false ∧ 1 < s.stack.length ∧
      ∃ m, regex_match "# 4 \"c.h\" 2".data = some m ∧ stoul m.m1 = .ok 4 ∧
        contains (flags_of m) 1 = false ∧ contains (flags_of m) 2 = true ∧
        ∃ init q top ft fq s', s.stack = init ++ [q, top] ∧ s.tree.deref top = .ok ft ∧
          s.tree.deref q = .ok fq ∧ q.idx ≠ top.idx ∧
          parseLine s "# 4 \"c.h\" 2" = .ok s' ∧
          s' = { s with
            tree := { s.tree with
              files := (s.tree.files.set top.idx
                  { ft with
                    cumulated_lines_count :=
                      (ft.cumulated_lines_count + ft.lines_count) % SIZE_MOD }).set q.idx
                  { fq with
                    cumulated_lines_count :=
                      (fq.cumulated_lines_count +
                        (ft.cumulated_lines_count + ft.lines_count) % SIZE_MOD) % SIZE_MOD
                    last_effective_line := 4 - 1 } }
            stack := init ++ [q] } ∧
          ∀ line2, regex_match line2.data = none →
            ∃ s'' g, parseLine s' line2 = .ok s'' ∧ back s''.stack = .ok q ∧
              s''.tree.deref q = .ok g ∧ g.last_effective_line = 4 :=
  ⟨_, rfl, rfl, by decide, _, rfl, rfl, rfl, rfl,
    flag2_marker_closes_top 0 true (fixture_lines.take 11) _ "# 4 \"c.h\" 2" _ 4 rfl rfl
      (by decide) rfl rfl (by decide) rfl rfl⟩

/-! ### C12: a line-number marker for the file on top -/

/-- C12: in a reachable parser state outside the preamble with the file `f` on top
of the stack, `parseLine` on a marker with line number `n ≥ 1` (one that fits
`unsigned long`) without flag 1 or 2 that names `f` returns the state in which
only the record of `f` has changed: its `last_effective_line` is `n - 1`, and its
`lines` has `#line n` appended when retention is enabled.  No record is created;
the stack, every `includes` list, `lines_count` and `cumulated_lines_count` are
unchanged.  After any number of consecutive markers of that kind the deque has
as many records as before, with the same stack and the same `includes`,
`lines_count` and `cumulated_lines_count` in every record. -/
theorem same_file_marker_sets_line (store : Nat) (b : Bool) (pre : List String)
    (s : LineMarkersParser_impl) (line : String) (m : Smatch) (n : Nat) (top : Ptr)
    (f : PreprocessedFile)
    (hreach : parseLines (LineMarkersParser_impl.new store b) pre = .ok s)
    (hpre : s.in_preamble = false) (htop : back s.stack = .ok top)
    (hf : s.tree.deref top = .ok f)
    (hm : regex_match line.data = some m) (hnum : stoul m.m1 = .ok n) (hn : 1 ≤ n)
    (h1 : contains (flags_of m) 1 = false) (h2 : contains (flags_of m) 2 = false)
    (hfn : String.mk m.m2 = f.filename) :
    parseLine s line = .ok { s with
      tree := { s.tree with
        files := s.tree.files.set top.idx
          { f with
            last_effective_line := n - 1
            lines := if s.store_lines then f.lines ++ ["#line " ++ toString n] else f.lines } } } ∧
    ∀ markers : List String, (∀ l ∈ markers, is_jump_marker f.filename l = true) →
      ∃ s', parseLines s markers = .ok s' ∧ s'.stack = s.stack ∧
        s'.tree.files.length = s.tree.files.length ∧
        ∀ i, (s'.tree.rec_at i).includes = (s.tree.rec_at i).includes ∧
          (s'.tree.rec_at i).lines_count = (s.tree.rec_at i).lines_count ∧
          (s'.tree.rec_at i).cumulated_lines_count = (s.tree.rec_at i).cumulated_lines_count := by
  obtain ⟨init, top', hst, htst, htidx, hback, -⟩ := reach_top hreach
  rw [hback] at htop
  cases htop
  obtain ⟨-, -, hrec⟩ := deref_eq_ok hf
  subst hrec
  constructor
  · rw [parseLine_jump hpre hst htst htidx hm hnum h1 h2 hfn]
    simp [IncludeTree.put, jump_to, size_pred_pos hn]
  · intro markers hall
    obtain ⟨s', hrun, hstack, -, hlen, hrecs⟩ := jump_run markers s hpre hst htst htidx rfl hall
    exact ⟨s', hrun, hstack, hlen, hrecs⟩

/-- Witness for `same_file_marker_sets_line`: the marker `# 12 "c.h"` of the test
fixture, read while "c.h" is on top of the stack. -/
theorem same_file_marker_sets_line_witness :
    ∃ s, parseLines (LineMarkersParser_impl.new 0 true) (fixture_lines.take 12) = .ok s ∧
      s.in_preamble = false ∧
      ∃ top f m, back s.stack = .ok top ∧ s.tree.deref top = .ok f ∧
        regex_match "# 12 \"c.h\"".data = some m ∧ stoul m.m1 = .ok 12 ∧
        contains (flags_of m) 1 = false ∧ contains (flags_of m) 2 = false ∧
        String.mk m.m2 = f.filename ∧
        parseLine s "# 12 \"c.h\"" = .ok { s with
          tree := { s.tree with
            files := s.tree.files.set top.idx
              { f with
                last_effective_line := 12 - 1
                lines := if s.store_lines then f.lines ++ ["#line " ++ toString 12]
                  else f.lines } } } ∧
        ∀ markers : List String, (∀ l ∈ markers, is_jump_marker f.filename l = true) →
          ∃ s', parseLines s markers = .ok s' ∧ s'.stack = s.stack ∧
            s'.tree.files.length = s.tree.files.length ∧
            ∀ i, (s'.tree.rec_at i).includes = (s.tree.rec_at i).includes ∧
              (s'.tree.rec_at i).lines_count = (s.tree.rec_at i).lines_count ∧
              (s'.tree.rec_at i).cumulated_lines_count =
                (s.tree.rec_at i).cumulated_lines_count :=
  ⟨_, rfl, rfl, _, _, _, rfl, rfl, rfl, rfl, rfl, rfl, by decide,
    same_file_marker_sets_line 0 true (fixture_lines.take 12) _ "# 12 \"c.h\"" _ 12 _ _ rfl rfl
      rfl rfl rfl rfl (by decide) rfl rfl (by decide)⟩

/-! ### C13: a marker with flag 1 -/

/-- C13: in a reachable parser state outside the preamble, `parseLine` on a
marker whose flags contain 1 (and whose line number fits `unsigned long`) returns
the state in which the file `f` on top of the stack has one more (in
`std::size_t`) in `last_effective_line` and `lines_count`, exactly one record has
been appended to the deque, with the filename of the marker, `included_at_line`
equal to the incremented `last_effective_line` of `f` and the depth of `f` plus
one, the address of that record has been appended to the `includes` of `f` and
pushed on the stack; `f` also receives the line `#include "<filename>"`. -/
theorem flag1_marker_opens_child (store : Nat) (b : Bool) (pre : List String)
    (s : LineMarkersParser_impl) (line : String) (m : Smatch) (linenum : Nat)
    (hreach : parseLines (LineMarkersParser_impl.new store b) pre = .ok s)
    (hpre : s.in_preamble = false)
    (hm : regex_match line.data = some m) (hnum : stoul m.m1 = .ok linenum)
    (h1 : contains (flags_of m) 1 = true) :
    ∃ top f, back s.stack = .ok top ∧ s.tree.deref top = .ok f ∧
      parseLine s line = .ok { s with
        tree := { s.tree with
          files := s.tree.files.set top.idx
              { f with
                last_effective_line := (f.last_effective_line + 1) % SIZE_MOD
                lines_count := (f.lines_count + 1) % SIZE_MOD
                includes := f.includes ++ [⟨s.tree.store, s.tree.files.length⟩]
                lines := f.lines ++ ["#include \"" ++ String.mk m.m2 ++ "\""] } ++
            [{ included_at_line := (f.last_effective_line + 1) % SIZE_MOD
               filename := String.mk m.m2
               lines := []
               includes := []
               depth := f.depth + 1
               lines_count := 0
               cumulated_lines_count := 0
               last_effective_line := 0 }] }
        stack := s.stack ++ [⟨s.tree.store, s.tree.files.length⟩] } ∧
      s.tree.files[top.idx]? = some f := by
  obtain ⟨init, top, hst, htst, htidx, hback, hderef⟩ := reach_top hreach
  refine ⟨top, _, hback, hderef, ?_, getElem?_eq_rec_at htidx⟩
  rw [parseLine_enter hpre hst htst htidx hm hnum h1]
  rw [pushed_closed _ _ _ (by simpa using htidx)]
  simp only [rec_at_put, htidx, and_self, if_true]
  simp [IncludeTree.put, List.set_set, count_include, PreprocessedFile.mk2]

/-- Witness for `flag1_marker_opens_child`: the marker `# 1 "c.h" 1` of the test
fixture, read while "d.cpp" is on top of the stack. -/
theorem flag1_marker_opens_child_witness :
    ∃ s, parseLines (LineMarkersParser_impl.new 0 true) (fixture_lines.take 4) = .ok s ∧
      s.in_preamble = false ∧
      ∃ m, regex_match "# 1 \"c.h\" 1".data = some m ∧ stoul m.m1 = .ok 1 ∧
        contains (flags_of m) 1 = true ∧
        ∃ top f, back s.stack = .ok top ∧ s.tree.deref top = .ok f ∧
          parseLine s "# 1 \"c.h\" 1" = .ok { s with
            tree := { s.tree with
              files := s.tree.files.set top.idx
                  { f with
                    last_effective_line := (f.last_effective_line + 1) % SIZE_MOD
                    lines_count := (f.lines_count + 1) % SIZE_MOD
                    includes := f.includes ++ [⟨s.tree.store, s.tree.files.length⟩]
                    lines := f.lines ++ ["#include \"" ++ String.mk m.m2 ++ "\""] } ++
                [{ included_at_line := (f.last_effective_line + 1) % SIZE_MOD
                   filename := String.mk m.m2
                   lines := []
                   includes := []
                   depth := f.depth + 1
                   lines_count := 0
                   cumulated_lines_count := 0
                   last_effective_line := 0 }] }
            stack := s.stack ++ [⟨s.tree.store, s.tree.files.length⟩] } ∧
          s.tree.files[top.idx]? = some f :=
  ⟨_, rfl, rfl, _, rfl, rfl, rfl,
    flag1_marker_opens_child 0 true (fixture_lines.take 4) _ "# 1 \"c.h\" 1" _ 1 rfl rfl rfl rfl
      rfl⟩

/-! ### C14: a marker for another file -/

/-- C14: in a reachable parser state outside the preamble with the file `f` on top
of the stack, `parseLine` on a marker (with a line number that fits
`unsigned long`) without flag 1 or 2 that names another file than `f` first calls
`pop_stack`, the method a flag-2 marker calls, once for every open file above the
root, which leaves the root alone on the stack and changes cumulative counts
only; then it appends exactly one record, named as the marker says and of depth
1, whose address becomes the last entry of the `includes` of the root `r` and
the top of the stack, which is then the root followed by the new record; and it
sets `in_preamble`.  No `lines_count` changes. -/
theorem other_file_marker_restarts (store : Nat) (b : Bool) (pre : List String)
    (s : LineMarkersParser_impl) (line : String) (m : Smatch) (linenum : Nat) (top : Ptr)
    (f : PreprocessedFile)
    (hreach : parseLines (LineMarkersParser_impl.new store b) pre = .ok s)
    (hpre : s.in_preamble = false) (htop : back s.stack = .ok top)
    (hf : s.tree.deref top = .ok f)
    (hm : regex_match line.data = some m) (hnum : stoul m.m1 = .ok linenum)
    (h1 : contains (flags_of m) 1 = false) (h2 : contains (flags_of m) 2 = false)
    (hfn : String.mk m.m2 ≠ f.filename) :
    ∃ s1 r r0 s', pop_times (s.stack.length - 1) s = .ok s1 ∧ s1.stack = [s.tree.root] ∧
      s.tree.SameButCum s1.tree ∧
      s.tree.deref s.tree.root = .ok r0 ∧ s1.tree.deref s.tree.root = .ok r ∧
      r.includes = r0.includes ∧ r.depth = 0 ∧
      parseLine s line = .ok s' ∧
      s' = { s with
        tree := { s.tree with
          files := s1.tree.files.set 0
              { r with
                includes := r.includes ++ [⟨s.tree.store, s.tree.files.length⟩]
                lines := r.lines ++ ["#include \"" ++ String.mk m.m2 ++ "\""] } ++
            [{ included_at_line := r.last_effective_line
               filename := String.mk m.m2
               lines := []
               includes := []
               depth := 1
               lines_count := 0
               cumulated_lines_count := 0
               last_effective_line := 0 }] }
        stack := [s.tree.root, ⟨s.tree.store, s.tree.files.length⟩]
        in_preamble := true } ∧
      (∀ (i : Nat) (g : PreprocessedFile), s.tree.files[i]? = some g →
        ∃ g' : PreprocessedFile, s'.tree.files[i]? = some g' ∧
          g'.lines_count = g.lines_count) := by
  obtain ⟨hs, hw, -, hroot, -⟩ := reach_inv hreach
  obtain ⟨init, top', hst, htst, htidx, hback, -⟩ := reach_top hreach
  rw [hback] at htop
  cases htop
  obtain ⟨-, -, hrec⟩ := deref_eq_ok hf
  subst hrec
  obtain ⟨s1, hfin, hs1, hsteps, hlen, -⟩ := finalize_sim hs hw
  have hpop : pop_times (s.stack.length - 1) s = .ok s1 := by
    rw [← finalize_eq_pop_times]
    exact hfin
  obtain ⟨k1, k2, k3⟩ := pop_times_keeps _ _ _ hpop
  have hw1 := hw.steps hsteps
  have hstack1 := stack_of_stackR hs1 (stackR_singleton hw1 hlen)
  have hroot1 : s1.view.RootOK := hroot.root_steps hw hsteps
  have hr : s.tree.root = ⟨s.tree.store, 0⟩ := hs.2.2
  have hpos : 0 < s.tree.files.length := hw.pos
  have hpos1 : 0 < s1.tree.files.length := by
    rw [k3.2.2.1]
    exact hpos
  have hst1 : s1.stack = [] ++ [(⟨s.tree.store, 0⟩ : Ptr)] := by
    rw [hstack1, k3.2.1, hr]
    rfl
  have hpush := @push_stack_ok s1 [] ⟨s.tree.store, 0⟩ hst1 k3.1.symm hpos1 (String.mk m.m2)
  have hparse : parseLine s line =
      .ok { s1.pushed ⟨s.tree.store, 0⟩ (String.mk m.m2) with in_preamble := true } := by
    rw [parseLine_restart hpre hst htst htidx hm hnum h1 h2 hfn]
    have hfin' : pop_to_root s.stack.length s = .ok s1 := hfin
    simp only [hfin', hpush, bind, Except.bind, pure, Except.pure]
  have hrec0 := k3.2.2.2 0
  refine ⟨s1, s1.tree.rec_at 0, s.tree.rec_at 0, _, hpop, by rw [hstack1, k3.2.1], k3,
    by rw [hr]; exact deref_ok rfl hpos, by rw [hr]; exact deref_ok k3.1.symm hpos1,
    by rw [hrec0], hroot1.2.1, hparse, ?_, ?_⟩
  · rw [pushed_closed _ _ _ hpos1]
    have hd : (s1.tree.rec_at 0).depth = 0 := hroot1.2.1
    simp [PreprocessedFile.mk2, hd, k3.1, k3.2.1, k3.2.2.1, hr, k1, k2, hpre, hst1]
  · intro i g hg
    obtain ⟨g1, hg1, hgeq⟩ := sameButCum_getElem? k3 hg
    have hi : i < s1.tree.files.length := by
      by_contra hn
      rw [List.getElem?_eq_none (by omega)] at hg1
      cases hg1
    rw [pushed_closed _ _ _ hpos1]
    simp only [List.getElem?_append, List.length_set, hi, if_true, List.getElem?_set]
    by_cases h0 : 0 = i
    · subst h0
      have : s1.tree.rec_at 0 = g1 := rec_at_eq_of_getElem? hg1
      simp only [hi, if_true]
      refine ⟨_, rfl, ?_⟩
      show (s1.tree.rec_at 0).lines_count = _
      rw [this, hgeq]
    · simp only [h0, if_false]
      exact ⟨g1, hg1, by rw [hgeq]⟩

/-- Witness for `other_file_marker_restarts`: the marker `# 1 "e.cpp"` of the test
fixture, read while "d.cpp" is on top of the stack. -/
theorem other_file_marker_restarts_witness :
    ∃ s, parseLines (LineMarkersParser_impl.new 0 true) (fixture_lines.take 22) = .ok s ∧
      s.in_preamble = false ∧
      ∃ top f m, back s.stack = .ok top ∧ s.tree.deref top = .ok f ∧
        regex_match "# 1 \"e.cpp\"".data = some m ∧ stoul m.m1 = .ok 1 ∧
        contains (flags_of m) 1 = false ∧ contains (flags_of m) 2 = false ∧
        String.mk m.m2 ≠ f.filename ∧
        ∃ s1 r r0 s', pop_times (s.stack.length - 1) s = .ok s1 ∧ s1.stack = [s.tree.root] ∧
          s.tree.SameButCum s1.tree ∧
          s.tree.deref s.tree.root = .ok r0 ∧ s1.tree.deref s.tree.root = .ok r ∧
          r.includes = r0.includes ∧ r.depth = 0 ∧
          parseLine s "# 1 \"e.cpp\"" = .ok s' ∧
          s' = { s with
            tree := { s.tree with
              files := s1.tree.files.set 0
                  { r with
                    includes := r.includes ++ [⟨s.tree.store, s.tree.files.length⟩]
                    lines := r.lines ++ ["#include \"" ++ String.mk m.m2 ++ "\""] } ++
                [{ included_at_line := r.last_effective_line
                   filename := String.mk m.m2
                   lines := []
                   includes := []
                   depth := 1
                   lines_count := 0
                   cumulated_lines_count := 0
                   last_effective_line := 0 }] }
            stack := [s.tree.root, ⟨s.tree.store, s.tree.files.length⟩]
            in_preamble := true } ∧
          (∀ (i : Nat) (g : PreprocessedFile), s.tree.files[i]? = some g →
            ∃ g' : PreprocessedFile, s'.tree.files[i]? = some g' ∧
              g'.lines_count = g.lines_count) :=
  ⟨_, rfl, rfl, _, _, _, rfl, rfl, rfl, rfl, rfl, rfl, by decide,
    other_file_marker_restarts 0 true (fixture_lines.take 22) _ "# 1 \"e.cpp\"" _ 1 _ _ rfl rfl
      rfl rfl rfl rfl rfl rfl (by decide)⟩

/-! ### C15: the preamble swallows its lines -/

/-- C15: in a reachable parser state with `in_preamble` set, `parseLine` returns
for every line, with the tree, the stack and the retention setting unchanged;
the flag is cleared exactly when the line is `# 1 "<filename of the top file>"`,
and stays set for every other line. -/
theorem preamble_lines_swallowed (store : Nat) (b : Bool) (pre : List String)
    (s : LineMarkersParser_impl) (line : String)
    (hreach : parseLines (LineMarkersParser_impl.new store b) pre = .ok s)
    (hpre : s.in_preamble = true) :
    ∃ top f s', back s.stack = .ok top ∧ s.tree.deref top = .ok f ∧
      parseLine s line = .ok s' ∧ s'.tree = s.tree ∧ s'.stack = s.stack ∧
      s'.store_lines = s.store_lines ∧
      (line = "# 1 \"" ++ f.filename ++ "\"" → s'.in_preamble = false) ∧
      (line ≠ "# 1 \"" ++ f.filename ++ "\"" → s'.in_preamble = true) := by
  obtain ⟨init, top, hst, htst, htidx, hback, hderef⟩ := reach_top hreach
  refine ⟨top, _, _, hback, hderef, parseLine_preamble hpre hst htst htidx line, rfl, rfl, rfl,
    ?_, ?_⟩
  · intro h
    simp [h]
  · intro h
    simp [h]

/-- Witness for `preamble_lines_swallowed`: after `# 1 "a.c"` has opened "a.c" and
set the flag, the same line again ends the preamble. -/
theorem preamble_lines_swallowed_witness :
    ∃ s, parseLines (LineMarkersParser_impl.new 0 true) ["# 1 \"a.c\""] = .ok s ∧
      s.in_preamble = true ∧
      ∃ top f s', back s.stack = .ok top ∧ s.tree.deref top = .ok f ∧
        parseLine s "# 1 \"a.c\"" = .ok s' ∧ s'.tree = s.tree ∧ s'.stack = s.stack ∧
        s'.store_lines = s.store_lines ∧
        ("# 1 \"a.c\"" = "# 1 \"" ++ f.filename ++ "\"" → s'.in_preamble = false) ∧
        ("# 1 \"a.c\"" ≠ "# 1 \"" ++ f.filename ++ "\"" → s'.in_preamble = true) :=
  ⟨_, rfl, rfl, preamble_lines_swallowed 0 true ["# 1 \"a.c\""] _ "# 1 \"a.c\"" rfl rfl⟩

/-! ### C16: content lines -/

/-- C16: in a reachable parser state outside the preamble, `parseLine` on a line
the marker pattern does not match returns the state in which only the record of
the file on top of the stack has changed: its `last_effective_line` and
`lines_count` are one more (in `std::size_t`; exactly one more when the old
value is not the largest one, which `lines_count` never is after fewer than
2^64 - 1 lines), its `lines` has the raw line appended when retention is enabled
and is unchanged otherwise.  The stack, the flags, every other record and every
other field are unchanged. -/
theorem content_line_counted (store : Nat) (b : Bool) (pre : List String)
    (s : LineMarkersParser_impl) (line : String)
    (hreach : parseLines (LineMarkersParser_impl.new store b) pre = .ok s)
    (hpre : s.in_preamble = false) (hm : regex_match line.data = none) :
    ∃ top f g, back s.stack = .ok top ∧ s.tree.deref top = .ok f ∧
      parseLine s line =
        .ok { s with tree := { s.tree with files := s.tree.files.set top.idx g } } ∧
      g = { f with
            last_effective_line := (f.last_effective_line + 1) % SIZE_MOD
            lines_count := (f.lines_count + 1) % SIZE_MOD
            lines := if s.store_lines then f.lines ++ [line] else f.lines } ∧
      (f.last_effective_line + 1 < SIZE_MOD → g.last_effective_line = f.last_effective_line + 1) ∧
      (pre.length + 1 < SIZE_MOD → g.lines_count = f.lines_count + 1) := by
  obtain ⟨init, top, hst, htst, htidx, hback, hderef⟩ := reach_top hreach
  refine ⟨top, _, _, hback, hderef, parseLine_content hpre hst htst htidx hm, rfl, ?_, ?_⟩
  · intro h
    exact Nat.mod_eq_of_lt h
  · intro h
    obtain ⟨-, -, -, -, -, -, hb⟩ := reach_inv hreach
    have hsum := (hb (by omega)).2
    have hv : s.view.stackR = top.idx :: init.reverse.map Ptr.idx := by
      simp [LineMarkersParser_impl.view, hst]
    unfold AState.SumBound at hsum
    rw [hv] at hsum
    simp only [List.map_cons, List.sum_cons] at hsum
    have hlc : (s.tree.rec_at top.idx).lines_count ≤ pre.length := by
      have : s.view.lc top.idx = (s.tree.rec_at top.idx).lines_count := rfl
      omega
    show ((s.tree.rec_at top.idx).lines_count + 1) % SIZE_MOD = _
    exact Nat.mod_eq_of_lt (by omega)

/-- Witness for `content_line_counted`: a content line after six lines of the test
fixture, read while "c.h" is on top of the stack. -/
theorem content_line_counted_witness :
    ∃ s, parseLines (LineMarkersParser_impl.new 0 true) (fixture_lines.take 6) = .ok s ∧
      s.in_preamble = false ∧ regex_match "void d1();".data = none ∧
      ∃ top f g, back s.stack = .ok top ∧ s.tree.deref top = .ok f ∧
        parseLine s "void d1();" =
          .ok { s with tree := { s.tree with files := s.tree.files.set top.idx g } } ∧
        g = { f with
              last_effective_line := (f.last_effective_line + 1) % SIZE_MOD
              lines_count := (f.lines_count + 1) % SIZE_MOD
              lines := if s.store_lines then f.lines ++ ["void d1();"] else f.lines } ∧
        (f.last_effective_line + 1 < SIZE_MOD →
          g.last_effective_line = f.last_effective_line + 1) ∧
        ((fixture_lines.take 6).length + 1 < SIZE_MOD → g.lines_count = f.lines_count + 1) :=
  ⟨_, rfl, rfl, rfl, content_line_counted 0 true (fixture_lines.take 6) _ "void d1();" rfl rfl rfl⟩

/-! ### C17: `finalize` -/

/-- C17: in every reachable parser state (in the preamble or not) `finalize`
returns; its result is that of calling `pop_stack`, the method a flag-2 marker
calls, once for every open file above the root; the stack then holds the root
only, the deque has the same records, each equal to the old one in every field
but `cumulated_lines_count`, no record is created, and the flags are unchanged.
A second call of `finalize` returns the same state. -/
theorem finalize_folds_open_files (store : Nat) (b : Bool) (pre : List String)
    (s : LineMarkersParser_impl)
    (hreach : parseLines (LineMarkersParser_impl.new store b) pre = .ok s) :
    ∃ s', finalize s = .ok s' ∧ pop_times (s.stack.length - 1) s = .ok s' ∧
      s'.stack = [s.tree.root] ∧ s'.in_preamble = s.in_preamble ∧
      s'.store_lines = s.store_lines ∧ s'.tree.store = s.tree.store ∧
      s'.tree.root = s.tree.root ∧ s'.tree.files.length = s.tree.files.length ∧
      (∀ (i : Nat) (f : PreprocessedFile), s.tree.files[i]? = some f →
        ∃ f' : PreprocessedFile, s'.tree.files[i]? = some f' ∧
        f' = { f with cumulated_lines_count := f'.cumulated_lines_count }) ∧
      finalize s' = .ok s' := by
  obtain ⟨hs, hw, -⟩ := reach_inv hreach
  obtain ⟨s', hfin, hs', hsteps, hlen, -⟩ := finalize_sim hs hw
  have hpop : pop_times (s.stack.length - 1) s = .ok s' := by
    rw [← finalize_eq_pop_times]
    exact hfin
  obtain ⟨k1, k2, k3⟩ := pop_times_keeps _ _ _ hpop
  have hstack := stack_of_stackR hs' (stackR_singleton (hw.steps hsteps) hlen)
  refine ⟨s', hfin, hpop, ?_, k1, k2, k3.1, k3.2.1, k3.2.2.1, ?_, finalize_again hlen⟩
  · rw [hstack, k3.2.1]
  · intro i f hf
    exact sameButCum_getElem? k3 hf

/-- Witness for `finalize_folds_open_files`: the first eleven lines of the test
fixture, after which "d.cpp", "c.h" and "a.h" are open. -/
theorem finalize_folds_open_files_witness :
    ∃ s, parseLines (LineMarkersParser_impl.new 0 true) (fixture_lines.take 11) = .ok s ∧
      s.stack = [⟨0, 0⟩, ⟨0, 1⟩, ⟨0, 2⟩, ⟨0, 3⟩] ∧
      ∃ s', finalize s = .ok s' ∧ pop_times (s.stack.length - 1) s = .ok s' ∧
        s'.stack = [s.tree.root] ∧ s'.in_preamble = s.in_preamble ∧
        s'.store_lines = s.store_lines ∧ s'.tree.store = s.tree.store ∧
        s'.tree.root = s.tree.root ∧ s'.tree.files.length = s.tree.files.length ∧
        (∀ (i : Nat) (f : PreprocessedFile), s.tree.files[i]? = some f →
        ∃ f' : PreprocessedFile, s'.tree.files[i]? = some f' ∧
          f' = { f with cumulated_lines_count := f'.cumulated_lines_count }) ∧
        finalize s' = .ok s' :=
  ⟨_, rfl, by decide, finalize_folds_open_files 0 true (fixture_lines.take 11) _ rfl⟩

/-! ### C18: the walk follows creation order -/

/-- C18: for every sequence of input lines during which no flag-2 marker is
processed while the root is the only open file, `from_lines` either raises
`std::out_of_range` (a line number did not fit, no tree is finished) or returns
a tree `t` on which `preorder_walk`, given a budget of at least
`t.files.size()` iterations, hands to the visitor the addresses of `files[1]`,
..., `files[n - 1]` in that order, `n` the number of records: the entry `k` of
the visited sequence is the address of the record `files[k + 1]`. -/
theorem preorder_walk_creation_order (store : Nat) (lines : List String) (b : Bool)
    (hp : pops_root_run (LineMarkersParser_impl.new store b) lines = false) :
    IncludeTree.from_lines store lines b = .error .out_of_range ∨
    ∃ t, IncludeTree.from_lines store lines b = .ok t ∧ 0 < t.files.length ∧
      (∀ fuel, t.files.length ≤ fuel → preorder_walk fuel t =
        .ok ((List.range' 1 (t.files.length - 1)).map (Ptr.mk t.store))) ∧
      ((List.range' 1 (t.files.length - 1)).map (Ptr.mk t.store)).length =
        t.files.length - 1 ∧
      (∀ k, k + 1 < t.files.length →
        ((List.range' 1 (t.files.length - 1)).map (Ptr.mk t.store))[k]? =
          some ⟨t.store, k + 1⟩ ∧
        ∃ f, t.files[k + 1]? = some f ∧ t.deref ⟨t.store, k + 1⟩ = .ok f) := by
  rcases from_lines_total hp with he | ⟨t, h⟩
  · exact Or.inl he
  · right
    obtain ⟨hroot, hpos, e, hI⟩ := from_lines_intervals h
    refine ⟨t, h, hpos, fun fuel hfuel => preorder_walk_intervals hI hroot hpos hfuel,
      by simp, ?_⟩
    intro k hk
    constructor
    · rw [List.getElem?_map, List.getElem?_range' 1 1 (by omega)]
      simp [Nat.add_comm]
    · exact ⟨t.rec_at (k + 1), getElem?_eq_rec_at hk, deref_ok rfl hk⟩

/-- Witness for `preorder_walk_creation_order`: the test fixture, for which
`from_lines` returns a tree. -/
theorem preorder_walk_creation_order_witness :
    pops_root_run (LineMarkersParser_impl.new 0 true) fixture_lines = false ∧
    ∃ t, IncludeTree.from_lines 0 fixture_lines true = .ok t ∧ 0 < t.files.length ∧
      (∀ fuel, t.files.length ≤ fuel → preorder_walk fuel t =
        .ok ((List.range' 1 (t.files.length - 1)).map (Ptr.mk t.store))) ∧
      ((List.range' 1 (t.files.length - 1)).map (Ptr.mk t.store)).length =
        t.files.length - 1 ∧
      (∀ k, k + 1 < t.files.length →
        ((List.range' 1 (t.files.length - 1)).map (Ptr.mk t.store))[k]? =
          some ⟨t.store, k + 1⟩ ∧
        ∃ f, t.files[k + 1]? = some f ∧ t.deref ⟨t.store, k + 1⟩ = .ok f) :=
  ⟨rfl, (preorder_walk_creation_order 0 fixture_lines true rfl).resolve_left (by
    have h : IncludeTree.from_lines 0 fixture_lines true = .ok _ := rfl
    rw [h]
    exact fun hc => by cases hc)⟩

/-! ### C19: cumulative counts of the records other than the root -/

/-- C19: for every sequence of input lines during which no flag-2 marker is
processed while the root is the only open file, `from_lines` either raises
`std::out_of_range` or returns a tree in which every record `f` other than the
root has `cumulated_lines_count` equal, modulo 2^64, to its `lines_count` plus
the sum of the `cumulated_lines_count` of the records its `includes` point to,
whatever the counters of the root hold. -/
theorem nonroot_cumulated_count (store : Nat) (lines : List String) (b : Bool)
    (hp : pops_root_run (LineMarkersParser_impl.new store b) lines = false) :
    IncludeTree.from_lines store lines b = .error .out_of_range ∨
    ∃ t, IncludeTree.from_lines store lines b = .ok t ∧
      ∀ (i : Nat) (f : PreprocessedFile), 0 < i → t.files[i]? = some f →
        f.cumulated_lines_count = (f.lines_count + t.children_total f) % SIZE_MOD ∧
        ∀ c ∈ f.includes, t.deref c = .ok (t.rec_at c.idx) := by
  rcases from_lines_total hp with he | ⟨t, h⟩
  · exact Or.inl he
  · right
    refine ⟨t, h, ?_⟩
    obtain ⟨-, hvalid⟩ := from_lines_valid h
    obtain ⟨hsmall, -, -⟩ := from_lines_totals h
    obtain ⟨s, htree, hs, hw, hst, -, -, hc, -⟩ := from_lines_view h
    subst htree
    have hsum : ∀ i, sum_at s.view.cum (s.view.inc i) =
        s.tree.children_total (s.tree.rec_at i) := by
      intro i
      simp [sum_at, LineMarkersParser_impl.view, IncludeTree.children_total, List.map_map,
        Function.comp_def]
    intro i f hi hf
    have hlt : i < s.tree.files.length := (List.getElem?_eq_some.mp hf).1
    have hrec := rec_at_eq_of_getElem? hf
    have hmem : f ∈ s.tree.files := List.getElem?_mem hf
    refine ⟨?_, fun c hc' => deref_ok (hvalid f hmem c hc').1 (hvalid f hmem c hc').2⟩
    have hmod : s.view.cum i % SIZE_MOD = (s.view.lc i + sum_at s.view.cum (s.view.inc i)) %
        SIZE_MOD := hc.closed i hlt (by simp [hst]; omega)
    rw [hsum, hrec] at hmod
    have hlt2 : f.cumulated_lines_count < SIZE_MOD := by
      have := hsmall i
      rwa [hrec] at this
    have h1 : s.view.cum i = f.cumulated_lines_count := by
      simp [LineMarkersParser_impl.view, hrec]
    have h2 : s.view.lc i = f.lines_count := by
      simp [LineMarkersParser_impl.view, hrec]
    rw [h1, h2, Nat.mod_eq_of_lt hlt2] at hmod
    exact hmod

/-- Witness for `nonroot_cumulated_count`: the test fixture, for which
`from_lines` returns a tree. -/
theorem nonroot_cumulated_count_witness :
    pops_root_run (LineMarkersParser_impl.new 0 true) fixture_lines = false ∧
    ∃ t, IncludeTree.from_lines 0 fixture_lines true = .ok t ∧
      ∀ (i : Nat) (f : PreprocessedFile), 0 < i → t.files[i]? = some f →
        f.cumulated_lines_count = (f.lines_count + t.children_total f) % SIZE_MOD ∧
        ∀ c ∈ f.includes, t.deref c = .ok (t.rec_at c.idx) :=
  ⟨rfl, (nonroot_cumulated_count 0 fixture_lines true rfl).resolve_left (by
    have h : IncludeTree.from_lines 0 fixture_lines true = .ok _ := rfl
    rw [h]
    exact fun hc => by cases hc)⟩

/-! ### C20: the cumulative count of the root -/

/-- C20: for every sequence of input lines during which no flag-2 marker is
processed while the root is the only open file, `from_lines` either raises
`std::out_of_range` or returns a tree whose root `r` has `cumulated_lines_count`
equal to the sum of `lines_count` over all the records other than the root:
equal as numbers whenever there are fewer than 2^64 input lines, and equal
modulo 2^64 (the counters being `std::size_t`) in every case. -/
theorem root_cumulated_count (store : Nat) (lines : List String) (b : Bool)
    (hp : pops_root_run (LineMarkersParser_impl.new store b) lines = false) :
    IncludeTree.from_lines store lines b = .error .out_of_range ∨
    ∃ t r, IncludeTree.from_lines store lines b = .ok t ∧ t.deref t.root = .ok r ∧
      t.files[0]? = some r ∧
      (lines.length < SIZE_MOD →
        r.cumulated_lines_count = ((t.files.drop 1).map (fun f => f.lines_count)).sum) ∧
      r.cumulated_lines_count =
        ((t.files.drop 1).map (fun f => f.lines_count)).sum % SIZE_MOD := by
  rcases from_lines_total hp with he | ⟨t, h⟩
  · exact Or.inl he
  · right
    obtain ⟨hroot, hpos, -⟩ := from_lines_intervals h
    obtain ⟨-, hmod, hex⟩ := from_lines_totals h
    refine ⟨t, t.rec_at 0, h, ?_, getElem?_eq_rec_at hpos, hex, hmod⟩
    rw [hroot]
    exact deref_ok rfl hpos

/-- Witness for `root_cumulated_count`: the test fixture, for which `from_lines`
returns a tree. -/
theorem root_cumulated_count_witness :
    pops_root_run (LineMarkersParser_impl.new 0 true) fixture_lines = false ∧
    ∃ t r, IncludeTree.from_lines 0 fixture_lines true = .ok t ∧ t.deref t.root = .ok r ∧
      t.files[0]? = some r ∧
      (fixture_lines.length < SIZE_MOD →
        r.cumulated_lines_count = ((t.files.drop 1).map (fun f => f.lines_count)).sum) ∧
      r.cumulated_lines_count =
        ((t.files.drop 1).map (fun f => f.lines_count)).sum % SIZE_MOD :=
  ⟨rfl, (root_cumulated_count 0 fixture_lines true rfl).resolve_left (by
    have h : IncludeTree.from_lines 0 fixture_lines true = .ok _ := rfl
    rw [h]
    exact fun hc => by cases hc)⟩

/-! ### C21: retention touches `lines` only -/

/-- C21: for every sequence of input lines, `from_lines` without retention (in
storage `store1`) and `from_lines` with retention (in storage `store2`) have
corresponding outcomes: either both raise the same fault, or both return a
tree; the two trees have the same number of records, and the records at the
same position agree on `filename`, `included_at_line`, `depth`, `lines_count`,
`cumulated_lines_count` and `last_effective_line`, and their `includes` address
the same positions, one in each storage.  Only `lines` can differ. -/
theorem retention_touches_lines_only (store1 store2 : Nat) (lines : List String) :
    (∃ e, IncludeTree.from_lines store1 lines false = .error e ∧
      IncludeTree.from_lines store2 lines true = .error e) ∨
    (∃ t1 t2, IncludeTree.from_lines store1 lines false = .ok t1 ∧
      IncludeTree.from_lines store2 lines true = .ok t2 ∧
      t1.files.length = t2.files.length ∧ t1.root.idx = t2.root.idx ∧
      (∀ (i : Nat) (f1 : PreprocessedFile), t1.files[i]? = some f1 →
        ∃ f2 : PreprocessedFile, t2.files[i]? = some f2 ∧
          f1.filename = f2.filename ∧ f1.included_at_line = f2.included_at_line ∧
          f1.depth = f2.depth ∧ f1.lines_count = f2.lines_count ∧
          f1.cumulated_lines_count = f2.cumulated_lines_count ∧
          f1.last_effective_line = f2.last_effective_line ∧
          f1.includes.map Ptr.idx = f2.includes.map Ptr.idx ∧
          f2.includes = f1.includes.map (Ptr.rebase store2))) := by
  have hrel := treeRel_from_lines store1 store2 lines false true
  cases h1 : IncludeTree.from_lines store1 lines false with
  | error e1 =>
    cases h2 : IncludeTree.from_lines store2 lines true with
    | error e2 =>
      rw [h1, h2] at hrel
      have he : e1 = e2 := hrel
      subst he
      exact Or.inl ⟨e1, rfl, rfl⟩
    | ok t2 =>
      rw [h1, h2] at hrel
      exact hrel.elim
  | ok t1 =>
    cases h2 : IncludeTree.from_lines store2 lines true with
    | error e2 =>
      rw [h1, h2] at hrel
      exact hrel.elim
    | ok t2 =>
      rw [h1, h2] at hrel
      have ht : TreeRel store1 store2 t1 t2 := hrel
      obtain ⟨-, hst2, hfiles, hroot⟩ := ht
      obtain ⟨-, hvalid⟩ := from_lines_valid h2
      refine Or.inr ⟨t1, t2, rfl, rfl, hfiles.length_eq, hroot.1, ?_⟩
      intro i f1 hf1
      rcases forall₂_getElem? hfiles i with ⟨e1, -⟩ | ⟨a, b, e1, e2, hab⟩
      · rw [e1] at hf1
        cases hf1
      · rw [e1] at hf1
        cases hf1
        have hidx := forall₂_ptrRel_idx hab.2.2.2.2.2.2
        refine ⟨b, e2, hab.1, hab.2.1, hab.2.2.1, hab.2.2.2.1, hab.2.2.2.2.1, hab.2.2.2.2.2.1,
          hidx, rebase_of_idx hidx ?_⟩
        intro c hc
        rw [← hst2]
        exact (hvalid b (List.getElem?_mem e2) c hc).1

/-- Witness for `retention_touches_lines_only`: the test fixture, for which both
calls return a tree. -/
theorem retention_touches_lines_only_witness :
    ∃ t1 t2, IncludeTree.from_lines 0 fixture_lines false = .ok t1 ∧
      IncludeTree.from_lines 1 fixture_lines true = .ok t2 ∧
      t1.files.length = t2.files.length ∧ t1.root.idx = t2.root.idx ∧
      (∀ (i : Nat) (f1 : PreprocessedFile), t1.files[i]? = some f1 →
        ∃ f2 : PreprocessedFile, t2.files[i]? = some f2 ∧
          f1.filename = f2.filename ∧ f1.included_at_line = f2.included_at_line ∧
          f1.depth = f2.depth ∧ f1.lines_count = f2.lines_count ∧
          f1.cumulated_lines_count = f2.cumulated_lines_count ∧
          f1.last_effective_line = f2.last_effective_line ∧
          f1.includes.map Ptr.idx = f2.includes.map Ptr.idx ∧
          f2.includes = f1.includes.map (Ptr.rebase 1)) :=
  (retention_touches_lines_only 0 1 fixture_lines).resolve_left (by
    have h : IncludeTree.from_lines 0 fixture_lines false = .ok _ := rfl
    rw [h]
    rintro ⟨e, he, -⟩
    cases he)
end Linemarkers
